import Mathlib

/-!
# hyperchecker: the decentralized-voting chaincode (`src/main.go`)

A shallow embedding of the chaincode handlers of `src/main.go` and the
properties of its token / poll lifecycle.

Conventions of the embedding

* Go strings are Lean `String`s (valid UTF-8).  Byte-wise lexicographic order
  on valid UTF-8 coincides with code-point order, which `strLt` computes.
* Go `int` is the 64-bit signed integer: an `Int` kept in range by `wrapInt`.
* The key-value ledger (the Hyperledger Fabric shim) is not part of the
  repository; it is modelled from the specification, see `Ledger`.
* A stored value is the JSON encoding of one of the three record types the
  chaincode ever marshals; it is kept symbolic as a `Value`.
* Every handler takes the ledger and returns the new ledger with its
  result; `none` stands for a Go run-time panic (index out of range).
* Printing to standard output is not modelled.
-/

set_option autoImplicit false

namespace Hyperchecker

/-! ## Strings: order, `strings.Split`, `strings.TrimSpace` -/

/-- Lexicographic comparison of two character sequences by code point. -/
def ltChars : List Char → List Char → Bool
  | [], [] => false
  | [], _ :: _ => true
  | _ :: _, [] => false
  | a :: as, b :: bs =>
    if a.toNat < b.toNat then true
    else if b.toNat < a.toNat then false
    else ltChars as bs

/-- Strict lexicographic order on keys, as used by the ledger range scan. -/
def strLt (a b : String) : Bool := ltChars a.data b.data

/-- Go `strings.Split` on character sequences, for a non-empty separator.
`skip` counts the characters of an already matched separator that are still
to be dropped. The result lists the pieces between successive non-overlapping
occurrences of `sep`, scanning from the left. -/
def splitChars (sep : List Char) : List Char → Nat → List (List Char)
  | [], _ => [[]]
  | _ :: cs, skip + 1 => splitChars sep cs skip
  | c :: cs, 0 =>
    if sep.isPrefixOf (c :: cs) then
      [] :: splitChars sep cs (sep.length - 1)
    else
      match splitChars sep cs 0 with
      | [] => [[c]]
      | seg :: segs => (c :: seg) :: segs

/-- Go `strings.Split(s, sep)` for a non-empty `sep`. -/
def Split (s sep : String) : List String :=
  (splitChars sep.data s.data 0).map String.mk

/-- Go `unicode.IsSpace`: the Unicode White_Space code points. -/
def isSpace (c : Char) : Bool :=
  let n := c.toNat
  (9 ≤ n && n ≤ 13) || n == 32 || n == 0x85 || n == 0xA0 || n == 0x1680 ||
  (0x2000 ≤ n && n ≤ 0x200A) || n == 0x2028 || n == 0x2029 || n == 0x202F ||
  n == 0x205F || n == 0x3000

/-- Go `strings.TrimSpace`: drop leading and trailing white space. -/
def TrimSpace (s : String) : String :=
  ⟨((s.data.dropWhile isSpace).reverse.dropWhile isSpace).reverse⟩

/-! ## Integers: `int`, `strconv.Itoa`, `strconv.Atoi` -/

/-- Two's-complement wrap-around of a mathematical integer into Go's 64-bit `int`. -/
def wrapInt (x : Int) : Int := (x + 2 ^ 63) % 2 ^ 64 - 2 ^ 63

/-- The decimal digit character of `d < 10`. -/
def digitChar (d : Nat) : Char := Char.ofNat (48 + d)

/-- Decimal digits of `n`, most significant first, pushed in front of `acc`. -/
def decimalAux : Nat → Nat → List Char → List Char
  | 0, _, acc => acc
  | fuel + 1, n, acc =>
    if n < 10 then digitChar n :: acc
    else decimalAux fuel (n / 10) (digitChar (n % 10) :: acc)

/-- Decimal numeral of a natural number, without leading zeros. -/
def decimal (n : Nat) : List Char := decimalAux (n + 1) n []

/-- Go `strconv.Itoa`. -/
def Itoa (i : Int) : String :=
  match i with
  | Int.ofNat n => ⟨decimal n⟩
  | Int.negSucc n => ⟨'-' :: decimal (n + 1)⟩

/-- The two kinds of `*strconv.NumError` (`invalid`: Go's "invalid syntax",
`outOfRange`: Go's "value out of range"). -/
inductive NumError where
  | invalid
  | outOfRange
  deriving DecidableEq, Repr

/-- Go `strconv.ParseUint(s, 10, 64)` main loop: reads the digits from the left,
stops at the first non-digit with an `invalid` error and at the first
overflow of 64 bits with an `outOfRange` error. -/
def parseUintLoop : List Char → Nat → Except NumError Nat
  | [], n => .ok n
  | c :: cs, n =>
    if 48 ≤ c.toNat ∧ c.toNat ≤ 57 then
      let n1 := n * 10 + (c.toNat - 48)
      if 2 ^ 64 ≤ n1 then .error .outOfRange else parseUintLoop cs n1
    else .error .invalid

/-- Go `strconv.ParseUint(s, 10, 64)`; the value returned with an error is the
one Go returns (0 on a malformed input, the largest value on overflow). -/
def parseUint (s : List Char) : Nat × Option NumError :=
  match s with
  | [] => (0, some .invalid)
  | _ =>
    match parseUintLoop s 0 with
    | .ok n => (n, none)
    | .error .invalid => (0, some .invalid)
    | .error .outOfRange => (2 ^ 64 - 1, some .outOfRange)

/-- Go `strconv.Atoi` on a 64-bit platform: optional sign, decimal digits; the
second component is the error, if any, and the first the value Go returns with
it. -/
def Atoi (s : String) : Int × Option NumError :=
  match s.data with
  | [] => (0, some .invalid)
  | c :: cs =>
    let neg := c == '-'
    let body := if c == '+' ∨ c == '-' then cs else c :: cs
    match parseUint body with
    | (_, some .outOfRange) =>
      (if neg then -(2 ^ 63 : Int) else 2 ^ 63 - 1, some .outOfRange)
    | (_, some .invalid) => (0, some .invalid)
    | (n, none) =>
      if ¬ neg ∧ 2 ^ 63 ≤ n then (2 ^ 63 - 1, some .outOfRange)
      else if neg ∧ 2 ^ 63 < n then (-(2 ^ 63 : Int), some .outOfRange)
      else (if neg then -(n : Int) else (n : Int), none)

/-! ## Records -/

/-- A user record (`type User struct`). -/
structure User where
  Address : String
  DPCoin : Int
  deriving DecidableEq, Repr

/-- A poll record (`type Poll struct`). -/
structure Poll where
  Host : String
  Detail : String
  Deadline : String
  Result : String
  deriving DecidableEq, Repr

/-- A vote token (`type VoteToken struct`). -/
structure VoteToken where
  Creator : String
  Owner : String
  PollID : String
  Response : String
  deriving DecidableEq, Repr

/-- The bytes stored under a ledger key: the JSON encoding (`json.Marshal`) of
one of the three records. The three encodings have pairwise disjoint field
names. -/
inductive Value where
  | user (u : User)
  | poll (p : Poll)
  | token (t : VoteToken)
  deriving DecidableEq, Repr

/-- The effect of `votetoken := VoteToken{}; json.Unmarshal(bytes, &votetoken)`:
the fields of a stored token are read back; absent bytes (an error that the
code ignores) and the encodings of the other records, none of whose fields
belongs to a token, leave the zero value. -/
def unmarshalVoteToken : Option Value → VoteToken
  | some (.token t) => t
  | _ => ⟨"", "", "", ""⟩

/-- The effect of `poll := Poll{}; json.Unmarshal(bytes, &poll)`. -/
def unmarshalPoll : Option Value → Poll
  | some (.poll p) => p
  | _ => ⟨"", "", "", ""⟩

/-! ## The key-value ledger -/

/-- Modelled from the spec: the KV Ledger capability (`shim.ChaincodeStubInterface`),
which the repository uses but does not contain. A ledger is the list of the
writes made so far, the most recent first; the entry read for a key is the
first one that carries it. -/
abbrev Ledger := List (String × Value)

/-- Modelled from the spec: `Get(key) -> bytes|absent`. The empty key is never
stored (see `PutState`). -/
def GetState (l : Ledger) (key : String) : Option Value :=
  if key = "" then none else l.lookup key

/-- Modelled from the spec: `Put(key, bytes)`. The shim rejects the empty key
with an error, which every caller in `main.go` ignores. -/
def PutState (l : Ledger) (key : String) (value : Value) : Ledger :=
  if key = "" then l else (key, value) :: l

/-- Modelled from the spec: `Delete(key)`. -/
def DelState (l : Ledger) (key : String) : Ledger :=
  l.filter (fun e => e.1 != key)

/-- Membership of a key in the half-open range `[startKey, endKey)`. -/
def inRange (startKey endKey k : String) : Bool :=
  !(strLt k startKey) && strLt k endKey

/-- The keys of the ledger lying in `[startKey, endKey)`, each once, in
increasing lexicographic order. -/
def rangeKeys (l : Ledger) (startKey endKey : String) : List String :=
  (((l.map Prod.fst).filter (inRange startKey endKey)).dedup).insertionSort
    (fun a b => strLt b a = false)

/-- Modelled from the spec: `RangeScan(startKey, endKey) -> ordered sequence of
(key, bytes)` over the keys in `[startKey, endKey)` in lexicographic order, for
non-empty bounds. -/
def GetStateByRange (l : Ledger) (startKey endKey : String) : List (String × Value) :=
  (rangeKeys l startKey endKey).filterMap
    (fun k => (GetState l k).map (fun v => (k, v)))

/-! ## Results of a handler -/

/-- The text of a failure: a literal message, or the `Error()` text of the
`*strconv.NumError` that `strconv.Atoi` returned for `input`. -/
inductive Message where
  | text (s : String)
  | atoiError (input : String) (e : NumError)
  deriving DecidableEq, Repr

/-- One write into a response buffer: literal text, or the stored bytes of a
record written as they are. -/
inductive Piece where
  | text (s : String)
  | record (v : Value)
  deriving DecidableEq, Repr

/-- The chaincode response (`sc.Response`): `shim.Success(payload)` or
`shim.Error(msg)`. A `nil` payload is the empty list. -/
inductive Response where
  | Success (payload : List Piece)
  | Error (msg : Message)
  deriving DecidableEq, Repr

/-- A Go `map[string]β`, as its list of entries with pairwise distinct keys. -/
abbrev GoMap (β : Type) := List (String × β)

/-- The map lookup `v, ok := m[k]`. -/
def mapGet {β : Type} (m : GoMap β) (k : String) : Option β := m.lookup k

/-- The map assignment `m[k] = v`. -/
def mapSet {β : Type} : GoMap β → String → β → GoMap β
  | [], k, v => [(k, v)]
  | (k1, v1) :: rest, k, v =>
    if k1 = k then (k, v) :: rest else (k1, v1) :: mapSet rest k v

/-! ## Handlers of `main.go` -/

/-- The handler `queryUser` (main.go 93-101). -/
def queryUser (l : Ledger) (args : List String) : Option (Response × Ledger) :=
  match args with
  | [a0] =>
    match GetState l a0 with
    | some v => some (.Success [.record v], l)
    | none => some (.Success [], l)
  | _ => some (.Error (.text "Incorrect number of arguments. Expecting 1"), l)

/-- The sample users of `initLedger`. -/
def sampleUsers : List User :=
  [⟨"kirby", 100⟩, ⟨"ribky", 100⟩, ⟨"kyrib", 100⟩, ⟨"bikry", 100⟩, ⟨"irkby", 100⟩]

/-- The loop of `initLedger` (main.go 117-124). -/
def initLedgerLoop : List User → Int → Ledger → Ledger
  | [], _, l => l
  | u :: rest, i, l => initLedgerLoop rest (i + 1) (PutState l ("USER" ++ Itoa i) (.user u))

/-- The handler `initLedger` (main.go 107-126). -/
def initLedger (l : Ledger) : Option (Response × Ledger) :=
  some (.Success [], initLedgerLoop sampleUsers 0 l)

/-- The outcome of the allocation scan shared by `mintTokens` and `createPoll`. -/
inductive ScanResult where
  | index (maxindex : Int)
  | parseError (input : String) (e : NumError)
  | indexOutOfRange
  deriving DecidableEq, Repr

/-- The allocation scan (main.go 149-169 with `pref = "VOTETOKEN"`, 217-235 with
`pref = "POLL"`): for every scanned key, the piece after the first occurrence
of `pref` is parsed with `strconv.Atoi` and the running maximum is kept.
`indexOutOfRange` is the panic of `strings.Split(keystr, pref)[1]` on a key
without `pref`. -/
def scanMaxIndex (pref : String) : List (String × Value) → Int → ScanResult
  | [], maxindex => .index maxindex
  | (keystr, _) :: rest, maxindex =>
    match (Split keystr pref)[1]? with
    | none => .indexOutOfRange
    | some lastkey =>
      match Atoi lastkey with
      | (_, some e) => .parseError lastkey e
      | (newindex, none) =>
        scanMaxIndex pref rest (if maxindex < newindex then newindex else maxindex)

/-- The minting loop of `mintTokens` (main.go 178-192); `maxindex` is the
value after the increment of line 171. -/
def mintLoop (creator pollid : String) (maxindex : Int) :
    List String → Int → Ledger → GoMap String → Ledger × GoMap String
  | [], _, l, usrvt => (l, usrvt)
  | a :: rest, i, l, usrvt =>
    let address := TrimSpace a
    let votetoken : VoteToken :=
      { Creator := creator, Owner := address, PollID := pollid, Response := "" }
    let vtid := "VOTETOKEN" ++ Itoa (wrapInt (maxindex + i))
    mintLoop creator pollid maxindex rest (i + 1)
      (PutState l vtid (.token votetoken)) (mapSet usrvt address vtid)

/-- The function `mintTokens` (main.go 133-195). The first component is the
returned map, `none` for Go's `nil`. -/
def mintTokens (l : Ledger) (args : List String) :
    Option (Option (GoMap String) × Ledger) :=
  match args with
  | [a0, a1, a2] =>
    match scanMaxIndex "VOTETOKEN" (GetStateByRange l "VOTETOKEN0" "VOTETOKEN999") 0 with
    | .indexOutOfRange => none
    | .parseError _ _ => some (none, l)
    | .index m =>
      let maxindex := wrapInt (m + 1)
      let addresses := Split a1 ","
      let r := mintLoop a0 a2 maxindex addresses 0 l []
      some (some r.2, r.1)
  | _ => some (none, l)

/-- The handler `createPoll` (main.go 202-252). -/
def createPoll (l : Ledger) (args : List String) : Option (Response × Ledger) :=
  match args with
  | [a0, a1, a2, a3] =>
    match scanMaxIndex "POLL" (GetStateByRange l "POLL0" "POLL999") 0 with
    | .indexOutOfRange => none
    | .parseError s e => some (.Error (.atoiError s e), l)
    | .index m =>
      let maxindex := wrapInt (m + 1)
      let newpoll : Poll := { Host := a0, Detail := a2, Deadline := a3, Result := "" }
      let newpollid := "POLL" ++ Itoa maxindex
      let l1 := PutState l newpollid (.poll newpoll)
      match mintTokens l1 [a0, a1, newpollid] with
      | none => none
      | some (_, l2) => some (.Success [], l2)
  | _ => some (.Error (.text "Incorrect number of arguments. Expecting 4"), l)

/-- The handler `createUser` (main.go 270-280); the error of `Atoi` is ignored. -/
def createUser (l : Ledger) (args : List String) : Option (Response × Ledger) :=
  match args with
  | [a0, a1, a2] =>
    let valueArg := (Atoi a2).1
    let user : User := { Address := a1, DPCoin := valueArg }
    some (.Success [], PutState l a0 (.user user))
  | _ => some (.Error (.text "Incorrect number of arguments. Expecting 3"), l)

/-- The handler `deleteUser` (main.go 286-299). -/
def deleteUser (l : Ledger) (args : List String) : Option (Response × Ledger) :=
  match args with
  | [a0] => some (.Success [], DelState l a0)
  | _ => some (.Error (.text "Incorrect number of arguments. Expecting 1"), l)

/-- The loop of `queryData` (main.go 323-343). -/
def queryDataLoop : List (String × Value) → Bool → List Piece → List Piece
  | [], _, buffer => buffer
  | (key, value) :: rest, written, buffer =>
    let buffer := if written = true then buffer ++ [.text ","] else buffer
    let buffer := buffer ++ [.text "\x7b\"Key\":", .text "\"", .text key, .text "\"",
      .text ", \"Record\":", .record value, .text "\x7d"]
    queryDataLoop rest true buffer

/-- Modelled from the spec: the failure of `RangeScan`. The shim refuses a
bound whose first character is U+0000, the mark of its composite keys, and
names that bound in the error. The scans with constant bounds (`POLL0`,
`VOTETOKEN0`, ...) never fail, so only `queryData` can take this branch. -/
def rangeScanError (startKey endKey : String) : Option Message :=
  if startKey.data.head? = some (Char.ofNat 0) then
    some (.text ("first character of the key [" ++ startKey ++
      "] contains a null character which is not allowed"))
  else if endKey.data.head? = some (Char.ofNat 0) then
    some (.text ("first character of the key [" ++ endKey ++
      "] contains a null character which is not allowed"))
  else none

/-- The handler `queryData` (main.go 306-349). It reads `args[0]` without a
length check; the failure of the range scan is returned (main.go 312-315). -/
def queryData (l : Ledger) (args : List String) : Option (Response × Ledger) :=
  match args with
  | [] => none
  | a0 :: _ =>
    let startKey := a0 ++ "0"
    let endKey := a0 ++ "999"
    match rangeScanError startKey endKey with
    | some msg => some (.Error msg, l)
    | none =>
      let buffer := queryDataLoop (GetStateByRange l startKey endKey) false [.text "["]
      some (.Success (buffer ++ [.text "]"]), l)

/-- The handler `queryVoteToken` (main.go 354-362). -/
def queryVoteToken (l : Ledger) (args : List String) : Option (Response × Ledger) :=
  match args with
  | [a0] =>
    match GetState l a0 with
    | some v => some (.Success [.record v], l)
    | none => some (.Success [], l)
  | _ => some (.Error (.text "Incorrect number of arguments. Expecting 1"), l)

/-- The loop shared by `getUserTokens` (main.go 406-420, `field` the owner) and
`getPollTokens` (main.go 438-452, `field` the poll id). -/
def tokenKeysLoop (field : VoteToken → String) (arg : String) :
    List (String × Value) → String → Bool → String
  | [], tokenKeys, _ => tokenKeys
  | (key, jsvalue) :: rest, tokenKeys, written =>
    let votetoken := unmarshalVoteToken (some jsvalue)
    let tokenKeys :=
      if field votetoken = arg then
        (if written = true then tokenKeys ++ ", " else tokenKeys) ++ key
      else tokenKeys
    tokenKeysLoop field arg rest tokenKeys true

/-- The function `getUserTokens` (main.go 398-422). -/
def getUserTokens (l : Ledger) (arg : String) : String :=
  tokenKeysLoop VoteToken.Owner arg (GetStateByRange l "VOTETOKEN0" "VOTETOKEN999") "" false

/-- The function `getPollTokens` (main.go 430-454). -/
def getPollTokens (l : Ledger) (arg : String) : String :=
  tokenKeysLoop VoteToken.PollID arg (GetStateByRange l "VOTETOKEN0" "VOTETOKEN999") "" false

/-- The handler `queryUserToken` (main.go 369-390). -/
def queryUserToken (l : Ledger) (args : List String) : Option (Response × Ledger) :=
  match args with
  | [owner] =>
    let tokenIds := getUserTokens l owner
    some (.Success [.text "[", .text "\x7b\"User\":", .text "\"", .text owner, .text "\"",
      .text ", \"Tokens\":", .text tokenIds, .text "\x7d", .text "]"], l)
  | _ => some (.Error (.text "Incorrect number of arguments. Expecting 1"), l)

/-- The text of the failure of `vote`. -/
def voteNotFound : String := "Vote invitation matching the given information not found"

/-- The loop of `vote` (main.go 468-486). -/
def voteLoop (l : Ledger) (creator pollid response : String) :
    List String → Response × Ledger
  | [] => (.Error (.text voteNotFound), l)
  | tid :: rest =>
    let tokenId := TrimSpace tid
    let votetoken := unmarshalVoteToken (GetState l tokenId)
    if votetoken.Creator = creator ∧ votetoken.PollID = pollid then
      let votetoken := { votetoken with Response := response, Owner := creator }
      (.Success [], PutState l tokenId (.token votetoken))
    else voteLoop l creator pollid response rest

/-- The handler `vote` (main.go 461-487). -/
def vote (l : Ledger) (args : List String) : Option (Response × Ledger) :=
  match args with
  | [a0, a1, a2, a3] =>
    let tokenIds := Split (getUserTokens l a0) ","
    some (voteLoop l a1 a2 a3 tokenIds)
  | _ => some (.Error (.text "Incorrect number of arguments. Expecting 4"), l)

/-- The counting loop of `completePoll` (main.go 502-531). A count never
exceeds the number of token ids, so the addition does not wrap around. -/
def countLoop (l : Ledger) : List String → GoMap Int → GoMap Int
  | [], results => results
  | tid :: rest, results =>
    let tokenId := TrimSpace tid
    let votetoken := unmarshalVoteToken (GetState l tokenId)
    let ans := votetoken.Response
    let results :=
      if ans ≠ "" then
        match mapGet results ans with
        | some c => mapSet results ans (c + 1)
        | none => mapSet results ans 1
      else results
    countLoop l rest results

/-- The winner loop of `completePoll` (main.go 532-541) over the entries of the
map in the order in which `range` yields them. -/
def winnerLoop : List (String × Int) → Int → String → String
  | [], _, maxk => maxk
  | (k, v) :: rest, maxv, maxk =>
    if v > maxv then winnerLoop rest v k
    else if v = maxv then winnerLoop rest maxv (maxk ++ ", " ++ k)
    else winnerLoop rest maxv maxk

/-- The handler `completePoll` (main.go 494-552). Go leaves the iteration
order of a map unspecified: `order` gives the sequence in which `range`
yields the entries of the map. -/
def completePoll (order : GoMap Int → List (String × Int)) (l : Ledger)
    (args : List String) : Option (Response × Ledger) :=
  match args with
  | [a0] =>
    let tokenIds := Split (getPollTokens l a0) ","
    let results := countLoop l tokenIds []
    let maxk := winnerLoop (order results) 0 ""
    let poll := unmarshalPoll (GetState l a0)
    let poll := { poll with Result := maxk }
    some (.Success [], PutState l a0 (.poll poll))
  | _ => some (.Error (.text "Incorrect number of arguments. Expecting 1"), l)

/-- The dispatcher `Invoke` (main.go 56-87) on the function name and the
arguments of the request. -/
def Invoke (order : GoMap Int → List (String × Int)) (l : Ledger)
    (function : String) (args : List String) : Option (Response × Ledger) :=
  if function = "queryUser" then queryUser l args
  else if function = "initLedger" then initLedger l
  else if function = "mintTokens" then
    match mintTokens l args with
    | none => none
    | some (_, l1) => some (.Success [], l1)
  else if function = "createUser" then createUser l args
  else if function = "deleteUser" then deleteUser l args
  else if function = "queryData" then queryData l args
  else if function = "queryVoteToken" then queryVoteToken l args
  else if function = "queryUserToken" then queryUserToken l args
  else if function = "createPoll" then createPoll l args
  else if function = "vote" then vote l args
  else if function = "completePoll" then completePoll order l args
  else some (.Error (.text "Invalid Smart Contract function name."), l)

/-! ## Auxiliary notions used to state the properties -/

/-- The non-strict key order by which a range scan is sorted. -/
abbrev keyLe (a b : String) : Prop := strLt b a = false

/-- A key free of commas and of leading or trailing white space: one that
survives the comma-joined key list of `getUserTokens` and `getPollTokens`. -/
def cleanKey (k : String) : Prop := ',' ∉ k.data ∧ TrimSpace k = k

/-- The keys of the vote-token scan range are all clean. -/
def cleanTokenKeys (l : Ledger) : Prop :=
  ∀ k v, (k, v) ∈ GetStateByRange l "VOTETOKEN0" "VOTETOKEN999" → cleanKey k

/-- The stored bytes decode to a token owned by `voter` that `creator` minted
for the poll `pollId`. -/
def matchesVote (voter creator pollId : String) (v : Value) : Prop :=
  (unmarshalVoteToken (some v)).Owner = voter ∧
  (unmarshalVoteToken (some v)).Creator = creator ∧
  (unmarshalVoteToken (some v)).PollID = pollId

/-- The tail of a comma-joined key list: every key preceded by `", "`. -/
def tailStr : List String → String
  | [] => ""
  | k :: ks => ", " ++ k ++ tailStr ks

/-- The keys of the scanned entries whose decoded token has `field` equal to `arg`. -/
def selectedKeys (field : VoteToken → String) (arg : String)
    (sc : List (String × Value)) : List String :=
  (sc.filter (fun e => decide (field (unmarshalVoteToken (some e.2)) = arg))).map Prod.fst

instance (voter creator pollId : String) (v : Value) :
    Decidable (matchesVote voter creator pollId v) := by
  unfold matchesVote
  infer_instance

/-- The first scanned entry, in scan order, whose token matches the vote. -/
def firstMatch (voter creator pollId : String)
    (sc : List (String × Value)) : Option (String × Value) :=
  sc.find? (fun e => decide (matchesVote voter creator pollId e.2))

/-- The token that `vote` writes back: the response is set and the ownership
returns to the creator given in the call. -/
def answered (v : Value) (creator response : String) : Value :=
  .token { unmarshalVoteToken (some v) with Response := response, Owner := creator }

/-- The result of `vote` in terms of the first matching entry of the scan. -/
def voteOutcome (l : Ledger) (creator response : String) :
    Option (String × Value) → Response × Ledger
  | some (k, v) => (.Success [], PutState l k (answered v creator response))
  | none => (.Error (.text voteNotFound), l)

/-- The piece in front of the first separator of a joined key list: the first
scanned key when it is selected, empty otherwise. -/
def headPiece (field : VoteToken → String) (arg : String) :
    List (String × Value) → List String
  | [] => [""]
  | e :: _ => if field (unmarshalVoteToken (some e.2)) = arg then [] else [""]

instance (k : String) : Decidable (cleanKey k) := by
  unfold cleanKey
  infer_instance

/-- A ledger with two unanswered tokens of poll `POLL1`, held by bob and carol. -/
def twoTokenLedger : Ledger :=
  [("VOTETOKEN2", .token ⟨"alice", "carol", "POLL1", ""⟩),
   ("VOTETOKEN1", .token ⟨"alice", "bob", "POLL1", ""⟩)]

/-- The ledger that `createPoll` leaves on the empty ledger when alice invites
bob twice. -/
def invitedTwiceLedger : Ledger :=
  [("VOTETOKEN2", .token ⟨"alice", "bob", "POLL1", ""⟩),
   ("VOTETOKEN1", .token ⟨"alice", "bob", "POLL1", ""⟩),
   ("POLL1", .poll ⟨"alice", "lunch?", "2099-01-01", ""⟩)]

/-- The largest count among the entries, starting from `m`. -/
def maxFrom (m : Int) (es : List (String × Int)) : Int :=
  es.foldl (fun acc e => max acc e.2) m

/-- The largest count of a response-to-count mapping. -/
def maxCount (es : List (String × Int)) : Int := maxFrom 0 es

/-- The responses whose count is `m`, in the order of the entries. -/
def withCount (m : Int) (es : List (String × Int)) : List String :=
  (es.filter (fun e => decide (e.2 = m))).map Prod.fst

/-- The leading responses: those whose count is the largest one. -/
def leaders (es : List (String × Int)) : List String := withCount (maxCount es) es

/-- Appending further responses to a winner string, each after `", "`. -/
def joinOnto (acc : String) (ks : List String) : String :=
  ks.foldl (fun a k => a ++ ", " ++ k) acc

/-- The index that the allocation scan reads off a key: the piece after the
first occurrence of `pref`, parsed by `strconv.Atoi`. -/
def parseKey (pref key : String) : Option Int :=
  match (Split key pref)[1]? with
  | none => none
  | some lastkey =>
    match Atoi lastkey with
    | (n, none) => some n
    | (_, some _) => none

/-- The key of the vote token of index `i`. -/
def tokenKey (i : Int) : String := "VOTETOKEN" ++ Itoa i

/-- The key of the poll of index `i`. -/
def pollKey (i : Int) : String := "POLL" ++ Itoa i

/-- The token minted for an address of the list given to `mintTokens`. -/
def mintedToken (creator pollId address : String) : Value :=
  .token { Creator := creator, Owner := TrimSpace address, PollID := pollId, Response := "" }

/-- The writes of one `mintTokens` call with base index `b`: one token per
address, at consecutive indices in the order of the addresses. -/
def mintWrites (creator pollId : String) (b : Int) (addrs : List String) :
    List (String × Value) :=
  addrs.enum.map (fun ia => (tokenKey (b + (ia.1 : Int)), mintedToken creator pollId ia.2))

/-- The ledger after a sequence of writes, the first of the list first. -/
def applyWrites (l : Ledger) (ws : List (String × Value)) : Ledger :=
  ws.foldl (fun acc w => PutState acc w.1 w.2) l

/-- The writes of the minting loop of `mintTokens` started at counter `i`, as
the loop computes their keys. -/
def mintLoopWrites (creator pollid : String) (maxindex : Int) :
    List String → Int → List (String × Value)
  | [], _ => []
  | a :: rest, i =>
    (tokenKey (wrapInt (maxindex + i)), mintedToken creator pollid a) ::
      mintLoopWrites creator pollid maxindex rest (i + 1)

/-- A sequence of `mintTokens` calls, each given by creator, address list and
poll id, run one after the other; `none` when a call does not return its map. -/
def mintRun : Ledger → List (String × String × String) → Option Ledger
  | l, [] => some l
  | l, (c, a, p) :: rest =>
    match mintTokens l [c, a, p] with
    | some (some _, l1) => mintRun l1 rest
    | _ => none

/-- One token per call, at consecutive indices from `first` on in call order. -/
def singleMintWrites (first : Nat) (calls : List (String × String × String)) :
    List (String × Value) :=
  (calls.enumFrom first).map
    (fun jc => (tokenKey (jc.1 : Int), mintedToken jc.2.1 jc.2.2.2 jc.2.2.1))

/-- The token scan of a ledger that holds, in the scan range, tokens of
indices `1` to `j` only, the one of index `j` among them. -/
def mintedUpTo (j : Nat) (l : Ledger) : Prop :=
  (∀ k v, (k, v) ∈ GetStateByRange l "VOTETOKEN0" "VOTETOKEN999" →
    ∃ i : Nat, 1 ≤ i ∧ i ≤ j ∧ k = tokenKey (i : Int)) ∧
  (1 ≤ j → j ≤ 998 → ∃ v, (tokenKey (j : Int), v) ∈ GetStateByRange l "VOTETOKEN0" "VOTETOKEN999")

/-- A ledger that holds the 1000 polls `POLL0`, ..., `POLL999`. -/
def fullPollLedger : Ledger :=
  (List.range 1000).map
    (fun (i : Nat) => (pollKey (i : Int), Value.poll ⟨"host", "detail", "deadline", ""⟩))

/-- A ledger that holds the 1000 tokens `VOTETOKEN0`, ..., `VOTETOKEN999`. -/
def fullTokenLedger : Ledger :=
  (List.range 1000).map
    (fun (i : Nat) => (tokenKey (i : Int), Value.token ⟨"host", "voter", "POLL1", ""⟩))

/-- The ledger that `createPoll` leaves on the empty ledger when alice invites
bob and carol. -/
def pollOpenLedger : Ledger :=
  [("VOTETOKEN2", .token ⟨"alice", "carol", "POLL1", ""⟩),
   ("VOTETOKEN1", .token ⟨"alice", "bob", "POLL1", ""⟩),
   ("POLL1", .poll ⟨"alice", "lunch?", "2099-01-01", ""⟩)]

/-- The ledger `pollOpenLedger` after bob has voted for pizza. -/
def bobVotedLedger : Ledger :=
  ("VOTETOKEN1", .token ⟨"alice", "alice", "POLL1", "pizza"⟩) :: pollOpenLedger

/-- The winner string that `completePoll` computes for a poll id. -/
def pollWinner (order : GoMap Int → List (String × Int)) (l : Ledger) (pollId : String) :
    String :=
  winnerLoop (order (countLoop l (Split (getPollTokens l pollId) ",") [])) 0 ""

/-- The key begins with `pref`. -/
def startsWith (pref k : String) : Bool := pref.data.isPrefixOf k.data

/-- The response-to-count mapping that `completePoll` builds for a poll id. -/
def pollCounts (l : Ledger) (pollId : String) : GoMap Int :=
  countLoop l (Split (getPollTokens l pollId) ",") []

/-- The number of scanned entries whose token has the given poll id and response. -/
def countIn (pollId r : String) (sc : List (String × Value)) : Nat :=
  (sc.filter (fun e => decide ((unmarshalVoteToken (some e.2)).PollID = pollId ∧
    (unmarshalVoteToken (some e.2)).Response = r))).length

/-- The number of tokens of the token scan range with the given poll id and
response. -/
def responseCount (l : Ledger) (pollId r : String) : Nat :=
  countIn pollId r (GetStateByRange l "VOTETOKEN0" "VOTETOKEN999")

/-- The suffix of a key after a prefix of the length of `pref`. -/
def suffixOf (pref k : String) : String := ⟨k.data.drop pref.data.length⟩

/-- Every scanned key has a suffix that `strconv.Atoi` parses, and `m` is the
numeric maximum of the parsed suffixes. -/
def isMaxSuffix (pref : String) (sc : List (String × Value)) (m : Int) : Prop :=
  (∀ e ∈ sc, (Atoi (suffixOf pref e.1)).2 = none ∧ (Atoi (suffixOf pref e.1)).1 ≤ m) ∧
  ∃ e ∈ sc, (Atoi (suffixOf pref e.1)).1 = m

/-- Every stored key that begins with `pref` is `pref` followed by a canonical
decimal numeral and lies inside the scan range `[pref0, pref999)`. -/
def canonicalKeys (pref : String) (l : Ledger) : Prop :=
  ∀ k v, GetState l k = some v → startsWith pref k = true →
    (∃ n : Nat, k = pref ++ ⟨decimal n⟩) ∧ inRange (pref ++ "0") (pref ++ "999") k = true

/-- A ledger with one poll and the two tokens of its invitees, all keys
canonical. -/
def onePollLedger : Ledger :=
  [("VOTETOKEN2", .token ⟨"alice", "carol", "POLL1", ""⟩),
   ("VOTETOKEN1", .token ⟨"alice", "bob", "POLL1", ""⟩),
   ("POLL1", .poll ⟨"alice", "lunch?", "2099-01-01", ""⟩)]

/-- The writes of one `mintTokens` call with base index `b`, the index of the
`i`-th address being `b + i` in `int` arithmetic: one token per address, in
the order of the addresses. -/
def mintWritesWrapped (creator pollId : String) (b : Int) (addrs : List String) :
    List (String × Value) :=
  addrs.enum.map
    (fun ia => (tokenKey (wrapInt (b + (ia.1 : Int))), mintedToken creator pollId ia.2))

/-! # Properties -/

/-! ## The key order -/

theorem ltChars_irrefl (a : List Char) : ltChars a a = false := by
  induction a with
  | nil => rfl
  | cons c cs ih => simp [ltChars, ih]

theorem ltChars_trans : ∀ (a b c : List Char),
    ltChars a b = true → ltChars b c = true → ltChars a c = true
  | [], [], _, h, _ => by simp [ltChars] at h
  | [], _ :: _, [], _, h => by simp [ltChars] at h
  | [], _ :: _, _ :: _, _, _ => by simp [ltChars]
  | _ :: _, [], _, h, _ => by simp [ltChars] at h
  | _ :: _, _ :: _, [], _, h => by simp [ltChars] at h
  | x :: xs, y :: ys, z :: zs, h1, h2 => by
    have ih := ltChars_trans xs ys zs
    simp only [ltChars] at h1 h2 ⊢
    split_ifs at h1 h2 ⊢ <;> first | rfl | omega | exact ih h1 h2

theorem ltChars_connected : ∀ (a b : List Char),
    ltChars a b = false → ltChars b a = false → a = b
  | [], [], _, _ => rfl
  | [], _ :: _, h, _ => by simp [ltChars] at h
  | _ :: _, [], _, h => by simp [ltChars] at h
  | x :: xs, y :: ys, h1, h2 => by
    have ih := ltChars_connected xs ys
    simp only [ltChars] at h1 h2
    split_ifs at h1 h2 with h3 h4
    · have hxy : x = y := Char.ext (UInt32.ext (Nat.le_antisymm (not_lt.mp h4) (not_lt.mp h3)))
      rw [hxy, ih h1 h2]

theorem strLt_irrefl (a : String) : strLt a a = false := ltChars_irrefl a.data

theorem strLt_trans {a b c : String} (h1 : strLt a b = true) (h2 : strLt b c = true) :
    strLt a c = true := ltChars_trans _ _ _ h1 h2

theorem strLt_connected {a b : String} (h1 : strLt a b = false) (h2 : strLt b a = false) :
    a = b := by
  have h := ltChars_connected _ _ h1 h2
  cases a; cases b; simp_all

theorem strLt_asymm {a b : String} (h : strLt a b = true) : strLt b a = false := by
  by_contra h2
  have h3 := strLt_trans h (by simpa using h2)
  rw [strLt_irrefl] at h3
  exact Bool.noConfusion h3

instance keyLe_total : IsTotal String keyLe where
  total a b := by
    by_cases h : strLt b a = true
    · exact Or.inr (strLt_asymm h)
    · exact Or.inl (by simpa using h)

instance keyLe_trans : IsTrans String keyLe where
  trans a b c h1 h2 := by
    show strLt c a = false
    by_contra h3
    have h3 : strLt c a = true := by simpa using h3
    by_cases h4 : strLt a b = true
    · have := strLt_trans h3 h4
      rw [show strLt c b = false from h2] at this
      exact Bool.noConfusion this
    · have hab : a = b := strLt_connected (by simpa using h4) h1
      subst hab
      rw [show strLt c a = false from h2] at h3
      exact Bool.noConfusion h3

instance keyLe_antisymm : IsAntisymm String keyLe where
  antisymm _ _ h1 h2 := strLt_connected h2 h1

/-! ## The ledger -/

theorem GetState_PutState (l : Ledger) (k : String) (v : Value) (k1 : String) (hk : k ≠ "") :
    GetState (PutState l k v) k1 = if k1 = k then some v else GetState l k1 := by
  unfold GetState PutState
  by_cases h1 : k1 = ""
  · have : ¬ k1 = k := fun h => hk (h ▸ h1)
    rw [if_pos h1, if_neg this, if_pos h1]
  · by_cases h2 : k1 = k
    · subst h2
      simp [h1, List.lookup]
    · have : (k1 == k) = false := by simpa using h2
      simp [h1, hk, h2, List.lookup, this]

theorem PutState_empty (l : Ledger) (v : Value) : PutState l "" v = l := by
  simp [PutState]

theorem GetState_PutState_ne (l : Ledger) (k : String) (v : Value) (k1 : String)
    (h : k1 ≠ k) : GetState (PutState l k v) k1 = GetState l k1 := by
  by_cases hk : k = ""
  · subst hk; rw [PutState_empty]
  · rw [GetState_PutState l k v k1 hk, if_neg h]

theorem lookup_mem_keys {l : Ledger} {k : String} {v : Value} (h : l.lookup k = some v) :
    k ∈ l.map Prod.fst := by
  induction l with
  | nil => simp at h
  | cons e rest ih =>
    obtain ⟨k1, v1⟩ := e
    by_cases hk : k = k1
    · simp [hk]
    · have : (k == k1) = false := by simpa using hk
      simp only [List.lookup, this] at h
      simp [ih h]

theorem lookup_of_mem_keys {l : Ledger} {k : String} (h : k ∈ l.map Prod.fst) :
    ∃ v, l.lookup k = some v := by
  induction l with
  | nil => simp at h
  | cons e rest ih =>
    obtain ⟨k1, v1⟩ := e
    by_cases hk : k = k1
    · exact ⟨v1, by simp [hk, List.lookup]⟩
    · have hb : (k == k1) = false := by simpa using hk
      have : k ∈ rest.map Prod.fst := by
        simp only [List.map_cons, List.mem_cons] at h
        rcases h with h | h
        · exact absurd h hk
        · exact h
      obtain ⟨v, hv⟩ := ih this
      exact ⟨v, by simp [List.lookup, hb, hv]⟩

theorem mem_rangeKeys {l : Ledger} {s e k : String} :
    k ∈ rangeKeys l s e ↔ k ∈ l.map Prod.fst ∧ inRange s e k = true := by
  unfold rangeKeys
  rw [(List.perm_insertionSort _ _).mem_iff, List.mem_dedup, List.mem_filter]

theorem rangeKeys_sorted (l : Ledger) (s e : String) :
    (rangeKeys l s e).Pairwise (fun a b => strLt a b = true) := by
  have h1 : (rangeKeys l s e).Sorted keyLe := List.sorted_insertionSort _ _
  have h2 : (rangeKeys l s e).Nodup :=
    (List.perm_insertionSort _ _).nodup_iff.mpr (List.nodup_dedup _)
  have h3 := List.Pairwise.and h1 h2
  refine h3.imp ?_
  intro a b hab
  obtain ⟨h4, h5⟩ := hab
  by_contra h6
  exact h5 (strLt_connected (by simpa using h6) h4)

theorem mem_GetStateByRange {l : Ledger} {s e k : String} {v : Value} :
    (k, v) ∈ GetStateByRange l s e ↔ GetState l k = some v ∧ inRange s e k = true := by
  unfold GetStateByRange
  rw [List.mem_filterMap]
  constructor
  · rintro ⟨k1, hk1, h⟩
    cases hg : GetState l k1 with
    | none => simp [hg] at h
    | some v1 =>
      simp only [hg, Option.map_some', Option.some.injEq, Prod.mk.injEq] at h
      obtain ⟨rfl, rfl⟩ := h
      exact ⟨hg, (mem_rangeKeys.mp hk1).2⟩
  · rintro ⟨hg, hr⟩
    refine ⟨k, mem_rangeKeys.mpr ⟨?_, hr⟩, by simp [hg]⟩
    unfold GetState at hg
    split_ifs at hg
    exact lookup_mem_keys hg

theorem GetStateByRange_keys_sublist (l : Ledger) (s e : String) :
    ((GetStateByRange l s e).map Prod.fst).Sublist (rangeKeys l s e) := by
  unfold GetStateByRange
  generalize rangeKeys l s e = ks
  induction ks with
  | nil => simp
  | cons k rest ih =>
    cases hg : GetState l k with
    | none => simpa [List.filterMap_cons, hg] using ih.trans (List.sublist_cons_self _ _)
    | some v => simpa [List.filterMap_cons, hg] using ih

theorem GetStateByRange_sorted (l : Ledger) (s e : String) :
    (GetStateByRange l s e).Pairwise (fun a b => strLt a.1 b.1 = true) := by
  have h := (rangeKeys_sorted l s e).sublist (GetStateByRange_keys_sublist l s e)
  exact List.pairwise_map.mp h

/-! ## Splitting a comma-joined key list -/

theorem splitChars_comma_cons (c : Char) (cs : List Char) :
    splitChars [','] (c :: cs) 0 =
      if c = ',' then [] :: splitChars [','] cs 0
      else match splitChars [','] cs 0 with
        | [] => [[c]]
        | seg :: segs => (c :: seg) :: segs := by
  by_cases h : c = ','
  · subst h
    simp [splitChars, List.isPrefixOf]
  · have h2 : ¬ (',' = c) := fun h3 => h h3.symm
    simp [splitChars, List.isPrefixOf, h, h2]

theorem splitChars_comma_append (seg r : List Char) (h : ',' ∉ seg) :
    splitChars [','] (seg ++ ',' :: r) 0 = seg :: splitChars [','] r 0 := by
  induction seg with
  | nil => simp [splitChars_comma_cons]
  | cons c cs ih =>
    have hc : c ≠ ',' := fun h2 => h (by simp [h2])
    have hcs : ',' ∉ cs := fun h2 => h (by simp [h2])
    rw [List.cons_append, splitChars_comma_cons, if_neg hc, ih hcs]

theorem splitChars_comma_none (seg : List Char) (h : ',' ∉ seg) :
    splitChars [','] seg 0 = [seg] := by
  induction seg with
  | nil => simp [splitChars]
  | cons c cs ih =>
    have hc : c ≠ ',' := fun h2 => h (by simp [h2])
    have hcs : ',' ∉ cs := fun h2 => h (by simp [h2])
    rw [splitChars_comma_cons, if_neg hc, ih hcs]

theorem tailStr_data_cons (k : String) (ks : List String) :
    (tailStr (k :: ks)).data = ',' :: ' ' :: (k.data ++ (tailStr ks).data) := by
  simp [tailStr, String.data_append]

theorem Split_tailStr (p : String) (ks : List String) (hp : ',' ∉ p.data)
    (hks : ∀ k ∈ ks, ',' ∉ k.data) :
    Split (p ++ tailStr ks) "," = p :: ks.map (fun k => " " ++ k) := by
  unfold Split
  have hsep : (",").data = [','] := rfl
  rw [hsep, String.data_append]
  induction ks generalizing p with
  | nil =>
    have : (tailStr []).data = [] := rfl
    rw [this, List.append_nil, splitChars_comma_none _ hp]
    rfl
  | cons k rest ih =>
    rw [tailStr_data_cons, splitChars_comma_append _ _ hp]
    have hk : ',' ∉ (" " ++ k).data := by
      have := hks k (by simp)
      simp [String.data_append, this]
    have h2 := ih (" " ++ k) hk (fun k1 hk1 => hks k1 (by simp [hk1]))
    rw [String.data_append] at h2
    have h3 : (" " : String).data = [' '] := rfl
    rw [h3] at h2
    simp only [List.cons_append, List.nil_append] at h2
    simp only [List.map_cons, h2]

theorem TrimSpace_space_append (k : String) : TrimSpace (" " ++ k) = TrimSpace k := by
  unfold TrimSpace
  have h3 : (" " : String).data = [' '] := rfl
  rw [String.data_append, h3]
  have : isSpace ' ' = true := by decide
  simp [List.dropWhile, this]

theorem TrimSpace_empty : TrimSpace "" = "" := by decide

theorem cleanKey_empty : cleanKey "" := ⟨by simp, TrimSpace_empty⟩

/-! ## The joined key list of `getUserTokens` and `getPollTokens` -/

theorem selectedKeys_cons (field : VoteToken → String) (arg : String) (e : String × Value)
    (rest : List (String × Value)) :
    selectedKeys field arg (e :: rest) =
      if field (unmarshalVoteToken (some e.2)) = arg then e.1 :: selectedKeys field arg rest
      else selectedKeys field arg rest := by
  unfold selectedKeys
  by_cases h : field (unmarshalVoteToken (some e.2)) = arg <;> simp [List.filter_cons, h]

theorem tokenKeysLoop_written (field : VoteToken → String) (arg : String)
    (sc : List (String × Value)) (acc : String) :
    tokenKeysLoop field arg sc acc true = acc ++ tailStr (selectedKeys field arg sc) := by
  induction sc generalizing acc with
  | nil => simp [tokenKeysLoop, selectedKeys, tailStr]
  | cons e rest ih =>
    obtain ⟨k, v⟩ := e
    rw [selectedKeys_cons]
    simp only [tokenKeysLoop]
    by_cases h : field (unmarshalVoteToken (some v)) = arg
    · simp only [h, if_true, ih, tailStr, String.append_assoc]
    · simp only [h, if_false, ih]

theorem tokenKeysLoop_start (field : VoteToken → String) (arg : String)
    (sc : List (String × Value)) :
    ∃ p : String, (p = "" ∨ ∃ e ∈ sc, p = e.1) ∧
      tokenKeysLoop field arg sc "" false = p ++ tailStr (selectedKeys field arg (sc.drop 1)) ∧
      [p] ++ selectedKeys field arg (sc.drop 1) =
        headPiece field arg sc ++ selectedKeys field arg sc := by
  cases sc with
  | nil => exact ⟨"", Or.inl rfl, by simp [tokenKeysLoop, selectedKeys, tailStr], by
      simp [headPiece, selectedKeys]⟩
  | cons e rest =>
    obtain ⟨k, v⟩ := e
    by_cases h : field (unmarshalVoteToken (some v)) = arg
    · refine ⟨k, Or.inr ⟨(k, v), by simp, rfl⟩, ?_, ?_⟩
      · simp [tokenKeysLoop, h, tokenKeysLoop_written]
      · simp [headPiece, h, selectedKeys_cons]
    · refine ⟨"", Or.inl rfl, ?_, ?_⟩
      · simp [tokenKeysLoop, h, tokenKeysLoop_written]
      · simp [headPiece, h, selectedKeys_cons]

theorem selectedKeys_mem {field : VoteToken → String} {arg : String}
    {sc : List (String × Value)} {k : String} (h : k ∈ selectedKeys field arg sc) :
    ∃ v, (k, v) ∈ sc := by
  unfold selectedKeys at h
  rw [List.mem_map] at h
  obtain ⟨e, he, rfl⟩ := h
  exact ⟨e.2, (List.mem_filter.mp he).1⟩

/-- The token ids that `vote` and `completePoll` iterate over, once trimmed: an
empty id when the first scanned entry is not selected, then the selected keys
in scan order. -/
theorem trimmed_ids (field : VoteToken → String) (arg : String)
    (sc : List (String × Value)) (hclean : ∀ k v, (k, v) ∈ sc → cleanKey k) :
    (Split (tokenKeysLoop field arg sc "" false) ",").map TrimSpace =
      headPiece field arg sc ++ selectedKeys field arg sc := by
  obtain ⟨p, hp, h1, h2⟩ := tokenKeysLoop_start field arg sc
  have hpc : cleanKey p := by
    rcases hp with rfl | ⟨e, he, rfl⟩
    · exact cleanKey_empty
    · exact hclean e.1 e.2 he
  have hks : ∀ k ∈ selectedKeys field arg (sc.drop 1), cleanKey k := by
    intro k hk
    obtain ⟨v, hv⟩ := selectedKeys_mem hk
    exact hclean k v (List.mem_of_mem_drop hv)
  rw [h1, Split_tailStr p _ hpc.1 (fun k hk => (hks k hk).1), ← h2]
  simp only [List.map_cons, List.map_map, hpc.2, List.singleton_append, List.cons.injEq, true_and]
  rw [List.map_congr_left (g := id)]
  · simp
  · intro k hk
    simp only [Function.comp, TrimSpace_space_append, id]
    exact (hks k hk).2

theorem headPiece_mem {field : VoteToken → String} {arg : String}
    {sc : List (String × Value)} {k : String} (h : k ∈ headPiece field arg sc) : k = "" := by
  cases sc with
  | nil => simpa [headPiece] using h
  | cons e rest =>
    by_cases h1 : field (unmarshalVoteToken (some e.2)) = arg
    · simp [headPiece, h1] at h
    · simpa [headPiece, h1] using h

/-! ## The loop of `vote` -/

theorem voteLoop_congr (l : Ledger) (c p r : String) (ids ids1 : List String)
    (h : ids.map TrimSpace = ids1.map TrimSpace) :
    voteLoop l c p r ids = voteLoop l c p r ids1 := by
  induction ids generalizing ids1 with
  | nil =>
    cases ids1 with
    | nil => rfl
    | cons _ _ => simp at h
  | cons a rest ih =>
    cases ids1 with
    | nil => simp at h
    | cons b rest1 =>
      simp only [List.map_cons, List.cons.injEq] at h
      simp only [voteLoop, h.1, ih rest1 h.2]

theorem voteLoop_selected (l : Ledger) (voter c p r : String) (sc : List (String × Value))
    (hsc : ∀ k v, (k, v) ∈ sc → GetState l k = some v ∧ TrimSpace k = k) :
    voteLoop l c p r (selectedKeys VoteToken.Owner voter sc) =
      voteOutcome l c r (firstMatch voter c p sc) := by
  induction sc with
  | nil => simp [selectedKeys, voteLoop, firstMatch, voteOutcome]
  | cons e rest ih =>
    obtain ⟨k, v⟩ := e
    have ih1 := ih (fun k1 v1 h1 => hsc k1 v1 (List.mem_cons_of_mem _ h1))
    obtain ⟨hg, ht⟩ := hsc k v (by simp)
    rw [selectedKeys_cons]
    by_cases ho : (unmarshalVoteToken (some v)).Owner = voter
    · simp only [ho, if_true, voteLoop, ht, hg]
      by_cases hcp : (unmarshalVoteToken (some v)).Creator = c ∧
          (unmarshalVoteToken (some v)).PollID = p
      · have hm : matchesVote voter c p v := ⟨ho, hcp.1, hcp.2⟩
        simp [hcp, firstMatch, List.find?_cons, hm, voteOutcome, answered]
      · have hm : ¬ matchesVote voter c p v := fun h => hcp ⟨h.2.1, h.2.2⟩
        simp only [hcp, if_false, ih1, firstMatch, List.find?_cons, hm, decide_False]
    · have hm : ¬ matchesVote voter c p v := fun h => ho h.1
      simp only [ho, if_false, ih1, firstMatch, List.find?_cons, hm, decide_False]

theorem voteLoop_headPiece (l : Ledger) (voter c p r : String) (sc : List (String × Value))
    (ids : List String) (hcp : c ≠ "" ∨ p ≠ "") :
    voteLoop l c p r (headPiece VoteToken.Owner voter sc ++ ids) = voteLoop l c p r ids := by
  have h0 : voteLoop l c p r ("" :: ids) = voteLoop l c p r ids := by
    have hz : ¬ ("" = c ∧ "" = p) := by
      rintro ⟨h1, h2⟩
      rcases hcp with h | h
      · exact h h1.symm
      · exact h h2.symm
    simp [voteLoop, TrimSpace_empty, GetState, unmarshalVoteToken, hz]
  cases sc with
  | nil => simpa [headPiece] using h0
  | cons e rest =>
    by_cases h : (unmarshalVoteToken (some e.2)).Owner = voter
    · simp [headPiece, h]
    · simpa [headPiece, h] using h0

/-- The handler `vote` on four arguments, when the keys of the token range are
clean and the creator and the poll id are not both empty: the first scanned
token owned by the voter with the given creator and poll id is answered. -/
theorem vote_eq (l : Ledger) (voter c p r : String) (hclean : cleanTokenKeys l)
    (hcp : c ≠ "" ∨ p ≠ "") :
    vote l [voter, c, p, r] =
      some (voteOutcome l c r
        (firstMatch voter c p (GetStateByRange l "VOTETOKEN0" "VOTETOKEN999"))) := by
  unfold vote getUserTokens
  simp only
  have h1 := trimmed_ids VoteToken.Owner voter _ hclean
  rw [voteLoop_congr l c p r _ (headPiece VoteToken.Owner voter
      (GetStateByRange l "VOTETOKEN0" "VOTETOKEN999") ++
      selectedKeys VoteToken.Owner voter (GetStateByRange l "VOTETOKEN0" "VOTETOKEN999"))]
  · rw [voteLoop_headPiece _ _ _ _ _ _ _ hcp, voteLoop_selected]
    intro k v hkv
    exact ⟨(mem_GetStateByRange.mp hkv).1, (hclean k v hkv).2⟩
  · rw [h1]
    symm
    rw [List.map_congr_left (g := id)]
    · simp
    · intro k hk
      rcases List.mem_append.mp hk with h | h
      · simp [headPiece_mem h, TrimSpace_empty]
      · obtain ⟨v, hv⟩ := selectedKeys_mem h
        exact (hclean k v hv).2

theorem cleanTokenKeys_of_all (l : Ledger)
    (h : ∀ e ∈ GetStateByRange l "VOTETOKEN0" "VOTETOKEN999", cleanKey e.1) :
    cleanTokenKeys l := fun k v hkv => h (k, v) hkv

theorem find?_sorted_first {p : String × Value → Bool} {sc : List (String × Value)}
    (hs : sc.Pairwise (fun a b => strLt a.1 b.1 = true)) {e : String × Value}
    (hf : sc.find? p = some e) :
    ∀ e1 ∈ sc, p e1 = true → e1 = e ∨ strLt e.1 e1.1 = true := by
  induction sc with
  | nil => simp at hf
  | cons x rest ih =>
    rw [List.pairwise_cons] at hs
    intro e1 he1 hp1
    by_cases hx : p x = true
    · rw [List.find?_cons, hx] at hf
      have hxe : x = e := by simpa using hf
      subst hxe
      rcases List.mem_cons.mp he1 with h | h
      · exact Or.inl h
      · exact Or.inr (hs.1 e1 h)
    · have hx1 : p x = false := by simpa using hx
      rw [List.find?_cons, hx1] at hf
      rcases List.mem_cons.mp he1 with h | h
      · rw [h, hx1] at hp1
        exact Bool.noConfusion hp1
      · exact ih hs.2 hf e1 h hp1

theorem matchesVote_token {voter c p : String} {v : Value} (hp : p ≠ "")
    (h : matchesVote voter c p v) :
    ∃ t, v = .token t ∧ t.Owner = voter ∧ t.Creator = c ∧ t.PollID = p := by
  cases v with
  | token t => exact ⟨t, rfl, h.1, h.2.1, h.2.2⟩
  | user u => exact absurd h.2.2.symm hp
  | poll q => exact absurd h.2.2.symm hp

theorem GetState_some_ne_empty {l : Ledger} {k : String} {v : Value}
    (h : GetState l k = some v) : k ≠ "" := by
  intro hk
  simp [GetState, hk] at h

/-- C1: on a ledger whose keys in the token scan range are free of commas and
of surrounding white space, a `vote` call with a non-empty poll id for which
some token of the range has the voter as owner and the given creator and poll
id returns success; the ledger changes only at the key of the first such token
in lexicographic key order, whose record keeps its creator and poll id, gets
the creator as owner and the given response. -/
theorem vote_answers_first_matching_token (l : Ledger)
    (voter creator pollId response : String)
    (hclean : cleanTokenKeys l) (hpoll : pollId ≠ "")
    (hex : ∃ k t, GetState l k = some (.token t) ∧
      inRange "VOTETOKEN0" "VOTETOKEN999" k = true ∧
      t.Owner = voter ∧ t.Creator = creator ∧ t.PollID = pollId) :
    ∃ k0 t0,
      (GetState l k0 = some (.token t0) ∧ inRange "VOTETOKEN0" "VOTETOKEN999" k0 = true ∧
        t0.Owner = voter ∧ t0.Creator = creator ∧ t0.PollID = pollId) ∧
      (∀ k t, GetState l k = some (.token t) → inRange "VOTETOKEN0" "VOTETOKEN999" k = true →
        t.Owner = voter → t.Creator = creator → t.PollID = pollId →
        k = k0 ∨ strLt k0 k = true) ∧
      ∃ l1, vote l [voter, creator, pollId, response] = some (.Success [], l1) ∧
        GetState l1 k0 = some (.token
          { Creator := t0.Creator, Owner := creator, PollID := t0.PollID,
            Response := response }) ∧
        ∀ k, k ≠ k0 → GetState l1 k = GetState l k := by
  obtain ⟨k, t, hg, hr, ho, hc, hp⟩ := hex
  have hmem : (k, Value.token t) ∈ GetStateByRange l "VOTETOKEN0" "VOTETOKEN999" :=
    mem_GetStateByRange.mpr ⟨hg, hr⟩
  have hm : matchesVote voter creator pollId (.token t) := ⟨ho, hc, hp⟩
  cases hf : firstMatch voter creator pollId (GetStateByRange l "VOTETOKEN0" "VOTETOKEN999") with
  | none =>
    unfold firstMatch at hf
    rw [List.find?_eq_none] at hf
    exact absurd (by simpa using hm) (hf _ hmem)
  | some e =>
    obtain ⟨k0, v0⟩ := e
    have hf1 := hf
    unfold firstMatch at hf1
    have hm0 : matchesVote voter creator pollId v0 := by
      simpa using List.find?_some hf1
    have hmem0 := List.mem_of_find?_eq_some hf1
    obtain ⟨t0, rfl, ho0, hc0, hp0⟩ := matchesVote_token hpoll hm0
    obtain ⟨hg0, hr0⟩ := mem_GetStateByRange.mp hmem0
    refine ⟨k0, t0, ⟨hg0, hr0, ho0, hc0, hp0⟩, ?_, ?_⟩
    · intro k1 t1 hg1 hr1 ho1 hc1 hp1
      have h1 := find?_sorted_first (GetStateByRange_sorted l _ _) hf1 (k1, .token t1)
        (mem_GetStateByRange.mpr ⟨hg1, hr1⟩)
        (by simpa using (⟨ho1, hc1, hp1⟩ : matchesVote voter creator pollId (.token t1)))
      rcases h1 with h1 | h1
      · exact Or.inl (congrArg Prod.fst h1)
      · exact Or.inr h1
    · refine ⟨PutState l k0 (answered (.token t0) creator response), ?_, ?_, ?_⟩
      · rw [vote_eq l voter creator pollId response hclean (Or.inr hpoll), hf]
        rfl
      · rw [GetState_PutState _ _ _ _ (GetState_some_ne_empty hg0), if_pos rfl]
        rfl
      · intro k1 hk1
        exact GetState_PutState_ne _ _ _ _ hk1

/-- Witness for C1: carol holds the second of the two tokens of poll `POLL1`. -/
theorem vote_answers_first_matching_token_witness :
    ∃ k0 t0,
      (GetState twoTokenLedger k0 = some (.token t0) ∧
        inRange "VOTETOKEN0" "VOTETOKEN999" k0 = true ∧
        t0.Owner = "carol" ∧ t0.Creator = "alice" ∧ t0.PollID = "POLL1") ∧
      (∀ k t, GetState twoTokenLedger k = some (.token t) →
        inRange "VOTETOKEN0" "VOTETOKEN999" k = true →
        t.Owner = "carol" → t.Creator = "alice" → t.PollID = "POLL1" →
        k = k0 ∨ strLt k0 k = true) ∧
      ∃ l1, vote twoTokenLedger ["carol", "alice", "POLL1", "pizza"] = some (.Success [], l1) ∧
        GetState l1 k0 = some (.token
          { Creator := t0.Creator, Owner := "alice", PollID := t0.PollID,
            Response := "pizza" }) ∧
        ∀ k, k ≠ k0 → GetState l1 k = GetState twoTokenLedger k :=
  vote_answers_first_matching_token twoTokenLedger "carol" "alice" "POLL1" "pizza"
    (cleanTokenKeys_of_all _ (by decide)) (by decide)
    ⟨"VOTETOKEN2", ⟨"alice", "carol", "POLL1", ""⟩, by decide, by decide, rfl, rfl, rfl⟩

/-- When the keys of the token range are clean, the creator and the poll id
are not both empty and no scanned token matches, `vote` reports that no
invitation was found and leaves the ledger as it is. -/
theorem vote_no_match (l : Ledger) (voter c p r : String) (hclean : cleanTokenKeys l)
    (hcp : c ≠ "" ∨ p ≠ "")
    (hno : ∀ k v, (k, v) ∈ GetStateByRange l "VOTETOKEN0" "VOTETOKEN999" →
      ¬ matchesVote voter c p v) :
    vote l [voter, c, p, r] = some (.Error (.text voteNotFound), l) := by
  rw [vote_eq l voter c p r hclean hcp]
  have : firstMatch voter c p (GetStateByRange l "VOTETOKEN0" "VOTETOKEN999") = none := by
    unfold firstMatch
    rw [List.find?_eq_none]
    intro e he
    simpa using hno e.1 e.2 he
  rw [this]
  rfl

/-- C2 (the code departs from it): on the empty ledger no token matches, yet a
`vote` call whose creator and poll id are both empty returns success: the
single empty token id that `strings.Split` yields for an empty key list is
read as a zero token, whose creator and poll id are empty. -/
theorem vote_blank_creator_poll_succeeds :
    vote [] ["bob", "", "", "yes"] = some (.Success [], []) := by decide

/-- C3 (as stated, refuted): bob is invited twice to the poll that `createPoll`
opens on the empty ledger; his first vote succeeds, and so does his second,
on the second token. -/
theorem vote_twice_succeeds_when_invited_twice :
    createPoll [] ["alice", "bob,bob", "lunch?", "2099-01-01"] =
      some (.Success [], invitedTwiceLedger) ∧
    vote invitedTwiceLedger ["bob", "alice", "POLL1", "pizza"] =
      some (.Success [],
        ("VOTETOKEN1", .token ⟨"alice", "alice", "POLL1", "pizza"⟩) :: invitedTwiceLedger) ∧
    vote (("VOTETOKEN1", .token ⟨"alice", "alice", "POLL1", "pizza"⟩) :: invitedTwiceLedger)
        ["bob", "alice", "POLL1", "pasta"] =
      some (.Success [],
        ("VOTETOKEN2", .token ⟨"alice", "alice", "POLL1", "pasta"⟩) ::
        ("VOTETOKEN1", .token ⟨"alice", "alice", "POLL1", "pizza"⟩) :: invitedTwiceLedger) ∧
    vote (("VOTETOKEN1", .token ⟨"alice", "alice", "POLL1", "pizza"⟩) :: invitedTwiceLedger)
        ["bob", "alice", "POLL1", "pasta"] ≠
      some (.Error (.text voteNotFound),
        ("VOTETOKEN1", .token ⟨"alice", "alice", "POLL1", "pizza"⟩) :: invitedTwiceLedger) := by
  refine ⟨by decide, by decide, by decide, by decide⟩

/-- C3 (amended): on a ledger with clean token keys, for a voter other than
the creator, creator and poll id not both empty, and at most one token of the
range matching the vote, a successful vote is followed by a "not found"
failure of the same vote, which leaves the ledger as it is. -/
theorem vote_again_not_found (l l1 : Ledger) (voter creator pollId r1 r2 : String)
    (hclean : cleanTokenKeys l) (hne : voter ≠ creator)
    (hcp : creator ≠ "" ∨ pollId ≠ "")
    (huniq : ∀ k1 v1 k2 v2, (k1, v1) ∈ GetStateByRange l "VOTETOKEN0" "VOTETOKEN999" →
      (k2, v2) ∈ GetStateByRange l "VOTETOKEN0" "VOTETOKEN999" →
      matchesVote voter creator pollId v1 → matchesVote voter creator pollId v2 → k1 = k2)
    (h1 : vote l [voter, creator, pollId, r1] = some (.Success [], l1)) :
    vote l1 [voter, creator, pollId, r2] = some (.Error (.text voteNotFound), l1) := by
  rw [vote_eq l voter creator pollId r1 hclean hcp] at h1
  cases hf : firstMatch voter creator pollId (GetStateByRange l "VOTETOKEN0" "VOTETOKEN999") with
  | none =>
    rw [hf] at h1
    simp [voteOutcome] at h1
  | some e =>
    obtain ⟨k0, v0⟩ := e
    rw [hf] at h1
    simp only [voteOutcome, Option.some.injEq, Prod.mk.injEq, true_and] at h1
    unfold firstMatch at hf
    have hm0 : matchesVote voter creator pollId v0 := by simpa using List.find?_some hf
    have hmem0 := List.mem_of_find?_eq_some hf
    obtain ⟨hg0, hr0⟩ := mem_GetStateByRange.mp hmem0
    have hk0 : k0 ≠ "" := GetState_some_ne_empty hg0
    have hget : ∀ k, GetState l1 k =
        if k = k0 then some (answered v0 creator r1) else GetState l k := by
      intro k
      rw [← h1, GetState_PutState _ _ _ _ hk0]
    have hscan : ∀ k v, (k, v) ∈ GetStateByRange l1 "VOTETOKEN0" "VOTETOKEN999" →
        (k = k0 ∧ v = answered v0 creator r1) ∨
        (k ≠ k0 ∧ (k, v) ∈ GetStateByRange l "VOTETOKEN0" "VOTETOKEN999") := by
      intro k v hkv
      obtain ⟨hg, hr⟩ := mem_GetStateByRange.mp hkv
      rw [hget] at hg
      by_cases hk : k = k0
      · rw [if_pos hk] at hg
        exact Or.inl ⟨hk, (Option.some.inj hg).symm⟩
      · rw [if_neg hk] at hg
        exact Or.inr ⟨hk, mem_GetStateByRange.mpr ⟨hg, hr⟩⟩
    apply vote_no_match l1 voter creator pollId r2 _ hcp
    · intro k v hkv hm
      rcases hscan k v hkv with ⟨_, rfl⟩ | ⟨hk, hmem⟩
      · exact hne hm.1.symm
      · exact hk (huniq k v k0 v0 hmem hmem0 hm hm0)
    · intro k v hkv
      rcases hscan k v hkv with ⟨rfl, _⟩ | ⟨_, hmem⟩
      · exact hclean _ _ hmem0
      · exact hclean _ _ hmem

/-- Witness for C3 (amended): bob votes twice on his only token. -/
theorem vote_again_not_found_witness :
    vote (PutState twoTokenLedger "VOTETOKEN1" (.token ⟨"alice", "alice", "POLL1", "pizza"⟩))
        ["bob", "alice", "POLL1", "pasta"] =
      some (.Error (.text voteNotFound),
        PutState twoTokenLedger "VOTETOKEN1" (.token ⟨"alice", "alice", "POLL1", "pizza"⟩)) :=
  vote_again_not_found twoTokenLedger _ "bob" "alice" "POLL1" "pizza" "pasta"
    (cleanTokenKeys_of_all _ (by decide)) (by decide) (Or.inl (by decide))
    (by
      have h : ∀ e1 ∈ GetStateByRange twoTokenLedger "VOTETOKEN0" "VOTETOKEN999",
          ∀ e2 ∈ GetStateByRange twoTokenLedger "VOTETOKEN0" "VOTETOKEN999",
          matchesVote "bob" "alice" "POLL1" e1.2 → matchesVote "bob" "alice" "POLL1" e2.2 →
          e1.1 = e2.1 := by decide
      exact fun k1 v1 k2 v2 h1 h2 => h (k1, v1) h1 (k2, v2) h2)
    (by decide)

theorem selectedKeys_mem_field {field : VoteToken → String} {arg : String}
    {sc : List (String × Value)} {k : String} (h : k ∈ selectedKeys field arg sc) :
    ∃ v, (k, v) ∈ sc ∧ field (unmarshalVoteToken (some v)) = arg := by
  unfold selectedKeys at h
  rw [List.mem_map] at h
  obtain ⟨e, he, rfl⟩ := h
  obtain ⟨h1, h2⟩ := List.mem_filter.mp he
  exact ⟨e.2, h1, by simpa using h2⟩

/-- C4 (as stated, refuted): bob's answered token has returned to alice, its
creator; a vote by alice for the same poll replaces the stored response. -/
theorem answered_token_overwritten_by_creator :
    GetState (("VOTETOKEN1", .token ⟨"alice", "alice", "POLL1", "pizza"⟩) :: twoTokenLedger)
        "VOTETOKEN1" = some (.token ⟨"alice", "alice", "POLL1", "pizza"⟩) ∧
    vote (("VOTETOKEN1", .token ⟨"alice", "alice", "POLL1", "pizza"⟩) :: twoTokenLedger)
        ["alice", "alice", "POLL1", "sushi"] =
      some (.Success [],
        ("VOTETOKEN1", .token ⟨"alice", "alice", "POLL1", "sushi"⟩) ::
        ("VOTETOKEN1", .token ⟨"alice", "alice", "POLL1", "pizza"⟩) :: twoTokenLedger) ∧
    GetState (("VOTETOKEN1", .token ⟨"alice", "alice", "POLL1", "sushi"⟩) ::
        ("VOTETOKEN1", .token ⟨"alice", "alice", "POLL1", "pizza"⟩) :: twoTokenLedger)
        "VOTETOKEN1" = some (.token ⟨"alice", "alice", "POLL1", "sushi"⟩) ∧
    ("pizza" : String) ≠ "" ∧ ("sushi" : String) ≠ "pizza" := by
  refine ⟨by decide, by decide, by decide, by decide, by decide⟩

theorem voteLoop_ledger_match (l : Ledger) (c p r : String) (ids : List String) :
    (voteLoop l c p r ids).2 = l ∨
      ∃ id ∈ ids, ∃ v,
        (unmarshalVoteToken (GetState l (TrimSpace id))).Creator = c ∧
        (unmarshalVoteToken (GetState l (TrimSpace id))).PollID = p ∧
        (voteLoop l c p r ids).2 = PutState l (TrimSpace id) v := by
  induction ids with
  | nil => exact Or.inl rfl
  | cons a rest ih =>
    simp only [voteLoop]
    split_ifs with h
    · exact Or.inr ⟨a, by simp, _, h.1, h.2, rfl⟩
    · rcases ih with h1 | ⟨id, hid, v, hc, hp, hv⟩
      · exact Or.inl h1
      · exact Or.inr ⟨id, List.mem_cons_of_mem _ hid, v, hc, hp, hv⟩

/-- C4 (amended): on a ledger with clean token keys, a stored token, whatever
its response, is the same after a `vote` call as before unless the call names
the owner of the token as voter together with its creator and its poll id:
`vote` only ever writes to a token whose owner, creator and poll id are its
first three arguments. -/
theorem vote_keeps_unselected_tokens (l : Ledger) (voter creator pollId response : String)
    (k : String) (t : VoteToken) (hclean : cleanTokenKeys l)
    (hk : GetState l k = some (.token t))
    (hsel : ¬ (t.Owner = voter ∧ t.Creator = creator ∧ t.PollID = pollId)) :
    ∃ resp l1, vote l [voter, creator, pollId, response] = some (resp, l1) ∧
      GetState l1 k = some (.token t) := by
  refine ⟨_, _, rfl, ?_⟩
  rcases voteLoop_ledger_match l creator pollId response
      (Split (getUserTokens l voter) ",") with h | ⟨id, hid, v, hc, hp, hv⟩
  · rw [h, hk]
  · rw [hv]
    have hmem : TrimSpace id ∈ (Split (getUserTokens l voter) ",").map TrimSpace :=
      List.mem_map_of_mem _ hid
    unfold getUserTokens at hmem
    rw [trimmed_ids VoteToken.Owner voter _ hclean] at hmem
    rcases List.mem_append.mp hmem with h1 | h1
    · rw [headPiece_mem h1, PutState_empty, hk]
    · obtain ⟨v1, hv1, ho⟩ := selectedKeys_mem_field h1
      have hg1 := (mem_GetStateByRange.mp hv1).1
      have hne : k ≠ TrimSpace id := by
        intro heq
        rw [← heq, hk] at hg1 hc hp
        have : v1 = .token t := (Option.some.inj hg1).symm
        rw [this] at ho
        exact hsel ⟨ho, hc, hp⟩
      rw [GetState_PutState_ne _ _ _ _ hne, hk]

/-- Witness for C4 (amended): alice, who owns the answered token of the poll
`POLL1`, votes in another poll. -/
theorem vote_keeps_unselected_tokens_witness :
    ∃ resp l1,
      vote (("VOTETOKEN1", .token ⟨"alice", "alice", "POLL1", "pizza"⟩) :: twoTokenLedger)
        ["alice", "alice", "POLL2", "sushi"] = some (resp, l1) ∧
      GetState l1 "VOTETOKEN1" = some (.token ⟨"alice", "alice", "POLL1", "pizza"⟩) :=
  vote_keeps_unselected_tokens
    (("VOTETOKEN1", .token ⟨"alice", "alice", "POLL1", "pizza"⟩) :: twoTokenLedger)
    "alice" "alice" "POLL2" "sushi" "VOTETOKEN1" ⟨"alice", "alice", "POLL1", "pizza"⟩
    (cleanTokenKeys_of_all _ (by decide)) (by decide) (by decide)

/-! ## The winner loop of `completePoll` -/

theorem intercalate_go_eq (acc s : String) (ks : List String) :
    String.intercalate.go acc s ks = ks.foldl (fun a k => a ++ s ++ k) acc := by
  induction ks generalizing acc with
  | nil => rfl
  | cons k rest ih => simp [String.intercalate.go, ih]

theorem intercalate_cons (k : String) (ks : List String) :
    ", ".intercalate (k :: ks) = joinOnto k ks := by
  simp [String.intercalate, intercalate_go_eq, joinOnto]

theorem maxFrom_cons (m : Int) (e : String × Int) (es : List (String × Int)) :
    maxFrom m (e :: es) = maxFrom (max m e.2) es := rfl

theorem le_maxFrom (m : Int) (es : List (String × Int)) : m ≤ maxFrom m es := by
  induction es generalizing m with
  | nil => exact le_refl _
  | cons e rest ih => exact le_trans (le_max_left _ _) (ih _)

theorem mem_le_maxFrom (m : Int) (es : List (String × Int)) :
    ∀ e ∈ es, e.2 ≤ maxFrom m es := by
  induction es generalizing m with
  | nil => simp
  | cons e rest ih =>
    intro e1 he1
    rw [maxFrom_cons]
    rcases List.mem_cons.mp he1 with h | h
    · rw [h]
      exact le_trans (le_max_right _ _) (le_maxFrom _ _)
    · exact ih _ e1 h

theorem withCount_cons (m : Int) (e : String × Int) (es : List (String × Int)) :
    withCount m (e :: es) = if e.2 = m then e.1 :: withCount m es else withCount m es := by
  unfold withCount
  by_cases h : e.2 = m <;> simp [List.filter_cons, h]

/-- The winner loop from an arbitrary state: when no remaining count exceeds
the running maximum the responses that tie with it are appended, otherwise the
result is the join of the responses with the largest count. -/
theorem winnerLoop_eq (es : List (String × Int)) (maxv : Int) (maxk : String) :
    winnerLoop es maxv maxk =
      if maxFrom maxv es = maxv then joinOnto maxk (withCount maxv es)
      else ", ".intercalate (withCount (maxFrom maxv es) es) := by
  induction es generalizing maxv maxk with
  | nil => simp [winnerLoop, maxFrom, joinOnto, withCount]
  | cons e rest ih =>
    obtain ⟨k, v⟩ := e
    rw [maxFrom_cons, withCount_cons, withCount_cons]
    simp only [winnerLoop]
    have hge := le_maxFrom (max maxv v) rest
    by_cases h1 : v > maxv
    · have hmax : max maxv v = v := max_eq_right (le_of_lt h1)
      rw [if_pos h1, ih, hmax]
      rw [hmax] at hge
      have hne : ¬ maxFrom v rest = maxv := by omega
      rw [if_neg hne]
      by_cases h2 : maxFrom v rest = v
      · rw [if_pos h2, h2, if_pos rfl, intercalate_cons]
      · rw [if_neg h2, if_neg (fun h => h2 h.symm)]
    · have hmax : max maxv v = maxv := max_eq_left (not_lt.mp h1)
      rw [if_neg h1, hmax]
      rw [hmax] at hge
      by_cases h2 : v = maxv
      · rw [if_pos h2, ih, if_pos h2]
        by_cases h3 : maxFrom maxv rest = maxv
        · rw [if_pos h3, if_pos h3]
          rfl
        · rw [if_neg h3, if_neg h3, if_neg (by omega)]
      · rw [if_neg h2, ih, if_neg h2]
        by_cases h3 : maxFrom maxv rest = maxv
        · rw [if_pos h3, if_pos h3]
        · rw [if_neg h3, if_neg h3, if_neg (by omega)]

theorem withCount_sublist (m : Int) (es : List (String × Int)) :
    (withCount m es).Sublist (es.map Prod.fst) :=
  (List.filter_sublist _).map _

theorem mem_withCount {m : Int} {es : List (String × Int)} {k : String} :
    k ∈ withCount m es ↔ (k, m) ∈ es := by
  unfold withCount
  rw [List.mem_map]
  constructor
  · rintro ⟨e, he, rfl⟩
    obtain ⟨h1, h2⟩ := List.mem_filter.mp he
    have : e.2 = m := by simpa using h2
    rw [← this]
    exact h1
  · intro h
    exact ⟨(k, m), List.mem_filter.mpr ⟨h, by simp⟩, rfl⟩

/-! ## The mapping built by `completePoll` -/

theorem mapSet_keys {β : Type} (m : GoMap β) (k : String) (v : β) :
    (mapSet m k v).map Prod.fst =
      if k ∈ m.map Prod.fst then m.map Prod.fst else m.map Prod.fst ++ [k] := by
  induction m with
  | nil => simp [mapSet]
  | cons e rest ih =>
    obtain ⟨k1, v1⟩ := e
    by_cases h : k1 = k
    · subst h
      simp [mapSet]
    · have h2 : ¬ k = k1 := fun h3 => h h3.symm
      simp only [mapSet, h, if_false, List.map_cons, ih, List.mem_cons, h2, false_or]
      split_ifs <;> simp

theorem mapSet_mem {β : Type} (m : GoMap β) (k : String) (v : β) (e : String × β)
    (h : e ∈ mapSet m k v) : e = (k, v) ∨ e ∈ m := by
  induction m with
  | nil => simpa [mapSet] using h
  | cons x rest ih =>
    obtain ⟨k1, v1⟩ := x
    by_cases hk : k1 = k
    · simp only [mapSet, hk, if_true, List.mem_cons] at h
      rcases h with h | h
      · exact Or.inl h
      · exact Or.inr (List.mem_cons_of_mem _ h)
    · simp only [mapSet, hk, if_false, List.mem_cons] at h
      rcases h with h | h
      · exact Or.inr (by simp [h])
      · rcases ih h with h1 | h1
        · exact Or.inl h1
        · exact Or.inr (List.mem_cons_of_mem _ h1)

theorem mapGet_mem {β : Type} {m : GoMap β} {k : String} {v : β} (h : mapGet m k = some v) :
    (k, v) ∈ m := by
  unfold mapGet at h
  induction m with
  | nil => simp at h
  | cons e rest ih =>
    obtain ⟨k1, v1⟩ := e
    by_cases hk : k = k1
    · subst hk
      simp only [List.lookup, beq_self_eq_true, Option.some.injEq] at h
      simp [h]
    · have : (k == k1) = false := by simpa using hk
      simp only [List.lookup, this] at h
      exact List.mem_cons_of_mem _ (ih h)

theorem mapSet_nodup {β : Type} (m : GoMap β) (k : String) (v : β)
    (h : (m.map Prod.fst).Nodup) : ((mapSet m k v).map Prod.fst).Nodup := by
  rw [mapSet_keys]
  split_ifs with hk
  · exact h
  · exact List.Nodup.append h (List.nodup_singleton k) (by simpa using hk)

/-- The mapping that the counting loop of `completePoll` builds has pairwise
distinct responses and counts of at least 1. -/
theorem countLoop_counts (l : Ledger) (ids : List String) (m : GoMap Int)
    (hnd : (m.map Prod.fst).Nodup) (hpos : ∀ e ∈ m, 1 ≤ e.2) :
    ((countLoop l ids m).map Prod.fst).Nodup ∧ ∀ e ∈ countLoop l ids m, 1 ≤ e.2 := by
  induction ids generalizing m with
  | nil => exact ⟨hnd, hpos⟩
  | cons tid rest ih =>
    simp only [countLoop]
    apply ih
    · split_ifs
      · split <;> exact mapSet_nodup _ _ _ hnd
      · exact hnd
    · split_ifs
      · split
        · rename_i c hc
          intro e he
          rcases mapSet_mem _ _ _ _ he with h | h
          · have := hpos _ (mapGet_mem hc)
            rw [h]
            simp only
            omega
          · exact hpos e h
        · intro e he
          rcases mapSet_mem _ _ _ _ he with h | h
          · rw [h]
          · exact hpos e h
      · exact hpos

/-- From the initial state the winner loop returns the join of the leaders,
provided every count is at least 1. -/
theorem winnerLoop_leaders (es : List (String × Int)) (hpos : ∀ e ∈ es, 1 ≤ e.2) :
    winnerLoop es 0 "" = ", ".intercalate (leaders es) := by
  rw [winnerLoop_eq]
  by_cases h : maxFrom 0 es = 0
  · have hnil : es = [] := by
      cases es with
      | nil => rfl
      | cons e rest =>
        have h1 := mem_le_maxFrom 0 (e :: rest) e (by simp)
        have h2 := hpos e (by simp)
        omega
    subst hnil
    rfl
  · rw [if_neg h]
    rfl

/-- C5: for every sequence in which the entries of a response-to-count mapping
(distinct responses, every count at least 1) are iterated, the winner string
is the `", "`-join of the responses whose count is the largest, each once, in
iteration order, and empty for the empty mapping; a unique leader is the
result whatever the order; for the counts A:2, B:2, C:1 every order gives
`"A, B"` or `"B, A"`; and every order of the mapping that the counting loop of
`completePoll` builds gives the join of its leaders. -/
theorem winner_is_join_of_leaders (es : List (String × Int))
    (hpos : ∀ e ∈ es, 1 ≤ e.2) (hnodup : (es.map Prod.fst).Nodup) :
    winnerLoop es 0 "" = ", ".intercalate (leaders es) ∧
    (leaders es).Nodup ∧
    (∀ k, k ∈ leaders es ↔ (k, maxCount es) ∈ es) ∧
    (es = [] → winnerLoop es 0 "" = "") ∧
    (∀ k, (k, maxCount es) ∈ es → (∀ k1, (k1, maxCount es) ∈ es → k1 = k) →
      winnerLoop es 0 "" = k) ∧
    (∀ es1 : List (String × Int), es1.Perm [("A", 2), ("B", 2), ("C", 1)] →
      winnerLoop es1 0 "" = "A, B" ∨ winnerLoop es1 0 "" = "B, A") ∧
    (∀ (l : Ledger) (ids : List String) (es1 : List (String × Int)),
      es1.Perm (countLoop l ids []) →
      winnerLoop es1 0 "" = ", ".intercalate (leaders es1)) := by
  have hmain : winnerLoop es 0 "" = ", ".intercalate (leaders es) := winnerLoop_leaders es hpos
  have hnd : (leaders es).Nodup := hnodup.sublist (withCount_sublist _ _)
  refine ⟨hmain, hnd, fun k => mem_withCount, ?_, ?_, ?_, ?_⟩
  · rintro rfl
    rfl
  · intro k hk huniq
    rw [hmain]
    have hall : ∀ k1 ∈ leaders es, k1 = k := fun k1 h1 => huniq k1 (mem_withCount.mp h1)
    have hmem : k ∈ leaders es := mem_withCount.mpr hk
    have hl : leaders es = [k] := by
      cases hle : leaders es with
      | nil => rw [hle] at hmem; simp at hmem
      | cons a rest =>
        rw [hle] at hall hnd
        have ha : a = k := hall a (by simp)
        cases rest with
        | nil => rw [ha]
        | cons b rest1 =>
          have hb : b = k := hall b (by simp)
          rw [ha, hb] at hnd
          simp at hnd
    rw [hl]
    rfl
  · intro es1 hperm
    have hlen : es1.length = 3 := hperm.length_eq
    obtain ⟨a, b, c, rfl⟩ := List.length_eq_three.mp hlen
    have hnd : [a, b, c].Nodup := hperm.nodup_iff.mpr (by decide)
    have ha : a ∈ [("A", (2 : Int)), ("B", 2), ("C", 1)] := hperm.subset (by simp)
    have hb : b ∈ [("A", (2 : Int)), ("B", 2), ("C", 1)] := hperm.subset (by simp)
    have hc : c ∈ [("A", (2 : Int)), ("B", 2), ("C", 1)] := hperm.subset (by simp)
    simp only [List.mem_cons, List.mem_singleton, List.not_mem_nil, or_false] at ha hb hc
    rcases ha with rfl | rfl | rfl <;> rcases hb with rfl | rfl | rfl <;>
      rcases hc with rfl | rfl | rfl <;> revert hnd <;> decide
  · intro l ids es1 hperm
    exact winnerLoop_leaders es1 (fun e he =>
      (countLoop_counts l ids [] List.nodup_nil (by simp)).2 e (hperm.subset he))

/-- Witness for C5: the counts A:2, B:2, C:1 iterated with C first. -/
theorem winner_is_join_of_leaders_witness :
    winnerLoop [("C", 1), ("B", 2), ("A", 2)] 0 "" =
      ", ".intercalate (leaders [("C", 1), ("B", 2), ("A", 2)]) ∧
    leaders [("C", 1), ("B", 2), ("A", 2)] = ["B", "A"] ∧
    winnerLoop [("C", 1), ("B", 2), ("A", 2)] 0 "" = "B, A" :=
  ⟨(winner_is_join_of_leaders [("C", 1), ("B", 2), ("A", 2)] (by decide) (by decide)).1,
    by decide, by decide⟩

/-! ## The allocation scan -/

theorem wrapInt_of_range {x : Int} (h1 : -(2 ^ 63) ≤ x) (h2 : x < 2 ^ 63) : wrapInt x = x := by
  unfold wrapInt
  rw [Int.emod_eq_of_lt (by omega) (by omega)]
  omega

theorem wrapInt_ge (x : Int) : -(2 ^ 63) ≤ wrapInt x := by
  unfold wrapInt
  have := Int.emod_nonneg (x + 2 ^ 63) (by norm_num : (2 ^ 64 : Int) ≠ 0)
  omega

theorem wrapInt_lt (x : Int) : wrapInt x < 2 ^ 63 := by
  unfold wrapInt
  have := Int.emod_lt_of_pos (x + 2 ^ 63) (by norm_num : (0 : Int) < 2 ^ 64)
  omega

theorem scanMaxIndex_cons_parse {pref k : String} {n : Int} (v : Value)
    (rest : List (String × Value)) (m0 : Int) (h : parseKey pref k = some n) :
    scanMaxIndex pref ((k, v) :: rest) m0 =
      scanMaxIndex pref rest (if m0 < n then n else m0) := by
  unfold parseKey at h
  simp only [scanMaxIndex]
  cases hs : (Split k pref)[1]? with
  | none => simp [hs] at h
  | some lastkey =>
    simp only [hs] at h ⊢
    rcases ha : Atoi lastkey with ⟨x, _ | e⟩
    · simp only [ha, Option.some.injEq] at h ⊢
      rw [h]
    · simp [ha] at h

theorem scanMaxIndex_cons_none {pref k : String} (v : Value)
    (rest : List (String × Value)) (m0 : Int) (h : parseKey pref k = none) :
    ∀ m, scanMaxIndex pref ((k, v) :: rest) m0 ≠ .index m := by
  intro m
  unfold parseKey at h
  simp only [scanMaxIndex]
  cases hs : (Split k pref)[1]? with
  | none => simp
  | some lastkey =>
    simp only [hs] at h ⊢
    rcases ha : Atoi lastkey with ⟨x, _ | e⟩
    · simp [ha] at h
    · simp

/-- The allocation scan yields `M` when every scanned key parses to an index
at most `M` and `M` is the starting value or the index of a scanned key. -/
theorem scanMaxIndex_eq (pref : String) (sc : List (String × Value)) (m0 M : Int)
    (hparse : ∀ e ∈ sc, ∃ n, parseKey pref e.1 = some n ∧ n ≤ M) (hm0 : m0 ≤ M)
    (hatt : m0 = M ∨ ∃ e ∈ sc, parseKey pref e.1 = some M) :
    scanMaxIndex pref sc m0 = .index M := by
  induction sc generalizing m0 with
  | nil =>
    rcases hatt with h | ⟨e, he, _⟩
    · rw [h]; rfl
    · simp at he
  | cons x rest ih =>
    obtain ⟨k, v⟩ := x
    obtain ⟨n, hn, hnM⟩ := hparse (k, v) (by simp)
    rw [scanMaxIndex_cons_parse v rest m0 hn]
    apply ih
    · exact fun e he => hparse e (List.mem_cons_of_mem _ he)
    · split_ifs <;> assumption
    · rcases hatt with h | ⟨e, he, hM⟩
      · left
        split_ifs with h1
        · omega
        · exact h
      · rcases List.mem_cons.mp he with h | h
        · left
          subst h
          rw [hn] at hM
          have : n = M := Option.some.inj hM
          split_ifs with h1
          · exact this
          · omega
        · exact Or.inr ⟨e, h, hM⟩

/-- When the allocation scan succeeds, every scanned key parses. -/
theorem scanMaxIndex_index_parses (pref : String) (sc : List (String × Value)) (m0 m : Int)
    (h : scanMaxIndex pref sc m0 = .index m) :
    ∀ e ∈ sc, ∃ n, parseKey pref e.1 = some n := by
  induction sc generalizing m0 with
  | nil => simp
  | cons x rest ih =>
    obtain ⟨k, v⟩ := x
    intro e he
    cases hp : parseKey pref k with
    | none => exact absurd h (scanMaxIndex_cons_none v rest m0 hp m)
    | some n =>
      rw [scanMaxIndex_cons_parse v rest m0 hp] at h
      rcases List.mem_cons.mp he with h1 | h1
      · subst h1
        exact ⟨n, hp⟩
      · exact ih _ h e h1

/-! ## The minting loop -/

theorem mintLoop_fst (c p : String) (b : Int) (addrs : List String) (n : Nat) (l : Ledger)
    (m : GoMap String) (hbound : b + n + addrs.length ≤ 2 ^ 63) (hb : -(2 ^ 63) ≤ b) :
    (mintLoop c p b addrs n l m).1 =
      applyWrites l ((addrs.enumFrom n).map
        (fun ia => (tokenKey (b + (ia.1 : Int)), mintedToken c p ia.2))) := by
  induction addrs generalizing n l m with
  | nil => rfl
  | cons a rest ih =>
    simp only [mintLoop, List.enumFrom_cons, List.map_cons, applyWrites, List.foldl_cons]
    have h1 : wrapInt (b + (n : Int)) = b + n := by
      apply wrapInt_of_range
      · omega
      · simp only [List.length_cons] at hbound
        push_cast at hbound
        omega
    rw [h1]
    have h2 := ih (n + 1) (PutState l ("VOTETOKEN" ++ Itoa (b + ↑n)) (mintedToken c p a))
      (mapSet m (TrimSpace a) ("VOTETOKEN" ++ Itoa (b + ↑n))) (by
        simp only [List.length_cons] at hbound
        push_cast at hbound ⊢
        omega)
    push_cast at h2
    exact h2

theorem mapGet_mapSet {β : Type} (m : GoMap β) (k : String) (v : β) (k1 : String) :
    mapGet (mapSet m k v) k1 = if k1 = k then some v else mapGet m k1 := by
  induction m with
  | nil =>
    by_cases h : k1 = k
    · simp [mapSet, mapGet, List.lookup, h]
    · have : (k1 == k) = false := by simpa using h
      simp [mapSet, mapGet, List.lookup, h, this]
  | cons e rest ih =>
    obtain ⟨k2, v2⟩ := e
    unfold mapGet at ih ⊢
    by_cases h2 : k2 = k
    · subst h2
      by_cases h : k1 = k2
      · simp [mapSet, List.lookup, h]
      · have : (k1 == k2) = false := by simpa using h
        simp [mapSet, List.lookup, h, this]
    · by_cases h : k1 = k2
      · subst h
        have : ¬ k1 = k := h2
        simp [mapSet, List.lookup, h2, this]
      · have hb : (k1 == k2) = false := by simpa using h
        simp only [mapSet, h2, if_false, List.lookup, hb, ih]

theorem mapGet_mintLoop_other (c p : String) (b : Int) (addrs : List String) (i : Int)
    (l : Ledger) (m : GoMap String) (k : String)
    (hk : ∀ a ∈ addrs, TrimSpace a ≠ k) :
    mapGet (mintLoop c p b addrs i l m).2 k = mapGet m k := by
  induction addrs generalizing i l m with
  | nil => rfl
  | cons a rest ih =>
    simp only [mintLoop]
    rw [ih _ _ _ (fun a1 h1 => hk a1 (List.mem_cons_of_mem _ h1)), mapGet_mapSet,
      if_neg (fun h => hk a (by simp) h.symm)]

theorem mapGet_mintLoop_last (c p : String) (b : Int) (addrs : List String) (n : Nat)
    (l : Ledger) (m : GoMap String) (hbound : b + n + addrs.length ≤ 2 ^ 63)
    (hb : -(2 ^ 63) ≤ b) (i : Nat) (a : String) (hi : addrs[i]? = some a)
    (hlast : ∀ j a1, i < j → addrs[j]? = some a1 → TrimSpace a1 ≠ TrimSpace a) :
    mapGet (mintLoop c p b addrs n l m).2 (TrimSpace a) = some (tokenKey (b + n + i)) := by
  induction addrs generalizing n l m i with
  | nil => simp at hi
  | cons x rest ih =>
    simp only [mintLoop]
    have h1 : wrapInt (b + (n : Int)) = b + n := by
      apply wrapInt_of_range
      · omega
      · simp only [List.length_cons] at hbound
        push_cast at hbound
        omega
    cases i with
    | zero =>
      simp only [List.getElem?_cons_zero, Option.some.injEq] at hi
      subst hi
      rw [mapGet_mintLoop_other, mapGet_mapSet, if_pos rfl, h1]
      · simp [tokenKey]
      · intro a1 ha1
        obtain ⟨j, hj⟩ := List.getElem?_of_mem ha1
        exact hlast (j + 1) a1 (Nat.succ_pos _) (by simpa using hj)
    | succ i1 =>
      simp only [List.getElem?_cons_succ] at hi
      have h2 := ih (n + 1) (PutState l ("VOTETOKEN" ++ Itoa (wrapInt (b + ↑n)))
        (Value.token { Creator := c, Owner := TrimSpace x, PollID := p, Response := "" }))
        (mapSet m (TrimSpace x) ("VOTETOKEN" ++ Itoa (wrapInt (b + ↑n))))
        (by
          simp only [List.length_cons] at hbound
          push_cast at hbound ⊢
          omega) i1 hi
        (fun j a1 hj ha1 => hlast (j + 1) a1 (by omega) (by simpa using ha1))
      push_cast at h2 ⊢
      rw [h2]
      congr 2
      omega

theorem mapGet_mintLoop_mem (c p : String) (b : Int) (addrs : List String) (i : Int)
    (l : Ledger) (m : GoMap String) (k : String)
    (h : mapGet (mintLoop c p b addrs i l m).2 k ≠ mapGet m k) :
    ∃ a ∈ addrs, TrimSpace a = k := by
  by_contra hne
  push_neg at hne
  exact h (mapGet_mintLoop_other c p b addrs i l m k hne)

/-- C6 (as stated, refuted): the base index computed from the stored key
`VOTETOKEN9223372036854775806` is the largest `int`; the second address gets
the index that wraps around to the least `int`, not the base index plus one. -/
theorem mintTokens_index_wraps :
    scanMaxIndex "VOTETOKEN"
      (GetStateByRange [("VOTETOKEN9223372036854775806", .user ⟨"u", 0⟩)]
        "VOTETOKEN0" "VOTETOKEN999") 0 = .index 9223372036854775806 ∧
    wrapInt (9223372036854775806 + 1) = 9223372036854775807 ∧
    mintTokens [("VOTETOKEN9223372036854775806", .user ⟨"u", 0⟩)] ["alice", "bob,carol", "POLL1"] =
      some (some [("bob", "VOTETOKEN9223372036854775807"),
          ("carol", "VOTETOKEN-9223372036854775808")],
        [("VOTETOKEN-9223372036854775808", .token ⟨"alice", "carol", "POLL1", ""⟩),
         ("VOTETOKEN9223372036854775807", .token ⟨"alice", "bob", "POLL1", ""⟩),
         ("VOTETOKEN9223372036854775806", .user ⟨"u", 0⟩)]) ∧
    "VOTETOKEN-9223372036854775808" ≠ tokenKey (9223372036854775807 + 1) := by
  refine ⟨by decide, by decide, by decide, by decide⟩

/-- C6 (amended): when the token scan parses, with `b` the base index computed
by the allocation scan, and the indices `b, ..., b + k - 1` of the `k`
comma-separated addresses do not exceed the largest `int`, `mintTokens` writes
for each `i` the token of creator, trimmed `i`-th address, poll id and empty
response at key `VOTETOKEN` + decimal `(b + i)`, in input order, writes nothing
else, and returns a mapping that sends each trimmed address to the key of its
last token. -/
theorem mintTokens_writes (l : Ledger) (creator csv pollId : String) (m : Int)
    (hscan : scanMaxIndex "VOTETOKEN" (GetStateByRange l "VOTETOKEN0" "VOTETOKEN999") 0 =
      .index m)
    (hbound : wrapInt (m + 1) + (Split csv ",").length ≤ 2 ^ 63) :
    ∃ usrvt,
      mintTokens l [creator, csv, pollId] =
        some (some usrvt,
          applyWrites l (mintWrites creator pollId (wrapInt (m + 1)) (Split csv ","))) ∧
      (∀ (i : Nat) (a : String), (Split csv ",")[i]? = some a →
        (∀ (j : Nat) (a1 : String), i < j → (Split csv ",")[j]? = some a1 → TrimSpace a1 ≠ TrimSpace a) →
        mapGet usrvt (TrimSpace a) = some (tokenKey (wrapInt (m + 1) + (i : Int)))) ∧
      (∀ k, mapGet usrvt k ≠ none → ∃ a ∈ Split csv ",", TrimSpace a = k) := by
  have hb := wrapInt_ge (m + 1)
  refine ⟨(mintLoop creator pollId (wrapInt (m + 1)) (Split csv ",") 0 l []).2, ?_, ?_, ?_⟩
  · unfold mintTokens
    simp only [hscan]
    have h := mintLoop_fst creator pollId (wrapInt (m + 1)) (Split csv ",") 0 l []
      (by push_cast; omega) hb
    rw [Nat.cast_zero] at h
    rw [h]
    rfl
  · intro i a hi hlast
    have h := mapGet_mintLoop_last creator pollId (wrapInt (m + 1)) (Split csv ",") 0 l []
      (by push_cast; omega) hb i a hi hlast
    rw [Nat.cast_zero] at h
    rw [h]
    simp
  · intro k hk
    exact mapGet_mintLoop_mem creator pollId (wrapInt (m + 1)) (Split csv ",") 0 l [] k hk

/-- Witness for C6 (amended): bob is listed twice around carol, after token 7. -/
theorem mintTokens_writes_witness :
    ∃ usrvt,
      mintTokens [("VOTETOKEN7", .user ⟨"u", 0⟩)] ["alice", "bob, carol ,bob", "POLL1"] =
        some (some usrvt,
          applyWrites [("VOTETOKEN7", .user ⟨"u", 0⟩)]
            (mintWrites "alice" "POLL1" (wrapInt (7 + 1)) (Split "bob, carol ,bob" ","))) ∧
      (∀ (i : Nat) (a : String), (Split "bob, carol ,bob" ",")[i]? = some a →
        (∀ (j : Nat) (a1 : String), i < j → (Split "bob, carol ,bob" ",")[j]? = some a1 →
          TrimSpace a1 ≠ TrimSpace a) →
        mapGet usrvt (TrimSpace a) = some (tokenKey (wrapInt (7 + 1) + (i : Int)))) ∧
      (∀ k, mapGet usrvt k ≠ none → ∃ a ∈ Split "bob, carol ,bob" ",", TrimSpace a = k) :=
  mintTokens_writes [("VOTETOKEN7", .user ⟨"u", 0⟩)] "alice" "bob, carol ,bob" "POLL1" 7
    (by decide) (by decide)

/-! ## `createPoll` -/

theorem mintLoop_fst_writes (c p : String) (b : Int) (addrs : List String) (i : Int)
    (l : Ledger) (m : GoMap String) :
    (mintLoop c p b addrs i l m).1 = applyWrites l (mintLoopWrites c p b addrs i) := by
  induction addrs generalizing i l m with
  | nil => rfl
  | cons a rest ih =>
    simp only [mintLoop, mintLoopWrites, applyWrites, List.foldl_cons]
    rw [ih]
    rfl

theorem mintLoopWrites_values (c p : String) (b : Int) (addrs : List String) (i : Int) :
    (mintLoopWrites c p b addrs i).map Prod.snd = addrs.map (mintedToken c p) := by
  induction addrs generalizing i with
  | nil => rfl
  | cons a rest ih => simp [mintLoopWrites, ih]

theorem mintLoopWrites_keys (c p : String) (b : Int) (addrs : List String) (i : Int) :
    ∀ e ∈ mintLoopWrites c p b addrs i, ∃ n, e.1 = tokenKey n := by
  induction addrs generalizing i with
  | nil => simp [mintLoopWrites]
  | cons a rest ih =>
    intro e he
    simp only [mintLoopWrites, List.mem_cons] at he
    rcases he with h | h
    · exact ⟨_, by rw [h]⟩
    · exact ih _ e h

theorem tokenKey_ne_pollKey (i j : Int) : tokenKey i ≠ pollKey j := by
  intro h
  have h1 := congrArg String.data h
  simp [tokenKey, pollKey, String.data_append] at h1

theorem pollKey_ne_empty (j : Int) : pollKey j ≠ "" := by
  intro h
  have h1 := congrArg String.data h
  simp [pollKey, String.data_append] at h1

theorem tokenKey_ne_empty (j : Int) : tokenKey j ≠ "" := by
  intro h
  have h1 := congrArg String.data h
  simp [tokenKey, String.data_append] at h1

theorem pollKey_not_in_token_range (j : Int) :
    inRange "VOTETOKEN0" "VOTETOKEN999" (pollKey j) = false := by
  have h : strLt (pollKey j) "VOTETOKEN0" = true := by
    unfold strLt pollKey
    rw [String.data_append]
    rfl
  simp [inRange, h]

theorem tokenKey_not_in_poll_range (j : Int) :
    inRange "POLL0" "POLL999" (tokenKey j) = false := by
  have h : strLt (tokenKey j) "POLL999" = false := by
    unfold strLt tokenKey
    rw [String.data_append]
    rfl
  simp [inRange, h]

theorem GetStateByRange_PutState_outside (l : Ledger) (k : String) (v : Value)
    (s e : String) (h : inRange s e k = false) :
    GetStateByRange (PutState l k v) s e = GetStateByRange l s e := by
  by_cases hk : k = ""
  · subst hk; rw [PutState_empty]
  · have hkeys : rangeKeys (PutState l k v) s e = rangeKeys l s e := by
      unfold rangeKeys PutState
      rw [if_neg hk]
      simp [List.filter_cons, h]
    unfold GetStateByRange
    rw [hkeys]
    apply List.filterMap_congr
    intro k1 hk1
    have : k1 ≠ k := by
      intro h1
      rw [h1, mem_rangeKeys] at hk1
      rw [h] at hk1
      exact Bool.noConfusion hk1.2
    rw [GetState_PutState_ne _ _ _ _ this]

theorem GetState_applyWrites_other (l : Ledger) (ws : List (String × Value)) (k : String)
    (h : ∀ e ∈ ws, e.1 ≠ k) : GetState (applyWrites l ws) k = GetState l k := by
  induction ws generalizing l with
  | nil => rfl
  | cons w rest ih =>
    simp only [applyWrites, List.foldl_cons]
    have h1 := ih (PutState l w.1 w.2) (fun e he => h e (List.mem_cons_of_mem _ he))
    unfold applyWrites at h1
    rw [h1, GetState_PutState_ne _ _ _ _ (h w (by simp)).symm]

theorem GetStateByRange_applyWrites_outside (l : Ledger) (ws : List (String × Value))
    (s e : String) (h : ∀ w ∈ ws, inRange s e w.1 = false) :
    GetStateByRange (applyWrites l ws) s e = GetStateByRange l s e := by
  induction ws generalizing l with
  | nil => rfl
  | cons w rest ih =>
    simp only [applyWrites, List.foldl_cons]
    have h1 := ih (PutState l w.1 w.2) (fun e he => h e (List.mem_cons_of_mem _ he))
    unfold applyWrites at h1
    rw [h1, GetStateByRange_PutState_outside _ _ _ _ _ (h w (by simp))]

/-- The function `mintTokens` on three arguments when the token scan parses. -/
theorem mintTokens_eq (l : Ledger) (a0 a1 a2 : String) (m : Int)
    (hscan : scanMaxIndex "VOTETOKEN" (GetStateByRange l "VOTETOKEN0" "VOTETOKEN999") 0 =
      .index m) :
    mintTokens l [a0, a1, a2] =
      some (some (mintLoop a0 a2 (wrapInt (m + 1)) (Split a1 ",") 0 l []).2,
        applyWrites l (mintLoopWrites a0 a2 (wrapInt (m + 1)) (Split a1 ",") 0)) := by
  unfold mintTokens
  simp only [hscan]
  rw [mintLoop_fst_writes]

/-! ## No index out of range in the allocation scan -/

theorem ltChars_between_append (P s t : List Char) :
    ∀ k : List Char, ltChars k (P ++ s) = false → ltChars k (P ++ t) = true →
      ∃ r, k = P ++ r := by
  induction P with
  | nil => exact fun k _ _ => ⟨k, rfl⟩
  | cons c P1 ih =>
    intro k h1 h2
    cases k with
    | nil => simp [ltChars] at h1
    | cons x k1 =>
      simp only [List.cons_append, ltChars] at h1 h2
      split_ifs at h1 h2 with h3 h4
      have hxc : x = c := Char.ext (UInt32.ext (Nat.le_antisymm (not_lt.mp h4) (not_lt.mp h3)))
      obtain ⟨r, hr⟩ := ih k1 h1 h2
      exact ⟨r, by rw [hxc, hr]; rfl⟩

theorem key_in_range_has_pref (pref a b k : String)
    (h : inRange (pref ++ a) (pref ++ b) k = true) : ∃ r, k.data = pref.data ++ r := by
  unfold inRange strLt at h
  simp only [Bool.and_eq_true, Bool.not_eq_true', String.data_append] at h
  exact ltChars_between_append _ _ _ _ h.1 h.2

theorem splitChars_ne_nil (sep s : List Char) (skip : Nat) : splitChars sep s skip ≠ [] := by
  induction s generalizing skip with
  | nil => simp [splitChars]
  | cons c cs ih =>
    cases skip with
    | succ n => simpa [splitChars] using ih n
    | zero =>
      simp only [splitChars]
      split_ifs
      · simp
      · split <;> simp

theorem Split_second_of_pref (pref k : String) (r : List Char) (hp : pref ≠ "")
    (hk : k.data = pref.data ++ r) : ∃ s, (Split k pref)[1]? = some s := by
  unfold Split
  rw [hk]
  have hne : pref.data ≠ [] := by
    intro h
    apply hp
    cases pref
    simp_all
  obtain ⟨c, cs, hcs⟩ := List.exists_cons_of_ne_nil hne
  rw [hcs, List.cons_append]
  have hpre : (c :: cs).isPrefixOf (c :: (cs ++ r)) = true := by
    rw [List.isPrefixOf_iff_prefix]
    exact ⟨r, rfl⟩
  simp only [splitChars, hpre, if_true, List.map_cons]
  obtain ⟨x, xs, hx⟩ := List.exists_cons_of_ne_nil
    (splitChars_ne_nil (c :: cs) (cs ++ r) ((c :: cs).length - 1))
  rw [hx]
  exact ⟨String.mk x, by simp⟩

theorem scanMaxIndex_no_panic (pref : String) (hp : pref ≠ "") (sc : List (String × Value))
    (m0 : Int) (hsc : ∀ e ∈ sc, ∃ r, e.1.data = pref.data ++ r) :
    scanMaxIndex pref sc m0 ≠ .indexOutOfRange := by
  induction sc generalizing m0 with
  | nil => simp [scanMaxIndex]
  | cons x rest ih =>
    obtain ⟨k, v⟩ := x
    obtain ⟨r, hr⟩ := hsc (k, v) (by simp)
    obtain ⟨s, hs⟩ := Split_second_of_pref pref k r hp hr
    simp only [scanMaxIndex, hs]
    rcases ha : Atoi s with ⟨n, _ | e⟩
    · exact ih _ (fun e he => hsc e (List.mem_cons_of_mem _ he))
    · simp

theorem tokenScan_no_panic (l : Ledger) :
    scanMaxIndex "VOTETOKEN" (GetStateByRange l "VOTETOKEN0" "VOTETOKEN999") 0 ≠
      .indexOutOfRange := by
  apply scanMaxIndex_no_panic _ (by decide)
  intro e he
  exact key_in_range_has_pref "VOTETOKEN" "0" "999" e.1 (mem_GetStateByRange.mp he).2

theorem pollScan_no_panic (l : Ledger) :
    scanMaxIndex "POLL" (GetStateByRange l "POLL0" "POLL999") 0 ≠ .indexOutOfRange := by
  apply scanMaxIndex_no_panic _ (by decide)
  intro e he
  exact key_in_range_has_pref "POLL" "0" "999" e.1 (mem_GetStateByRange.mp he).2

/-- The function `mintTokens` never panics: it returns, with the ledger either
untouched (no map) or extended by the writes of the minting loop. -/
theorem mintTokens_returns (l : Ledger) (args : List String) :
    mintTokens l args = some (none, l) ∨
      ∃ a0 a1 a2 m, args = [a0, a1, a2] ∧
        scanMaxIndex "VOTETOKEN" (GetStateByRange l "VOTETOKEN0" "VOTETOKEN999") 0 = .index m ∧
        mintTokens l args =
          some (some (mintLoop a0 a2 (wrapInt (m + 1)) (Split a1 ",") 0 l []).2,
            applyWrites l (mintLoopWrites a0 a2 (wrapInt (m + 1)) (Split a1 ",") 0)) := by
  unfold mintTokens
  split
  · rename_i a0 a1 a2
    cases hs : scanMaxIndex "VOTETOKEN" (GetStateByRange l "VOTETOKEN0" "VOTETOKEN999") 0 with
    | indexOutOfRange => exact absurd hs (tokenScan_no_panic l)
    | parseError s e => exact Or.inl rfl
    | index m =>
      refine Or.inr ⟨a0, a1, a2, m, rfl, rfl, ?_⟩
      simp only
      rw [mintLoop_fst_writes]
  · exact Or.inl rfl

/-- When the poll scan parses, `createPoll` on four arguments returns success. -/
theorem createPoll_success (l : Ledger) (a0 a1 a2 a3 : String) (mp : Int)
    (hp : scanMaxIndex "POLL" (GetStateByRange l "POLL0" "POLL999") 0 = .index mp) :
    ∃ l1, createPoll l [a0, a1, a2, a3] = some (.Success [], l1) ∧
      GetState l1 (pollKey (wrapInt (mp + 1))) = some (.poll ⟨a0, a2, a3, ""⟩) := by
  unfold createPoll
  simp only [hp]
  rw [show "POLL" ++ Itoa (wrapInt (mp + 1)) = pollKey (wrapInt (mp + 1)) from rfl]
  rcases mintTokens_returns (PutState l (pollKey (wrapInt (mp + 1))) (.poll ⟨a0, a2, a3, ""⟩))
      [a0, a1, pollKey (wrapInt (mp + 1))] with h | ⟨b0, b1, b2, m, _, _, h⟩
  · rw [h]
    exact ⟨_, rfl, by rw [GetState_PutState _ _ _ _ (pollKey_ne_empty _), if_pos rfl]⟩
  · rw [h]
    refine ⟨_, rfl, ?_⟩
    rw [GetState_applyWrites_other, GetState_PutState _ _ _ _ (pollKey_ne_empty _), if_pos rfl]
    intro e he
    obtain ⟨n, hn⟩ := mintLoopWrites_keys _ _ _ _ _ e he
    rw [hn]
    exact tokenKey_ne_pollKey _ _

theorem scanMaxIndex_of_parses (pref : String) (sc : List (String × Value)) (m0 : Int)
    (h : ∀ e ∈ sc, parseKey pref e.1 ≠ none) : ∃ m, scanMaxIndex pref sc m0 = .index m := by
  induction sc generalizing m0 with
  | nil => exact ⟨m0, rfl⟩
  | cons x rest ih =>
    obtain ⟨k, v⟩ := x
    cases hp : parseKey pref k with
    | none => exact absurd hp (h (k, v) (by simp))
    | some n =>
      rw [scanMaxIndex_cons_parse v rest m0 hp]
      exact ih _ (fun e he => h e (List.mem_cons_of_mem _ he))

/-! ## Decimal numerals: `strconv.Atoi` reads back what `strconv.Itoa` writes -/

theorem digitChar_toNat : ∀ d < 10, (digitChar d).toNat = 48 + d := by decide

theorem decimalAux_eq (n : Nat) : ∀ (fuel : Nat) (acc : List Char), n < fuel →
    decimalAux fuel n acc = decimalAux (n + 1) n [] ++ acc := by
  induction n using Nat.strong_induction_on with
  | _ n ih =>
    intro fuel acc hf
    obtain ⟨f, rfl⟩ : ∃ f, fuel = f + 1 := ⟨fuel - 1, by omega⟩
    by_cases h : n < 10
    · simp [decimalAux, h]
    · simp only [decimalAux, h, if_false]
      have hlt : n / 10 < n := Nat.div_lt_self (by omega) (by norm_num)
      rw [ih (n / 10) hlt f _ (by omega), ih (n / 10) hlt n _ hlt]
      simp

theorem decimal_small (n : Nat) (h : n < 10) : decimal n = [digitChar n] := by
  simp [decimal, decimalAux, h]

theorem decimal_large (n : Nat) (h : 10 ≤ n) :
    decimal n = decimal (n / 10) ++ [digitChar (n % 10)] := by
  have hlt : n / 10 < n := Nat.div_lt_self (by omega) (by norm_num)
  unfold decimal
  simp only [decimalAux, not_lt.mpr h, if_false]
  exact decimalAux_eq (n / 10) n _ hlt

theorem decimal_digits (n : Nat) : ∀ c ∈ decimal n, 48 ≤ c.toNat ∧ c.toNat ≤ 57 := by
  induction n using Nat.strong_induction_on with
  | _ n ih =>
    intro c hc
    by_cases h : n < 10
    · rw [decimal_small n h, List.mem_singleton] at hc
      rw [hc, digitChar_toNat n h]
      omega
    · rw [decimal_large n (not_lt.mp h), List.mem_append, List.mem_singleton] at hc
      rcases hc with hc | hc
      · exact ih (n / 10) (Nat.div_lt_self (by omega) (by norm_num)) c hc
      · rw [hc, digitChar_toNat (n % 10) (Nat.mod_lt _ (by norm_num))]
        omega

theorem decimal_ne_nil (n : Nat) : decimal n ≠ [] := by
  by_cases h : n < 10
  · simp [decimal_small n h]
  · simp [decimal_large n (not_lt.mp h)]

theorem parseUintLoop_append (xs ys : List Char) (a : Nat) :
    parseUintLoop (xs ++ ys) a =
      match parseUintLoop xs a with
      | .ok v => parseUintLoop ys v
      | .error e => .error e := by
  induction xs generalizing a with
  | nil => rfl
  | cons c cs ih =>
    simp only [List.cons_append, parseUintLoop]
    split_ifs
    · rfl
    · exact ih _
    · rfl

theorem parseUintLoop_decimal (n : Nat) (hn : n < 2 ^ 64) :
    parseUintLoop (decimal n) 0 = .ok n := by
  induction n using Nat.strong_induction_on with
  | _ n ih =>
    by_cases h : n < 10
    · rw [decimal_small n h]
      have h1 := digitChar_toNat n h
      simp only [parseUintLoop, h1]
      rw [if_pos (by omega), if_neg (by omega)]
      congr 1
      omega
    · rw [decimal_large n (not_lt.mp h), parseUintLoop_append,
        ih (n / 10) (Nat.div_lt_self (by omega) (by norm_num)) (by omega)]
      have h1 := digitChar_toNat (n % 10) (Nat.mod_lt _ (by norm_num))
      simp only [parseUintLoop, h1]
      rw [if_pos (by omega), if_neg (by omega)]
      congr 1
      omega

/-- The numeral that `Itoa` writes for an index of the `int` range is read
back by `Atoi` without an error. -/
theorem Atoi_Itoa (n : Nat) (hn : n < 2 ^ 63) : Atoi (Itoa (n : Int)) = ((n : Int), none) := by
  have hne := decimal_ne_nil n
  obtain ⟨c, cs, hcs⟩ := List.exists_cons_of_ne_nil hne
  have hc := decimal_digits n c (by rw [hcs]; simp)
  have hplus : (c == '+') = false := by
    rw [beq_eq_false_iff_ne]
    rintro rfl
    have : ('+' : Char).toNat = 43 := by decide
    omega
  have hminus : (c == '-') = false := by
    rw [beq_eq_false_iff_ne]
    rintro rfl
    have : ('-' : Char).toNat = 45 := by decide
    omega
  have hloop := parseUintLoop_decimal n (by omega)
  rw [hcs] at hloop
  have hItoa : (Itoa (n : Int)).data = c :: cs := by
    show (Itoa (Int.ofNat n)).data = c :: cs
    simp only [Itoa]
    exact hcs
  have hpu : parseUint (c :: cs) = (n, none) := by
    simp only [parseUint]
    rw [hloop]
  unfold Atoi
  rw [hItoa]
  simp only [hplus, hminus]
  have hbody : (if (false = true) ∨ (false = true) then cs else c :: cs) = c :: cs := by simp
  rw [hbody, hpu]
  have h63 : n < 9223372036854775808 := by
    have : (2 : Nat) ^ 63 = 9223372036854775808 := by norm_num
    omega
  simp [h63]

/-! ## Reading the index off a key -/

theorem splitChars_skip (sep xs ys : List Char) :
    splitChars sep (xs ++ ys) xs.length = splitChars sep ys 0 := by
  induction xs with
  | nil => rfl
  | cons x rest ih => simpa [splitChars] using ih

theorem splitChars_no_match (p0 : Char) (ps ds : List Char) (h : ∀ c ∈ ds, c ≠ p0) :
    splitChars (p0 :: ps) ds 0 = [ds] := by
  induction ds with
  | nil => rfl
  | cons c cs ih =>
    have hc : (p0 == c) = false := by
      rw [beq_eq_false_iff_ne]
      exact fun h1 => h c (by simp) h1.symm
    simp only [splitChars, List.isPrefixOf, hc, Bool.false_and]
    rw [ih (fun c1 h1 => h c1 (List.mem_cons_of_mem _ h1))]
    simp

theorem Split_pref_digits (pref : String) (p0 : Char) (ps ds : List Char)
    (hp : pref.data = p0 :: ps) (h : ∀ c ∈ ds, c ≠ p0) :
    Split (pref ++ ⟨ds⟩) pref = ["", ⟨ds⟩] := by
  unfold Split
  rw [String.data_append, hp]
  have hpre : (p0 :: ps).isPrefixOf (p0 :: (ps ++ ds)) = true := by
    rw [List.isPrefixOf_iff_prefix]
    exact ⟨ds, rfl⟩
  have h1 : splitChars (p0 :: ps) (p0 :: (ps ++ ds)) 0 =
      [] :: splitChars (p0 :: ps) (ps ++ ds) ps.length := by
    rw [splitChars, if_pos hpre]
    rfl
  show List.map String.mk (splitChars (p0 :: ps) (p0 :: (ps ++ ds)) 0) = _
  rw [h1, splitChars_skip, splitChars_no_match p0 ps ds h]
  rfl

theorem parseKey_index (pref : String) (p0 : Char) (ps : List Char)
    (hp : pref.data = p0 :: ps) (hp0 : p0.toNat < 48 ∨ 57 < p0.toNat)
    (n : Nat) (hn : n < 2 ^ 63) :
    parseKey pref (pref ++ Itoa (n : Int)) = some (n : Int) := by
  have hItoa : Itoa (n : Int) = ⟨decimal n⟩ := rfl
  have hs : Split (pref ++ Itoa (n : Int)) pref = ["", Itoa (n : Int)] := by
    rw [hItoa]
    apply Split_pref_digits pref p0 ps _ hp
    intro c hc heq
    have := decimal_digits n c hc
    rw [heq] at this
    omega
  unfold parseKey
  rw [hs]
  simp [Atoi_Itoa n hn]

theorem parseKey_tokenKey (n : Nat) (hn : n < 2 ^ 63) :
    parseKey "VOTETOKEN" (tokenKey (n : Int)) = some (n : Int) :=
  parseKey_index "VOTETOKEN" 'V' _ rfl (by decide) n hn

theorem parseKey_pollKey (n : Nat) (hn : n < 2 ^ 63) :
    parseKey "POLL" (pollKey (n : Int)) = some (n : Int) :=
  parseKey_index "POLL" 'P' _ rfl (by decide) n hn

/-! ## Keys of small index and the scan window -/

theorem ltChars_append_left (p a b : List Char) : ltChars (p ++ a) (p ++ b) = ltChars a b := by
  induction p with
  | nil => rfl
  | cons c cs ih => simp [ltChars, ih]

theorem inRange_pref (pref : String) (ds : List Char) (a b : String) :
    inRange (pref ++ a) (pref ++ b) (pref ++ ⟨ds⟩) =
      (!(ltChars ds a.data) && ltChars ds b.data) := by
  unfold inRange strLt
  simp only [String.data_append, ltChars_append_left]

set_option maxRecDepth 1000000 in
theorem decimal_in_window :
    ∀ i < 1000, (!(ltChars (decimal i) ['0']) && ltChars (decimal i) ['9', '9', '9']) =
      decide (i < 999) := by decide

theorem inRange_tokenKey_small :
    ∀ i < 1000, inRange "VOTETOKEN0" "VOTETOKEN999" (tokenKey (i : Nat)) = decide (i < 999) :=
  fun i hi => (inRange_pref "VOTETOKEN" (decimal i) "0" "999").trans (decimal_in_window i hi)

theorem inRange_pollKey_small :
    ∀ i < 1000, inRange "POLL0" "POLL999" (pollKey (i : Nat)) = decide (i < 999) :=
  fun i hi => (inRange_pref "POLL" (decimal i) "0" "999").trans (decimal_in_window i hi)

/-! ## Successive allocations -/

theorem parseKey_tokenKey_small :
    ∀ i < 1000, parseKey "VOTETOKEN" (tokenKey (i : Nat)) = some (i : Int) :=
  fun i hi => parseKey_tokenKey i (by omega)

theorem Split_no_comma (a : String) (h : ',' ∉ a.data) : Split a "," = [a] := by
  unfold Split
  have hsep : (",").data = [','] := rfl
  rw [hsep, splitChars_comma_none _ h]
  rfl

theorem scan_mintedUpTo (j : Nat) (l : Ledger) (hj : j ≤ 998) (h : mintedUpTo j l) :
    scanMaxIndex "VOTETOKEN" (GetStateByRange l "VOTETOKEN0" "VOTETOKEN999") 0 =
      .index (j : Int) := by
  apply scanMaxIndex_eq
  · intro e he
    obtain ⟨i, _, hi2, hk⟩ := h.1 e.1 e.2 he
    refine ⟨(i : Int), ?_, by exact_mod_cast hi2⟩
    rw [hk]
    exact parseKey_tokenKey_small i (by omega)
  · exact Int.natCast_nonneg j
  · by_cases h0 : j = 0
    · left
      rw [h0]
      rfl
    · right
      obtain ⟨v, hv⟩ := h.2 (by omega) hj
      exact ⟨_, hv, parseKey_tokenKey_small j (by omega)⟩

theorem mintTokens_single (j : Nat) (l : Ledger) (c a p : String) (hj : j ≤ 998)
    (h : mintedUpTo j l) (ha : ',' ∉ a.data) :
    ∃ usrvt, mintTokens l [c, a, p] =
      some (some usrvt, PutState l (tokenKey ((j + 1 : Nat) : Int)) (mintedToken c p a)) := by
  rw [mintTokens_eq l c a p j (scan_mintedUpTo j l hj h), Split_no_comma a ha]
  refine ⟨(mintLoop c p (wrapInt ((j : Int) + 1)) [a] 0 l []).2, ?_⟩
  have h1 : wrapInt ((j : Int) + 1) = (j : Int) + 1 := wrapInt_of_range (by omega) (by omega)
  have h2 : wrapInt ((j : Int) + 1 + 0) = (j : Int) + 1 := by rw [add_zero, h1]
  simp only [mintLoopWrites, applyWrites, List.foldl_cons, List.foldl_nil, h1, h2]
  push_cast
  rfl

theorem mintedUpTo_step (j : Nat) (l : Ledger) (v : Value) (h : mintedUpTo j l) :
    mintedUpTo (j + 1) (PutState l (tokenKey ((j + 1 : Nat) : Int)) v) := by
  have hget : ∀ k, GetState (PutState l (tokenKey ((j + 1 : Nat) : Int)) v) k =
      if k = tokenKey ((j + 1 : Nat) : Int) then some v else GetState l k :=
    fun k => GetState_PutState _ _ _ _ (tokenKey_ne_empty _)
  constructor
  · intro k v1 hkv
    obtain ⟨hg, hr⟩ := mem_GetStateByRange.mp hkv
    rw [hget] at hg
    by_cases hk : k = tokenKey ((j + 1 : Nat) : Int)
    · exact ⟨j + 1, by omega, le_refl _, hk⟩
    · rw [if_neg hk] at hg
      obtain ⟨i, hi1, hi2, hi3⟩ := h.1 k v1 (mem_GetStateByRange.mpr ⟨hg, hr⟩)
      exact ⟨i, hi1, by omega, hi3⟩
  · intro _ hj
    refine ⟨v, mem_GetStateByRange.mpr ⟨by rw [hget, if_pos rfl], ?_⟩⟩
    rw [inRange_tokenKey_small (j + 1) (by omega)]
    simpa using (by omega : j + 1 < 999)

theorem mintRun_from (calls : List (String × String × String)) (j : Nat) (l : Ledger)
    (hlen : j + calls.length ≤ 999) (h : mintedUpTo j l)
    (hsingle : ∀ c ∈ calls, ',' ∉ c.2.1.data) :
    mintRun l calls = some (applyWrites l (singleMintWrites (j + 1) calls)) := by
  induction calls generalizing j l with
  | nil => rfl
  | cons x rest ih =>
    obtain ⟨c, a, p⟩ := x
    simp only [List.length_cons] at hlen
    obtain ⟨usrvt, hm⟩ := mintTokens_single j l c a p (by omega) h
      (hsingle (c, a, p) (by simp))
    simp only [mintRun, hm]
    rw [ih (j + 1) _ (by omega) (mintedUpTo_step j l _ h)
      (fun c1 hc1 => hsingle c1 (List.mem_cons_of_mem _ hc1))]
    rfl

/-- C8 (as stated, refuted): on the empty ledger the allocation scan leaves the
running maximum at 0 and the code then adds 1, so the first token is stored at
index 1 and the first poll at index 1; index 0 stays unused. -/
theorem first_allocation_is_index_one :
    mintTokens [] ["alice", "bob", "POLL1"] =
      some (some [("bob", "VOTETOKEN1")],
        [("VOTETOKEN1", .token ⟨"alice", "bob", "POLL1", ""⟩)]) ∧
    createPoll [] ["alice", "bob", "lunch?", "2099-01-01"] =
      some (.Success [],
        [("VOTETOKEN1", .token ⟨"alice", "bob", "POLL1", ""⟩),
         ("POLL1", .poll ⟨"alice", "lunch?", "2099-01-01", ""⟩)]) ∧
    GetState [("VOTETOKEN1", .token ⟨"alice", "bob", "POLL1", ""⟩)] "VOTETOKEN0" = none := by
  refine ⟨by decide, by decide, by decide⟩

/-- C8 (amended): starting from a ledger with no key in the token scan range,
`N ≤ 999` successive `mintTokens` calls, each with a single address, store
their tokens at indices 1, 2, ..., N in call order and write nothing else; and
on a ledger with no key in the poll scan range `createPoll` stores the new
poll at index 1. -/
theorem mint_sequence_indices (l : Ledger) (calls : List (String × String × String))
    (hempty : GetStateByRange l "VOTETOKEN0" "VOTETOKEN999" = [])
    (hlen : calls.length ≤ 999) (hsingle : ∀ c ∈ calls, ',' ∉ c.2.1.data) :
    mintRun l calls = some (applyWrites l (singleMintWrites 1 calls)) ∧
    (∀ (l2 : Ledger) (host csv detail deadline : String),
      GetStateByRange l2 "POLL0" "POLL999" = [] →
      ∃ l3, createPoll l2 [host, csv, detail, deadline] = some (.Success [], l3) ∧
        GetState l3 "POLL1" = some (.poll ⟨host, detail, deadline, ""⟩)) := by
  constructor
  · apply mintRun_from calls 0 l (by omega) _ hsingle
    constructor
    · intro k v hkv
      rw [hempty] at hkv
      simp at hkv
    · intro h0
      omega
  · intro l2 host csv detail deadline he
    have hp : scanMaxIndex "POLL" (GetStateByRange l2 "POLL0" "POLL999") 0 = .index 0 := by
      rw [he]
      rfl
    obtain ⟨l3, h1, h2⟩ := createPoll_success l2 host csv detail deadline 0 hp
    exact ⟨l3, h1, h2⟩

/-- Witness for C8 (amended): three single-address mints on a ledger that
holds one poll. -/
theorem mint_sequence_indices_witness :
    mintRun [("POLL1", .poll ⟨"alice", "lunch?", "2099-01-01", ""⟩)]
        [("alice", "bob", "POLL1"), ("alice", " carol", "POLL1"), ("dave", "erin", "POLL7")] =
      some [("VOTETOKEN3", .token ⟨"dave", "erin", "POLL7", ""⟩),
        ("VOTETOKEN2", .token ⟨"alice", "carol", "POLL1", ""⟩),
        ("VOTETOKEN1", .token ⟨"alice", "bob", "POLL1", ""⟩),
        ("POLL1", .poll ⟨"alice", "lunch?", "2099-01-01", ""⟩)] :=
  (mint_sequence_indices [("POLL1", .poll ⟨"alice", "lunch?", "2099-01-01", ""⟩)]
    [("alice", "bob", "POLL1"), ("alice", " carol", "POLL1"), ("dave", "erin", "POLL7")]
    (by decide) (by decide) (by decide)).1

/-! ## The scan window at capacity -/

theorem parseKey_pollKey_small :
    ∀ i < 1000, parseKey "POLL" (pollKey (i : Nat)) = some (i : Int) :=
  fun i hi => parseKey_pollKey i (by omega)

theorem lookup_mem {l : Ledger} {k : String} {v : Value} (h : l.lookup k = some v) :
    (k, v) ∈ l := by
  induction l with
  | nil => simp at h
  | cons e rest ih =>
    obtain ⟨k1, v1⟩ := e
    by_cases hk : k = k1
    · subst hk
      simp only [List.lookup, beq_self_eq_true, Option.some.injEq] at h
      simp [h]
    · have : (k == k1) = false := by simpa using hk
      simp only [List.lookup, this] at h
      exact List.mem_cons_of_mem _ (ih h)

theorem GetState_mem {l : Ledger} {k : String} {v : Value} (h : GetState l k = some v) :
    (k, v) ∈ l := by
  unfold GetState at h
  split_ifs at h
  exact lookup_mem h

theorem GetState_of_key_mem {l : Ledger} {k : String} (hk : k ≠ "")
    (h : k ∈ l.map Prod.fst) : ∃ v, GetState l k = some v := by
  obtain ⟨v, hv⟩ := lookup_of_mem_keys h
  exact ⟨v, by unfold GetState; rw [if_neg hk, hv]⟩

theorem mem_fullPollLedger {k : String} {v : Value} (h : (k, v) ∈ fullPollLedger) :
    ∃ i : Nat, i < 1000 ∧ k = pollKey (i : Int) ∧
      v = .poll ⟨"host", "detail", "deadline", ""⟩ := by
  unfold fullPollLedger at h
  rw [List.mem_map] at h
  obtain ⟨i, hi, heq⟩ := h
  rw [List.mem_range] at hi
  simp only [Prod.mk.injEq] at heq
  exact ⟨i, hi, heq.1.symm, heq.2.symm⟩

theorem GetState_fullPollLedger (i : Nat) (hi : i < 1000) :
    GetState fullPollLedger (pollKey (i : Int)) =
      some (.poll ⟨"host", "detail", "deadline", ""⟩) := by
  have hmem : pollKey (i : Int) ∈ fullPollLedger.map Prod.fst := by
    unfold fullPollLedger
    rw [List.map_map, List.mem_map]
    exact ⟨i, List.mem_range.mpr hi, rfl⟩
  obtain ⟨v, hv⟩ := GetState_of_key_mem (pollKey_ne_empty _) hmem
  obtain ⟨_, _, _, hv2⟩ := mem_fullPollLedger (GetState_mem hv)
  rw [hv, hv2]

theorem mem_fullTokenLedger {k : String} {v : Value} (h : (k, v) ∈ fullTokenLedger) :
    ∃ i : Nat, i < 1000 ∧ k = tokenKey (i : Int) := by
  unfold fullTokenLedger at h
  rw [List.mem_map] at h
  obtain ⟨i, hi, heq⟩ := h
  rw [List.mem_range] at hi
  simp only [Prod.mk.injEq] at heq
  exact ⟨i, hi, heq.1.symm⟩

theorem GetState_fullTokenLedger (i : Nat) (hi : i < 1000) :
    GetState fullTokenLedger (tokenKey (i : Int)) ≠ none := by
  have hmem : tokenKey (i : Int) ∈ fullTokenLedger.map Prod.fst := by
    unfold fullTokenLedger
    rw [List.map_map, List.mem_map]
    exact ⟨i, List.mem_range.mpr hi, rfl⟩
  obtain ⟨v, hv⟩ := GetState_of_key_mem (tokenKey_ne_empty _) hmem
  rw [hv]
  simp

theorem fullPollLedger_scan :
    scanMaxIndex "POLL" (GetStateByRange fullPollLedger "POLL0" "POLL999") 0 = .index 998 := by
  apply scanMaxIndex_eq
  · intro e he
    obtain ⟨hg, hr⟩ := mem_GetStateByRange.mp he
    obtain ⟨i, hi, hk, _⟩ := mem_fullPollLedger (GetState_mem hg)
    rw [hk, inRange_pollKey_small i hi] at hr
    have hi2 : i < 999 := by simpa using hr
    exact ⟨(i : Int), by rw [hk]; exact parseKey_pollKey_small i hi, by omega⟩
  · norm_num
  · right
    refine ⟨(pollKey ((998 : Nat) : Int), .poll ⟨"host", "detail", "deadline", ""⟩), ?_, ?_⟩
    · refine mem_GetStateByRange.mpr ⟨GetState_fullPollLedger 998 (by norm_num), ?_⟩
      rw [inRange_pollKey_small 998 (by norm_num)]
      rfl
    · exact parseKey_pollKey_small 998 (by norm_num)

theorem GetState_fullTokenLedger_value (i : Nat) (hi : i < 1000) :
    GetState fullTokenLedger (tokenKey (i : Int)) =
      some (.token ⟨"host", "voter", "POLL1", ""⟩) := by
  cases hg : GetState fullTokenLedger (tokenKey (i : Int)) with
  | none => exact absurd hg (GetState_fullTokenLedger i hi)
  | some v =>
    have hm := GetState_mem hg
    unfold fullTokenLedger at hm
    rw [List.mem_map] at hm
    obtain ⟨j, _, heq⟩ := hm
    simp only [Prod.mk.injEq] at heq
    rw [← heq.2]

theorem fullTokenLedger_scan :
    scanMaxIndex "VOTETOKEN" (GetStateByRange fullTokenLedger "VOTETOKEN0" "VOTETOKEN999") 0 =
      .index 998 := by
  apply scanMaxIndex_eq
  · intro e he
    obtain ⟨hg, hr⟩ := mem_GetStateByRange.mp he
    obtain ⟨i, hi, hk⟩ := mem_fullTokenLedger (GetState_mem hg)
    rw [hk, inRange_tokenKey_small i hi] at hr
    have hi2 : i < 999 := by simpa using hr
    exact ⟨(i : Int), by rw [hk]; exact parseKey_tokenKey_small i hi, by omega⟩
  · norm_num
  · right
    refine ⟨(tokenKey ((998 : Nat) : Int), .token ⟨"host", "voter", "POLL1", ""⟩), ?_, ?_⟩
    · refine mem_GetStateByRange.mpr ⟨GetState_fullTokenLedger_value 998 (by norm_num), ?_⟩
      rw [inRange_tokenKey_small 998 (by norm_num)]
      rfl
    · exact parseKey_tokenKey_small 998 (by norm_num)

/-- C9 (the code departs from it): with the 1000 polls `POLL0`, ..., `POLL999`
stored, `createPoll` returns success and the record under `POLL999` is
replaced by the new poll: the key `POLL999` is the excluded end of the scan
window, the largest index seen is 998 and the index chosen is 999. In the
same way, with the 1000 tokens `VOTETOKEN0`, ..., `VOTETOKEN999` stored,
`mintTokens` returns its mapping and the token under `VOTETOKEN999` is
replaced by the new one. -/
theorem createPoll_at_capacity_overwrites :
    (∀ i : Nat, i < 1000 → GetState fullPollLedger (pollKey (i : Int)) =
      some (.poll ⟨"host", "detail", "deadline", ""⟩)) ∧
    (∃ l1, createPoll fullPollLedger ["mallory", "bob", "new", "later"] =
        some (.Success [], l1) ∧
      GetState l1 "POLL999" = some (.poll ⟨"mallory", "new", "later", ""⟩) ∧
      GetState l1 "POLL999" ≠ GetState fullPollLedger "POLL999") ∧
    (∀ i : Nat, i < 1000 → GetState fullTokenLedger (tokenKey (i : Int)) =
      some (.token ⟨"host", "voter", "POLL1", ""⟩)) ∧
    (∃ usrvt l1, mintTokens fullTokenLedger ["mallory", "bob", "POLL2"] =
        some (some usrvt, l1) ∧
      GetState l1 "VOTETOKEN999" = some (.token ⟨"mallory", "bob", "POLL2", ""⟩) ∧
      GetState l1 "VOTETOKEN999" ≠ GetState fullTokenLedger "VOTETOKEN999") := by
  refine ⟨GetState_fullPollLedger, ?_, GetState_fullTokenLedger_value, ?_⟩
  · obtain ⟨l1, h1, h2⟩ :=
      createPoll_success fullPollLedger "mallory" "bob" "new" "later" 998 fullPollLedger_scan
    refine ⟨l1, h1, h2, ?_⟩
    have h3 := GetState_fullPollLedger 999 (by norm_num)
    have h4 : pollKey ((999 : Nat) : Int) = "POLL999" := by decide
    have h5 : pollKey (wrapInt (998 + 1)) = "POLL999" := by decide
    rw [h4] at h3
    rw [h5] at h2
    rw [h2, h3]
    decide
  · have h1 := mintTokens_eq fullTokenLedger "mallory" "bob" "POLL2" 998 fullTokenLedger_scan
    have hw : mintLoopWrites "mallory" "POLL2" (wrapInt (998 + 1)) (Split "bob" ",") 0 =
        [("VOTETOKEN999", .token ⟨"mallory", "bob", "POLL2", ""⟩)] := by decide
    rw [hw] at h1
    have h2 : GetState (applyWrites fullTokenLedger
        [("VOTETOKEN999", .token ⟨"mallory", "bob", "POLL2", ""⟩)]) "VOTETOKEN999" =
        some (.token ⟨"mallory", "bob", "POLL2", ""⟩) := by
      simp only [applyWrites, List.foldl_cons, List.foldl_nil]
      rw [GetState_PutState _ _ _ _ (by decide), if_pos rfl]
    refine ⟨_, _, h1, h2, ?_⟩
    have h3 := GetState_fullTokenLedger_value 999 (by norm_num)
    have h4 : tokenKey ((999 : Nat) : Int) = "VOTETOKEN999" := by decide
    rw [h4] at h3
    rw [h2, h3]
    decide

/-! ## The dispatcher -/

/-- C10 (the code departs from it): `queryData` reads `args[0]` without a
length check, so it panics on no argument and answers with success on two;
`Invoke` discards the outcome of `mintTokens` and answers with success when
the argument count is wrong. -/
theorem invoke_wrong_arity_not_rejected :
    Invoke id [] "queryData" [] = none ∧
    Invoke id [] "queryData" ["POLL", "extra"] =
      some (.Success [.text "[", .text "]"], []) ∧
    Invoke id [] "mintTokens" [] = some (.Success [], []) ∧
    Invoke id [] "mintTokens" ["alice", "bob"] = some (.Success [], []) := by
  refine ⟨by decide, by decide, by decide, by decide⟩

/-- The handlers that check their argument count report a wrong count as a
failure and leave the ledger as it is. -/
theorem wrong_arity_rejected (order : GoMap Int → List (String × Int)) (l : Ledger)
    (args : List String) :
    (args.length ≠ 1 →
      (∃ msg, Invoke order l "queryUser" args = some (.Error msg, l)) ∧
      (∃ msg, Invoke order l "deleteUser" args = some (.Error msg, l)) ∧
      (∃ msg, Invoke order l "queryVoteToken" args = some (.Error msg, l)) ∧
      (∃ msg, Invoke order l "queryUserToken" args = some (.Error msg, l)) ∧
      (∃ msg, Invoke order l "completePoll" args = some (.Error msg, l))) ∧
    (args.length ≠ 3 →
      ∃ msg, Invoke order l "createUser" args = some (.Error msg, l)) ∧
    (args.length ≠ 4 →
      (∃ msg, Invoke order l "createPoll" args = some (.Error msg, l)) ∧
      (∃ msg, Invoke order l "vote" args = some (.Error msg, l))) := by
  refine ⟨fun h => ?_, fun h => ?_, fun h => ?_⟩
  · match args, h with
    | [], _ => exact ⟨⟨_, rfl⟩, ⟨_, rfl⟩, ⟨_, rfl⟩, ⟨_, rfl⟩, ⟨_, rfl⟩⟩
    | [_], h => exact absurd rfl h
    | _ :: _ :: _, _ => exact ⟨⟨_, rfl⟩, ⟨_, rfl⟩, ⟨_, rfl⟩, ⟨_, rfl⟩, ⟨_, rfl⟩⟩
  · match args, h with
    | [], _ => exact ⟨_, rfl⟩
    | [_], _ => exact ⟨_, rfl⟩
    | [_, _], _ => exact ⟨_, rfl⟩
    | [_, _, _], h => exact absurd rfl h
    | _ :: _ :: _ :: _ :: _, _ => exact ⟨_, rfl⟩
  · match args, h with
    | [], _ => exact ⟨⟨_, rfl⟩, ⟨_, rfl⟩⟩
    | [_], _ => exact ⟨⟨_, rfl⟩, ⟨_, rfl⟩⟩
    | [_, _], _ => exact ⟨⟨_, rfl⟩, ⟨_, rfl⟩⟩
    | [_, _, _], _ => exact ⟨⟨_, rfl⟩, ⟨_, rfl⟩⟩
    | [_, _, _, _], h => exact absurd rfl h
    | _ :: _ :: _ :: _ :: _ :: _, _ => exact ⟨⟨_, rfl⟩, ⟨_, rfl⟩⟩

/-! ## Partial failure of `createPoll` -/

/-- C11 (the code departs from it): after `createUser` has stored a record
under `VOTETOKEN0x`, the token scan of `mintTokens` does not parse, no token
is minted, and `createPoll` still returns success with only the poll record
written. -/
theorem createPoll_success_without_tokens :
    createUser [] ["VOTETOKEN0x", "u", "1"] =
      some (.Success [], [("VOTETOKEN0x", .user ⟨"u", 1⟩)]) ∧
    mintTokens [("POLL1", .poll ⟨"alice", "lunch?", "2099-01-01", ""⟩),
        ("VOTETOKEN0x", .user ⟨"u", 1⟩)] ["alice", "bob", "POLL1"] =
      some (none, [("POLL1", .poll ⟨"alice", "lunch?", "2099-01-01", ""⟩),
        ("VOTETOKEN0x", .user ⟨"u", 1⟩)]) ∧
    createPoll [("VOTETOKEN0x", .user ⟨"u", 1⟩)] ["alice", "bob", "lunch?", "2099-01-01"] =
      some (.Success [],
        [("POLL1", .poll ⟨"alice", "lunch?", "2099-01-01", ""⟩),
         ("VOTETOKEN0x", .user ⟨"u", 1⟩)]) := by
  refine ⟨by decide, by decide, by decide⟩

/-! ## The separator of the joined key list -/

/-- C12 (the code departs from it): the flag that suppresses the separator is
set on every scanned entry, selected or not, so the key list of carol, whose
token is scanned second, starts with a separator; the same holds for the key
list of a poll. -/
theorem token_list_has_leading_separator :
    getUserTokens twoTokenLedger "carol" = ", VOTETOKEN2" ∧
    getUserTokens twoTokenLedger "bob" = "VOTETOKEN1" ∧
    getPollTokens
        [("VOTETOKEN2", .token ⟨"alice", "carol", "POLL7", ""⟩),
         ("VOTETOKEN1", .token ⟨"alice", "bob", "POLL1", ""⟩)] "POLL7" = ", VOTETOKEN2" ∧
    queryUserToken twoTokenLedger ["carol"] =
      some (.Success [.text "[", .text "\x7b\"User\":", .text "\"", .text "carol", .text "\"",
        .text ", \"Tokens\":", .text ", VOTETOKEN2", .text "\x7d", .text "]"],
        twoTokenLedger) := by
  refine ⟨by decide, by decide, by decide, by decide⟩

/-! ## The end-to-end scenario -/

/-- C13: on the empty ledger `createPoll` for alice with invitees bob and carol
succeeds and leaves the poll `POLL1` and exactly two tokens, of bob and of
carol, with creator alice, poll id `POLL1` and empty response; bob's vote for
pizza succeeds and hands his token, with that response, to alice;
`completePoll`, for every iteration order of the count mapping, succeeds and
stores the result pizza with host, detail and deadline as created. -/
theorem end_to_end_scenario (order : GoMap Int → List (String × Int))
    (horder : ∀ m, (order m).Perm m) :
    createPoll [] ["alice", "bob,carol", "lunch?", "2099-01-01"] =
      some (.Success [], pollOpenLedger) ∧
    GetStateByRange pollOpenLedger "VOTETOKEN0" "VOTETOKEN999" =
      [("VOTETOKEN1", .token ⟨"alice", "bob", "POLL1", ""⟩),
       ("VOTETOKEN2", .token ⟨"alice", "carol", "POLL1", ""⟩)] ∧
    vote pollOpenLedger ["bob", "alice", "POLL1", "pizza"] =
      some (.Success [], bobVotedLedger) ∧
    GetState bobVotedLedger "VOTETOKEN1" =
      some (.token ⟨"alice", "alice", "POLL1", "pizza"⟩) ∧
    completePoll order bobVotedLedger ["POLL1"] =
      some (.Success [],
        ("POLL1", .poll ⟨"alice", "lunch?", "2099-01-01", "pizza"⟩) :: bobVotedLedger) ∧
    GetState (("POLL1", .poll ⟨"alice", "lunch?", "2099-01-01", "pizza"⟩) :: bobVotedLedger)
      "POLL1" = some (.poll ⟨"alice", "lunch?", "2099-01-01", "pizza"⟩) := by
  refine ⟨by decide, by decide, by decide, by decide, ?_, by decide⟩
  have hc : countLoop bobVotedLedger (Split (getPollTokens bobVotedLedger "POLL1") ",") [] =
      [("pizza", 1)] := by decide
  have ho : order [("pizza", 1)] = [("pizza", 1)] := List.perm_singleton.mp (horder _)
  unfold completePoll
  simp only [hc, ho]
  decide

/-- Witness for C13: the entries of the count mapping iterated as stored. -/
theorem end_to_end_scenario_witness :
    completePoll id bobVotedLedger ["POLL1"] =
      some (.Success [],
        ("POLL1", .poll ⟨"alice", "lunch?", "2099-01-01", "pizza"⟩) :: bobVotedLedger) :=
  (end_to_end_scenario id (fun _ => List.Perm.refl _)).2.2.2.2.1

/-! ## Which indices the scan window holds -/

theorem ltChars_nines (k : Nat) (ds : List Char) (hds : ∀ c ∈ ds, c.toNat ≤ 57) :
    ltChars ds (List.replicate k '9') = !((List.replicate k '9').isPrefixOf ds) := by
  induction k generalizing ds with
  | zero => cases ds <;> simp [ltChars, List.isPrefixOf]
  | succ k ih =>
    cases ds with
    | nil => simp [ltChars, List.replicate, List.isPrefixOf]
    | cons c cs =>
      have hc := hds c (by simp)
      have h9 : ('9' : Char).toNat = 57 := by decide
      simp only [List.replicate, ltChars, List.isPrefixOf, h9]
      by_cases h1 : c.toNat < 57
      · have hne : ('9' == c) = false := by
          rw [beq_eq_false_iff_ne]
          rintro rfl
          omega
        simp [h1, hne]
      · have hc9 : c = '9' := Char.ext (UInt32.ext (by
          show c.toNat = ('9' : Char).toNat
          omega))
        subst hc9
        simp only [h9, lt_irrefl, if_false, beq_self_eq_true, Bool.true_and]
        exact ih cs (fun c1 h => hds c1 (List.mem_cons_of_mem _ h))

theorem ltChars_digits_zero (ds : List Char) (hne : ds ≠ [])
    (hds : ∀ c ∈ ds, 48 ≤ c.toNat) : ltChars ds ['0'] = false := by
  cases ds with
  | nil => exact absurd rfl hne
  | cons c cs =>
    have hc := hds c (by simp)
    have h0 : ('0' : Char).toNat = 48 := by decide
    simp only [ltChars, h0]
    split_ifs
    · omega
    · rfl
    · cases cs <;> rfl

/-- A key `pref` + decimal `n` lies in the scan window `[pref0, pref999)`
exactly when the numeral of `n` does not begin with `999`. -/
theorem inRange_index (pref : String) (n : Nat) :
    inRange (pref ++ "0") (pref ++ "999") (pref ++ Itoa (n : Int)) =
      !(['9', '9', '9'].isPrefixOf (decimal n)) := by
  have hItoa : Itoa (n : Int) = ⟨decimal n⟩ := rfl
  rw [hItoa, inRange_pref]
  have h1 : ltChars (decimal n) ("0" : String).data = false :=
    ltChars_digits_zero _ (decimal_ne_nil n) (fun c hc => (decimal_digits n c hc).1)
  have h2 := ltChars_nines 3 (decimal n) (fun c hc => (decimal_digits n c hc).2)
  have h3 : ("999" : String).data = List.replicate 3 '9' := rfl
  rw [h1, h3, h2]
  rfl

/-- C16 (as stated, refuted): the keys of index 1000 lie inside the scan
ranges, and `createPoll` on a ledger that holds `POLL1000` reads that index
and allocates `POLL1001`. -/
theorem index_1000_is_scanned :
    inRange "POLL0" "POLL999" (pollKey 1000) = true ∧
    inRange "VOTETOKEN0" "VOTETOKEN999" (tokenKey 1000) = true ∧
    scanMaxIndex "POLL"
      (GetStateByRange [("POLL1000", .poll ⟨"host", "detail", "deadline", ""⟩)]
        "POLL0" "POLL999") 0 = .index 1000 ∧
    createPoll [("POLL1000", .poll ⟨"host", "detail", "deadline", ""⟩)]
        ["alice", "bob", "lunch?", "2099-01-01"] =
      some (.Success [],
        [("VOTETOKEN1", .token ⟨"alice", "bob", "POLL1001", ""⟩),
         ("POLL1001", .poll ⟨"alice", "lunch?", "2099-01-01", ""⟩),
         ("POLL1000", .poll ⟨"host", "detail", "deadline", ""⟩)]) := by
  refine ⟨by decide, by decide, by decide, by decide⟩

/-- C16 (amended): for every index `n` the key of the poll and the key of the
token of index `n` lie outside the scanned range exactly when the decimal
numeral of `n` begins with `999` (999, 9990 to 9999, 99900 to 99999, ...);
every other index, 1000 for one, lies inside the range and is read by the
scans. -/
theorem index_outside_window_iff_starts_with_999 (n : Nat) :
    (inRange "POLL0" "POLL999" (pollKey (n : Int)) = false ↔
      ['9', '9', '9'].isPrefixOf (decimal n) = true) ∧
    (inRange "VOTETOKEN0" "VOTETOKEN999" (tokenKey (n : Int)) = false ↔
      ['9', '9', '9'].isPrefixOf (decimal n) = true) ∧
    (∀ (l : Ledger) (v : Value), GetState l (pollKey (n : Int)) = some v →
      ((pollKey (n : Int), v) ∈ GetStateByRange l "POLL0" "POLL999" ↔
        ['9', '9', '9'].isPrefixOf (decimal n) = false)) ∧
    (∀ (l : Ledger) (v : Value), GetState l (tokenKey (n : Int)) = some v →
      ((tokenKey (n : Int), v) ∈ GetStateByRange l "VOTETOKEN0" "VOTETOKEN999" ↔
        ['9', '9', '9'].isPrefixOf (decimal n) = false)) := by
  have hp : inRange "POLL0" "POLL999" (pollKey (n : Int)) =
      !(['9', '9', '9'].isPrefixOf (decimal n)) := inRange_index "POLL" n
  have ht : inRange "VOTETOKEN0" "VOTETOKEN999" (tokenKey (n : Int)) =
      !(['9', '9', '9'].isPrefixOf (decimal n)) := inRange_index "VOTETOKEN" n
  refine ⟨?_, ?_, ?_, ?_⟩
  · rw [hp]; simp
  · rw [ht]; simp
  · intro l v hv
    rw [mem_GetStateByRange, hp]
    simp [hv]
  · intro l v hv
    rw [mem_GetStateByRange, ht]
    simp [hv]

/-! ## A key that does not parse -/

theorem scanMaxIndex_parse_failure (pref : String) (sc : List (String × Value)) (m0 : Int)
    (h : ∃ e ∈ sc, parseKey pref e.1 = none) : ∀ m, scanMaxIndex pref sc m0 ≠ .index m := by
  intro m hm
  obtain ⟨e, he, hp⟩ := h
  obtain ⟨n, hn⟩ := scanMaxIndex_index_parses pref sc m0 m hm e he
  rw [hp] at hn
  exact Option.noConfusion hn

/-- When the piece that the scan reads off some key of the poll range does not
parse, `createPoll` on four arguments fails and leaves the ledger as it is. -/
theorem createPoll_parse_failure (l : Ledger) (a0 a1 a2 a3 : String)
    (h : ∃ e ∈ GetStateByRange l "POLL0" "POLL999", parseKey "POLL" e.1 = none) :
    ∃ msg, createPoll l [a0, a1, a2, a3] = some (.Error msg, l) := by
  unfold createPoll
  cases hs : scanMaxIndex "POLL" (GetStateByRange l "POLL0" "POLL999") 0 with
  | indexOutOfRange => exact absurd hs (pollScan_no_panic l)
  | parseError s e => exact ⟨_, rfl⟩
  | index m => exact absurd hs (scanMaxIndex_parse_failure _ _ _ h m)

/-- C19 (the code departs from it): the suffix `1POLLx` of the stored key
`POLL1POLLx` is no integer, but the scan reads `strings.Split(key, "POLL")[1]`,
which is `1`; `createPoll` does not fail and writes the poll `POLL2` and a
token. -/
theorem createPoll_ignores_suffix_after_second_pref :
    createUser [] ["POLL1POLLx", "u", "1"] =
      some (.Success [], [("POLL1POLLx", .user ⟨"u", 1⟩)]) ∧
    inRange "POLL0" "POLL999" "POLL1POLLx" = true ∧
    (Atoi "1POLLx").2 = some .invalid ∧
    Split "POLL1POLLx" "POLL" = ["", "1", "x"] ∧
    createPoll [("POLL1POLLx", .user ⟨"u", 1⟩)] ["alice", "bob", "lunch?", "2099-01-01"] =
      some (.Success [],
        [("VOTETOKEN1", .token ⟨"alice", "bob", "POLL2", ""⟩),
         ("POLL2", .poll ⟨"alice", "lunch?", "2099-01-01", ""⟩),
         ("POLL1POLLx", .user ⟨"u", 1⟩)]) := by
  refine ⟨by decide, by decide, by decide, by decide, by decide⟩

/-! ## `completePoll` on a poll id without a record -/

/-- C20 (as stated, refuted): for the empty poll id `completePoll` returns
success but writes no record, the ledger rejecting the empty key. -/
theorem completePoll_empty_id_writes_nothing :
    GetState [] "" = none ∧
    completePoll id [] [""] = some (.Success [], []) ∧
    GetState [] "" ≠ some (.poll ⟨"", "", "", pollWinner id [] ""⟩) := by
  refine ⟨by decide, by decide, by decide⟩

/-- C20 (amended): `completePoll` on one argument always returns success, for
every ledger and poll id; when the poll id is not empty and no record is
stored under it, the call writes there a poll with empty host, detail and
deadline whose result is the computed winner string. -/
theorem completePoll_never_fails (order : GoMap Int → List (String × Int)) (l : Ledger)
    (pollId : String) :
    ∃ l1, completePoll order l [pollId] = some (.Success [], l1) ∧
      (pollId ≠ "" → GetState l pollId = none →
        GetState l1 pollId = some (.poll ⟨"", "", "", pollWinner order l pollId⟩) ∧
        ∀ k, k ≠ pollId → GetState l1 k = GetState l k) := by
  refine ⟨_, rfl, ?_⟩
  intro hne hnone
  constructor
  · rw [GetState_PutState _ _ _ _ hne, if_pos rfl, hnone]
    rfl
  · intro k hk
    exact GetState_PutState_ne _ _ _ _ hk

/-- Witness for C20 (amended): the poll id `POLL5` on the empty ledger. -/
theorem completePoll_never_fails_witness :
    ∃ l1, completePoll id [] ["POLL5"] = some (.Success [], l1) ∧
      GetState l1 "POLL5" = some (.poll ⟨"", "", "", pollWinner id [] "POLL5"⟩) := by
  obtain ⟨l1, h1, h2⟩ := completePoll_never_fails id [] "POLL5"
  exact ⟨l1, h1, (h2 (by decide) (by decide)).1⟩

/-! ## What `completePoll` and `vote` leave untouched -/

theorem countLoop_congr (l : Ledger) (ids ids1 : List String) (m : GoMap Int)
    (h : ids.map TrimSpace = ids1.map TrimSpace) :
    countLoop l ids m = countLoop l ids1 m := by
  induction ids generalizing ids1 m with
  | nil =>
    cases ids1 with
    | nil => rfl
    | cons _ _ => simp at h
  | cons a rest ih =>
    cases ids1 with
    | nil => simp at h
    | cons b rest1 =>
      simp only [List.map_cons, List.cons.injEq] at h
      simp only [countLoop, h.1]
      exact ih rest1 _ h.2

theorem countLoop_empty_id (l : Ledger) (ids : List String) (m : GoMap Int) :
    countLoop l ("" :: ids) m = countLoop l ids m := by
  simp [countLoop, TrimSpace_empty, GetState, unmarshalVoteToken]

theorem countLoop_headPiece (l : Ledger) (field : VoteToken → String) (arg : String)
    (sc : List (String × Value)) (ids : List String) (m : GoMap Int) :
    countLoop l (headPiece field arg sc ++ ids) m = countLoop l ids m := by
  cases sc with
  | nil => simpa [headPiece] using countLoop_empty_id l ids m
  | cons e rest =>
    by_cases h : field (unmarshalVoteToken (some e.2)) = arg
    · simp [headPiece, h]
    · simpa [headPiece, h] using countLoop_empty_id l ids m

theorem countIn_cons (pollId r : String) (e : String × Value) (sc : List (String × Value)) :
    countIn pollId r (e :: sc) =
      (if (unmarshalVoteToken (some e.2)).PollID = pollId ∧
          (unmarshalVoteToken (some e.2)).Response = r then 1 else 0) + countIn pollId r sc := by
  unfold countIn
  by_cases h : (unmarshalVoteToken (some e.2)).PollID = pollId ∧
      (unmarshalVoteToken (some e.2)).Response = r
  · simp [List.filter_cons, h]
    omega
  · simp [List.filter_cons, h]

/-- The count stored for a non-empty response after the counting loop has run
over the selected keys of a scan: the count stored before plus the number of
selected entries with that response. -/
theorem countLoop_selected (l : Ledger) (pollId r : String) (hr : r ≠ "")
    (sc : List (String × Value)) (m : GoMap Int)
    (hsc : ∀ k v, (k, v) ∈ sc → GetState l k = some v ∧ TrimSpace k = k) :
    mapGet (countLoop l (selectedKeys VoteToken.PollID pollId sc) m) r =
      match mapGet m r with
      | some c => some (c + (countIn pollId r sc : Int))
      | none => if countIn pollId r sc = 0 then none else some (countIn pollId r sc : Int) := by
  induction sc generalizing m with
  | nil =>
    simp only [selectedKeys, List.filter_nil, List.map_nil, countLoop, countIn,
      List.length_nil, Nat.cast_zero, add_zero, if_true]
    cases mapGet m r <;> rfl
  | cons e rest ih =>
    obtain ⟨k, v⟩ := e
    have ih1 := fun m1 => ih m1 (fun k1 v1 h1 => hsc k1 v1 (List.mem_cons_of_mem _ h1))
    obtain ⟨hg, ht⟩ := hsc k v (by simp)
    rw [selectedKeys_cons, countIn_cons]
    by_cases hp : (unmarshalVoteToken (some v)).PollID = pollId
    · simp only [hp, if_true, true_and, countLoop, ht, hg]
      by_cases ha : (unmarshalVoteToken (some v)).Response = ""
      · have hne : ¬ ("" = r) := fun h => hr h.symm
        simp only [ha, ne_eq, not_true_eq_false, if_false, hne, zero_add]
        exact ih1 m
      · simp only [ne_eq, ha, not_false_eq_true, if_true]
        by_cases har : (unmarshalVoteToken (some v)).Response = r
        · simp only [har, if_true]
          cases hm : mapGet m r with
          | none =>
            simp only
            rw [ih1, mapGet_mapSet, if_pos rfl]
            simp only
            rw [if_neg (by omega)]
            push_cast
            rfl
          | some c =>
            simp only
            rw [ih1, mapGet_mapSet, if_pos rfl]
            simp only
            push_cast
            congr 1
            ring
        · simp only [har, if_false, zero_add]
          have hne : ¬ r = (unmarshalVoteToken (some v)).Response := fun h => har h.symm
          cases hm : mapGet m (unmarshalVoteToken (some v)).Response with
          | none =>
            simp only
            rw [ih1, mapGet_mapSet, if_neg hne]
          | some c =>
            simp only
            rw [ih1, mapGet_mapSet, if_neg hne]
    · simp only [hp, if_false, false_and, zero_add]
      exact ih1 m

theorem countLoop_no_empty_response (l : Ledger) (ids : List String) (m : GoMap Int) :
    mapGet (countLoop l ids m) "" = mapGet m "" := by
  induction ids generalizing m with
  | nil => rfl
  | cons a rest ih =>
    simp only [countLoop]
    rw [ih]
    split_ifs with h
    · have hne : ¬ "" = (unmarshalVoteToken (GetState l (TrimSpace a))).Response :=
        fun h1 => h h1.symm
      split <;> rw [mapGet_mapSet, if_neg hne]
    · rfl

/-- The mapping of `completePoll` in terms of the selected keys of the scan. -/
theorem pollCounts_eq (l : Ledger) (pollId : String) (hclean : cleanTokenKeys l) :
    pollCounts l pollId =
      countLoop l (selectedKeys VoteToken.PollID pollId
        (GetStateByRange l "VOTETOKEN0" "VOTETOKEN999")) [] := by
  unfold pollCounts getPollTokens
  have h1 := trimmed_ids VoteToken.PollID pollId _ hclean
  rw [countLoop_congr l _ (headPiece VoteToken.PollID pollId
      (GetStateByRange l "VOTETOKEN0" "VOTETOKEN999") ++
      selectedKeys VoteToken.PollID pollId (GetStateByRange l "VOTETOKEN0" "VOTETOKEN999"))]
  · rw [countLoop_headPiece]
  · rw [h1]
    symm
    rw [List.map_congr_left (g := id)]
    · simp
    · intro k hk
      rcases List.mem_append.mp hk with h | h
      · simp [headPiece_mem h, TrimSpace_empty]
      · obtain ⟨v, hv⟩ := selectedKeys_mem h
        exact (hclean k v hv).2

/-- C18: on a ledger whose keys in the token scan range are clean, the count
that `completePoll` assigns to a non-empty response is the number of tokens of
the range with the given poll id and that response (no entry when there is
none); the empty response gets no entry; and the result stored in the poll
record is the winner string selected from these counts. -/
theorem completePoll_counts_responses (order : GoMap Int → List (String × Int)) (l : Ledger)
    (pollId : String) (hclean : cleanTokenKeys l) :
    (∀ r, r ≠ "" →
      mapGet (pollCounts l pollId) r =
        if responseCount l pollId r = 0 then none
        else some (responseCount l pollId r : Int)) ∧
    mapGet (pollCounts l pollId) "" = none ∧
    completePoll order l [pollId] =
      some (.Success [], PutState l pollId (.poll
        { unmarshalPoll (GetState l pollId) with
          Result := winnerLoop (order (pollCounts l pollId)) 0 "" })) ∧
    (pollId ≠ "" → ∃ l1 p, completePoll order l [pollId] = some (.Success [], l1) ∧
      GetState l1 pollId = some (.poll p) ∧
      p.Result = winnerLoop (order (pollCounts l pollId)) 0 "") := by
  refine ⟨?_, ?_, rfl, ?_⟩
  · intro r hr
    rw [pollCounts_eq l pollId hclean, countLoop_selected l pollId r hr _ []]
    · rfl
    · intro k v hkv
      exact ⟨(mem_GetStateByRange.mp hkv).1, (hclean k v hkv).2⟩
  · unfold pollCounts
    rw [countLoop_no_empty_response]
    rfl
  · intro hne
    refine ⟨_, { unmarshalPoll (GetState l pollId) with
      Result := winnerLoop (order (pollCounts l pollId)) 0 "" }, rfl, ?_, rfl⟩
    rw [GetState_PutState _ _ _ _ hne, if_pos rfl]
    rfl

/-- Witness for C18: the tally of `POLL1` after bob's vote for pizza. -/
theorem completePoll_counts_responses_witness :
    mapGet (pollCounts bobVotedLedger "POLL1") "pizza" =
      (if responseCount bobVotedLedger "POLL1" "pizza" = 0 then none
        else some (responseCount bobVotedLedger "POLL1" "pizza" : Int)) ∧
    responseCount bobVotedLedger "POLL1" "pizza" = 1 :=
  ⟨(completePoll_counts_responses id bobVotedLedger "POLL1"
      (cleanTokenKeys_of_all _ (by decide))).1 "pizza" (by decide), by decide⟩

/-! ## The allocated index is one more than the largest suffix -/

theorem parseUintLoop_ok_digits (cs : List Char) (a v : Nat)
    (h : parseUintLoop cs a = .ok v) : ∀ c ∈ cs, 48 ≤ c.toNat ∧ c.toNat ≤ 57 := by
  induction cs generalizing a with
  | nil => simp
  | cons c rest ih =>
    simp only [parseUintLoop] at h
    split_ifs at h with h1 h2
    intro c1 hc1
    rcases List.mem_cons.mp hc1 with rfl | h3
    · exact h1
    · exact ih _ h c1 h3

theorem parseUint_ok_digits (cs : List Char) (v : Nat) (h : parseUint cs = (v, none)) :
    ∀ c ∈ cs, 48 ≤ c.toNat ∧ c.toNat ≤ 57 := by
  unfold parseUint at h
  cases cs with
  | nil => simp at h
  | cons c rest =>
    simp only at h
    cases hl : parseUintLoop (c :: rest) 0 with
    | ok n => exact parseUintLoop_ok_digits _ _ _ hl
    | error e =>
      rw [hl] at h
      cases e <;> simp at h

theorem Atoi_final (neg : Bool) (un : Nat) (n : Int)
    (h : (if ¬ neg ∧ 2 ^ 63 ≤ un then ((2 ^ 63 - 1 : Int), some NumError.outOfRange)
      else if neg ∧ 2 ^ 63 < un then (-(2 ^ 63 : Int), some NumError.outOfRange)
      else (if neg then -(un : Int) else (un : Int), none)) = (n, none)) :
    (neg = true → n = -(un : Int) ∧ un ≤ 2 ^ 63) ∧
    (neg = false → n = (un : Int) ∧ un < 2 ^ 63) := by
  cases neg
  · simp only [Bool.false_eq_true, not_false_eq_true, true_and, false_and, if_false] at h
    split_ifs at h with h1
    · simp at h
    · simp only [Prod.mk.injEq, and_true] at h
      exact ⟨fun h2 => Bool.noConfusion h2, fun _ => ⟨h.symm, by omega⟩⟩
  · simp only [not_true_eq_false, false_and, if_false, true_and, if_true] at h
    split_ifs at h with h1
    · simp at h
    · simp only [Prod.mk.injEq, and_true] at h
      exact ⟨fun _ => ⟨h.symm, by omega⟩, fun h2 => Bool.noConfusion h2⟩

/-- A string that `Atoi` parses without an error is one character, a sign or a
digit, followed by digits; the value is not negative when the first character
is a digit, and it lies in the range of `int`. -/
theorem Atoi_ok (s : String) (n : Int) (h : Atoi s = (n, none)) :
    ∃ c cs, s.data = c :: cs ∧ (∀ x ∈ cs, 48 ≤ x.toNat ∧ x.toNat ≤ 57) ∧
      (c = '+' ∨ c = '-' ∨ (48 ≤ c.toNat ∧ c.toNat ≤ 57)) ∧
      (48 ≤ c.toNat → 0 ≤ n) ∧ -(2 ^ 63) ≤ n ∧ n < 2 ^ 63 := by
  unfold Atoi at h
  cases hs : s.data with
  | nil => simp [hs] at h
  | cons c cs =>
    rw [hs] at h
    simp only at h
    refine ⟨c, cs, rfl, ?_⟩
    by_cases hsign : c = '+' ∨ c = '-'
    · have hbody : (if (c == '+') = true ∨ (c == '-') = true then cs else c :: cs) = cs := by
        rcases hsign with rfl | rfl <;> simp
      rw [hbody] at h
      rcases hp : parseUint cs with ⟨un, _ | e⟩
      · rw [hp] at h
        have hd := parseUint_ok_digits cs un hp
        have hc48 : ¬ 48 ≤ c.toNat := by
          rcases hsign with rfl | rfl <;> decide
        obtain ⟨hneg, hpos⟩ := Atoi_final (c == '-') un n h
        refine ⟨hd, ?_, fun h48 => absurd h48 hc48, ?_⟩
        · rcases hsign with h1 | h1
          · exact Or.inl h1
          · exact Or.inr (Or.inl h1)
        · cases hb : (c == '-')
          · obtain ⟨h1, h2⟩ := hpos hb
            constructor <;> omega
          · obtain ⟨h1, h2⟩ := hneg hb
            constructor <;> omega
      · rw [hp] at h
        cases e <;> simp at h
    · push_neg at hsign
      have h1 : (c == '+') = false := by simpa using hsign.1
      have h2 : (c == '-') = false := by simpa using hsign.2
      have hbody : (if (c == '+') = true ∨ (c == '-') = true then cs else c :: cs) = c :: cs := by
        simp [h1, h2]
      rw [hbody] at h
      rcases hp : parseUint (c :: cs) with ⟨un, _ | e⟩
      · rw [hp] at h
        have hd := parseUint_ok_digits (c :: cs) un hp
        obtain ⟨_, hpos⟩ := Atoi_final (c == '-') un n h
        obtain ⟨h3, h4⟩ := hpos h2
        refine ⟨fun x hx => hd x (List.mem_cons_of_mem _ hx), Or.inr (Or.inr (hd c (by simp))),
          fun _ => by omega, by omega, by omega⟩
      · rw [hp] at h
        cases e <;> simp at h

theorem eq_append_of_data (pref k : String) (r : List Char) (h : k.data = pref.data ++ r) :
    k = pref ++ ⟨r⟩ := by
  apply String.ext
  rw [String.data_append]
  exact h

theorem range_suffix_digit (pref k : String)
    (h : inRange (pref ++ "0") (pref ++ "999") k = true) :
    ∃ c cs, k.data = pref.data ++ c :: cs ∧ 48 ≤ c.toNat ∧ c.toNat ≤ 57 := by
  obtain ⟨r, hr⟩ := key_in_range_has_pref pref "0" "999" k h
  have hk : k = pref ++ ⟨r⟩ := eq_append_of_data pref k r hr
  rw [hk, inRange_pref] at h
  simp only [Bool.and_eq_true, Bool.not_eq_true'] at h
  obtain ⟨h1, h2⟩ := h
  cases r with
  | nil => exact absurd h1 (by decide)
  | cons c cs =>
    refine ⟨c, cs, hr, ?_, ?_⟩
    · by_contra hc
      have h0 : ('0' : Char).toNat = 48 := by decide
      have : ltChars (c :: cs) ("0" : String).data = true := by
        show ltChars (c :: cs) ['0'] = true
        simp only [ltChars, h0]
        rw [if_pos (by omega)]
      rw [this] at h1
      exact Bool.noConfusion h1
    · by_contra hc
      have h9 : ('9' : Char).toNat = 57 := by decide
      have : ltChars (c :: cs) ("999" : String).data = false := by
        show ltChars (c :: cs) ['9', '9', '9'] = false
        simp only [ltChars, h9]
        rw [if_neg (by omega), if_pos (by omega)]
      rw [this] at h2
      exact Bool.noConfusion h2

/-- For a key of the scan range whose suffix `Atoi` parses, the scan reads
that value, which is not negative. -/
theorem parseKey_of_suffix (pref : String) (p0 : Char) (ps : List Char)
    (hp : pref.data = p0 :: ps) (hp0 : p0.toNat < 43 ∨ 57 < p0.toNat) (k : String)
    (hk : inRange (pref ++ "0") (pref ++ "999") k = true) (n : Int)
    (h : Atoi (suffixOf pref k) = (n, none)) :
    parseKey pref k = some n ∧ 0 ≤ n := by
  obtain ⟨c, cs, hr, hc1, hc2⟩ := range_suffix_digit pref k hk
  have hsuf : suffixOf pref k = ⟨c :: cs⟩ := by
    unfold suffixOf
    rw [hr, List.drop_left]
  rw [hsuf] at h
  obtain ⟨c1, cs1, hd, hcs, hc, hnn, _, _⟩ := Atoi_ok _ n h
  simp only [List.cons.injEq] at hd
  obtain ⟨rfl, rfl⟩ := hd
  have hkeq : k = pref ++ ⟨c :: cs⟩ := eq_append_of_data pref k _ hr
  have hs : Split k pref = ["", ⟨c :: cs⟩] := by
    rw [hkeq]
    apply Split_pref_digits pref p0 ps _ hp
    intro x hx heq
    rcases List.mem_cons.mp hx with h1 | h1
    · rw [h1] at heq
      rw [← heq] at hp0
      omega
    · have := hcs x h1
      rw [heq] at this
      omega
  refine ⟨?_, hnn hc1⟩
  unfold parseKey
  rw [hs]
  simp [h]

theorem scanMaxIndex_of_isMaxSuffix (pref : String) (p0 : Char) (ps : List Char)
    (hp : pref.data = p0 :: ps) (hp0 : p0.toNat < 43 ∨ 57 < p0.toNat) (l : Ledger) (m : Int)
    (h : isMaxSuffix pref (GetStateByRange l (pref ++ "0") (pref ++ "999")) m) :
    scanMaxIndex pref (GetStateByRange l (pref ++ "0") (pref ++ "999")) 0 = .index m ∧
      0 ≤ m := by
  obtain ⟨hall, e, he, hem⟩ := h
  have hparse : ∀ e1 ∈ GetStateByRange l (pref ++ "0") (pref ++ "999"),
      parseKey pref e1.1 = some (Atoi (suffixOf pref e1.1)).1 ∧
        0 ≤ (Atoi (suffixOf pref e1.1)).1 := by
    intro e1 he1
    apply parseKey_of_suffix pref p0 ps hp hp0 e1.1 (mem_GetStateByRange.mp he1).2
    have := (hall e1 he1).1
    exact Prod.ext rfl this
  have hm0 : 0 ≤ m := by
    rw [← hem]
    exact (hparse e he).2
  refine ⟨?_, hm0⟩
  apply scanMaxIndex_eq
  · intro e1 he1
    exact ⟨_, (hparse e1 he1).1, (hall e1 he1).2⟩
  · exact hm0
  · right
    refine ⟨e, he, ?_⟩
    rw [(hparse e he).1, hem]

/-- C15 (as stated, refuted): the only key of the poll range is
`POLL9223372036854775807`, whose suffix is the largest `int`; the index
allocated is not that number plus one but the least `int`, to which the
addition wraps around. -/
theorem allocated_index_wraps :
    GetStateByRange [("POLL9223372036854775807", .user ⟨"u", 1⟩)] "POLL0" "POLL999" =
      [("POLL9223372036854775807", .user ⟨"u", 1⟩)] ∧
    Atoi (suffixOf "POLL" "POLL9223372036854775807") = (9223372036854775807, none) ∧
    createPoll [("POLL9223372036854775807", .user ⟨"u", 1⟩)]
        ["alice", "bob", "lunch?", "2099-01-01"] =
      some (.Success [],
        [("VOTETOKEN1", .token ⟨"alice", "bob", "POLL-9223372036854775808", ""⟩),
         ("POLL-9223372036854775808", .poll ⟨"alice", "lunch?", "2099-01-01", ""⟩),
         ("POLL9223372036854775807", .user ⟨"u", 1⟩)]) ∧
    pollKey (1 + 9223372036854775807) = "POLL9223372036854775808" ∧
    GetState [("VOTETOKEN1", .token ⟨"alice", "bob", "POLL-9223372036854775808", ""⟩),
        ("POLL-9223372036854775808", .poll ⟨"alice", "lunch?", "2099-01-01", ""⟩),
        ("POLL9223372036854775807", .user ⟨"u", 1⟩)] (pollKey (1 + 9223372036854775807)) =
      none := by
  refine ⟨by decide, by decide, by decide, by decide, by decide⟩

/-- C15 (amended): when every key of the scan range has a suffix that
`strconv.Atoi` parses and `m`, the numeric maximum of the parsed suffixes, is
below the largest `int`, the allocation scan yields `m` whatever the
lexicographic order of the keys, `createPoll` stores the new poll at index
`1 + m` and `mintTokens` uses the base index `1 + m`. -/
theorem allocated_index_is_one_plus_max (l : Ledger) (m : Int) (hm : m < 2 ^ 63 - 1) :
    (isMaxSuffix "POLL" (GetStateByRange l "POLL0" "POLL999") m →
      scanMaxIndex "POLL" (GetStateByRange l "POLL0" "POLL999") 0 = .index m ∧
      ∀ host csv detail deadline,
        ∃ l1, createPoll l [host, csv, detail, deadline] = some (.Success [], l1) ∧
          GetState l1 (pollKey (1 + m)) = some (.poll ⟨host, detail, deadline, ""⟩)) ∧
    (isMaxSuffix "VOTETOKEN" (GetStateByRange l "VOTETOKEN0" "VOTETOKEN999") m →
      scanMaxIndex "VOTETOKEN" (GetStateByRange l "VOTETOKEN0" "VOTETOKEN999") 0 = .index m ∧
      ∀ creator csv pollId,
        ∃ usrvt, mintTokens l [creator, csv, pollId] =
          some (some usrvt,
            applyWrites l (mintLoopWrites creator pollId (1 + m) (Split csv ",") 0))) := by
  constructor
  · intro h
    obtain ⟨hs, hm0⟩ := scanMaxIndex_of_isMaxSuffix "POLL" 'P' _ rfl (by decide) l m h
    have hw : wrapInt (m + 1) = 1 + m := by
      rw [wrapInt_of_range (by omega) (by omega)]
      ring
    refine ⟨hs, ?_⟩
    intro host csv detail deadline
    obtain ⟨l1, h1, h2⟩ := createPoll_success l host csv detail deadline m hs
    rw [hw] at h2
    exact ⟨l1, h1, h2⟩
  · intro h
    obtain ⟨hs, hm0⟩ := scanMaxIndex_of_isMaxSuffix "VOTETOKEN" 'V' _ rfl (by decide) l m h
    have hw : wrapInt (m + 1) = 1 + m := by
      rw [wrapInt_of_range (by omega) (by omega)]
      ring
    refine ⟨hs, ?_⟩
    intro creator csv pollId
    have h1 := mintTokens_eq l creator csv pollId m hs
    rw [hw] at h1
    exact ⟨_, h1⟩

/-- Witness for C15 (amended): the keys `POLL2` and `POLL10`, scanned in the
order `POLL10`, `POLL2`, give the new poll `POLL11`. -/
theorem allocated_index_is_one_plus_max_witness :
    GetStateByRange [("POLL2", .user ⟨"u", 1⟩), ("POLL10", .user ⟨"u", 1⟩)] "POLL0" "POLL999" =
      [("POLL10", .user ⟨"u", 1⟩), ("POLL2", .user ⟨"u", 1⟩)] ∧
    pollKey (1 + 10) = "POLL11" ∧
    ∃ l1, createPoll [("POLL2", .user ⟨"u", 1⟩), ("POLL10", .user ⟨"u", 1⟩)]
        ["alice", "bob", "lunch?", "2099-01-01"] = some (.Success [], l1) ∧
      GetState l1 (pollKey (1 + 10)) = some (.poll ⟨"alice", "lunch?", "2099-01-01", ""⟩) :=
  ⟨by decide, by decide,
    ((allocated_index_is_one_plus_max
      [("POLL2", .user ⟨"u", 1⟩), ("POLL10", .user ⟨"u", 1⟩)] 10 (by decide)).1
      ⟨by decide, by decide⟩).2 "alice" "bob" "lunch?" "2099-01-01"⟩

/-! ## Fresh keys -/

theorem scanMaxIndex_index_bound (pref : String) (sc : List (String × Value)) (m0 m : Int)
    (h : scanMaxIndex pref sc m0 = .index m) :
    m0 ≤ m ∧ (∀ e ∈ sc, ∀ n, parseKey pref e.1 = some n → n ≤ m) ∧
      (m = m0 ∨ ∃ e ∈ sc, parseKey pref e.1 = some m) := by
  induction sc generalizing m0 with
  | nil =>
    simp only [scanMaxIndex, ScanResult.index.injEq] at h
    exact ⟨by omega, by simp, Or.inl h.symm⟩
  | cons x rest ih =>
    obtain ⟨k, v⟩ := x
    cases hp : parseKey pref k with
    | none => exact absurd h (scanMaxIndex_cons_none v rest m0 hp m)
    | some n =>
      rw [scanMaxIndex_cons_parse v rest m0 hp] at h
      obtain ⟨h1, h2, h3⟩ := ih _ h
      refine ⟨?_, ?_, ?_⟩
      · split_ifs at h1 <;> omega
      · intro e he n1 hn1
        rcases List.mem_cons.mp he with rfl | he1
        · rw [hp] at hn1
          have : n = n1 := Option.some.inj hn1
          split_ifs at h1 <;> omega
        · exact h2 e he1 n1 hn1
      · rcases h3 with h3 | ⟨e, he, hm⟩
        · split_ifs at h3 with h4
          · exact Or.inr ⟨(k, v), by simp, by rw [hp, h3]⟩
          · exact Or.inl h3
        · exact Or.inr ⟨e, List.mem_cons_of_mem _ he, hm⟩

theorem parseKey_range (pref k : String) (n : Int) (h : parseKey pref k = some n) :
    -(2 ^ 63) ≤ n ∧ n < 2 ^ 63 := by
  unfold parseKey at h
  cases hs : (Split k pref)[1]? with
  | none => simp [hs] at h
  | some lastkey =>
    simp only [hs] at h
    rcases ha : Atoi lastkey with ⟨x, _ | e⟩
    · simp only [ha, Option.some.injEq] at h
      obtain ⟨_, _, _, _, _, _, h1, h2⟩ := Atoi_ok lastkey x ha
      rw [← h]
      exact ⟨h1, h2⟩
    · simp [ha] at h

theorem scanMaxIndex_index_range (pref : String) (sc : List (String × Value)) (m : Int)
    (h : scanMaxIndex pref sc 0 = .index m) : 0 ≤ m ∧ m < 2 ^ 63 := by
  obtain ⟨h1, _, h3⟩ := scanMaxIndex_index_bound pref sc 0 m h
  refine ⟨h1, ?_⟩
  rcases h3 with h3 | ⟨e, _, he⟩
  · rw [h3]
    norm_num
  · exact (parseKey_range pref e.1 m he).2

theorem parseUint_decimal (n : Nat) (hn : n < 2 ^ 64) : parseUint (decimal n) = (n, none) := by
  obtain ⟨c, cs, hcs⟩ := List.exists_cons_of_ne_nil (decimal_ne_nil n)
  have hloop := parseUintLoop_decimal n hn
  rw [hcs] at hloop ⊢
  simp only [parseUint]
  rw [hloop]

/-- `Atoi` reads back what `Itoa` writes, for every `int`. -/
theorem Atoi_Itoa_int (x : Int) (h1 : -(2 ^ 63) ≤ x) (h2 : x < 2 ^ 63) :
    Atoi (Itoa x) = (x, none) := by
  cases x with
  | ofNat n =>
    have h3 : Int.ofNat n = (n : Int) := rfl
    exact Atoi_Itoa n (by omega)
  | negSucc n =>
    have hn : n + 1 ≤ 2 ^ 63 := by
      have : Int.negSucc n = -((n : Int) + 1) := Int.negSucc_eq n
      omega
    have hpu := parseUint_decimal (n + 1) (by omega)
    have hdata : (Itoa (Int.negSucc n)).data = '-' :: decimal (n + 1) := rfl
    unfold Atoi
    rw [hdata]
    have hb : (if (('-' : Char) == '+') = true ∨ (('-' : Char) == '-') = true
        then decimal (n + 1) else '-' :: decimal (n + 1)) = decimal (n + 1) := by simp
    simp only
    rw [hb, hpu]
    have h63 : ¬ (9223372036854775808 < n + 1) := by
      have : (2 : Nat) ^ 63 = 9223372036854775808 := by norm_num
      omega
    simp [h63, Int.negSucc_eq]

theorem Itoa_injective (x y : Int) (hx1 : -(2 ^ 63) ≤ x) (hx2 : x < 2 ^ 63)
    (hy1 : -(2 ^ 63) ≤ y) (hy2 : y < 2 ^ 63) (h : Itoa x = Itoa y) : x = y := by
  have h1 := Atoi_Itoa_int x hx1 hx2
  rw [h, Atoi_Itoa_int y hy1 hy2] at h1
  exact (congrArg Prod.fst h1).symm

theorem append_Itoa_injective (pref : String) (x y : Int) (hx1 : -(2 ^ 63) ≤ x)
    (hx2 : x < 2 ^ 63) (hy1 : -(2 ^ 63) ≤ y) (hy2 : y < 2 ^ 63)
    (h : pref ++ Itoa x = pref ++ Itoa y) : x = y := by
  apply Itoa_injective x y hx1 hx2 hy1 hy2
  have h1 := congrArg String.data h
  rw [String.data_append, String.data_append] at h1
  exact String.ext (List.append_cancel_left h1)

theorem numeral_key_nonneg (pref : String) (x : Int) (n : Nat)
    (h : pref ++ Itoa x = pref ++ ⟨decimal n⟩) : 0 ≤ x := by
  cases x with
  | ofNat a => exact Int.natCast_nonneg a
  | negSucc a =>
    exfalso
    have h1 := congrArg String.data h
    rw [String.data_append, String.data_append] at h1
    have h2 : (Itoa (Int.negSucc a)).data = decimal n := List.append_cancel_left h1
    have h3 : (Itoa (Int.negSucc a)).data = '-' :: decimal (a + 1) := rfl
    rw [h3] at h2
    have h4 := decimal_digits n '-' (by rw [← h2]; simp)
    have h5 : ('-' : Char).toNat = 45 := by decide
    omega

theorem startsWith_append (pref s : String) : startsWith pref (pref ++ s) = true := by
  unfold startsWith
  rw [List.isPrefixOf_iff_prefix, String.data_append]
  exact ⟨s.data, rfl⟩

/-- Under the canonical-key condition the key of an index that is negative or
above the scanned maximum is not stored. -/
theorem fresh_key (pref : String) (p0 : Char) (ps : List Char) (hp : pref.data = p0 :: ps)
    (hp0 : p0.toNat < 48 ∨ 57 < p0.toNat) (l : Ledger) (hcan : canonicalKeys pref l) (m : Int)
    (hscan : scanMaxIndex pref (GetStateByRange l (pref ++ "0") (pref ++ "999")) 0 = .index m)
    (x : Int) (hx : x < 2 ^ 63) (hxm : 0 ≤ x → m < x) :
    GetState l (pref ++ Itoa x) = none := by
  cases hg : GetState l (pref ++ Itoa x) with
  | none => rfl
  | some v =>
    exfalso
    obtain ⟨⟨n, hn⟩, hr⟩ := hcan _ v hg (startsWith_append pref _)
    have h0 := numeral_key_nonneg pref x n hn
    obtain ⟨a, rfl⟩ := Int.eq_ofNat_of_zero_le h0
    have hpk := parseKey_index pref p0 ps hp hp0 a (by omega)
    have hmem := mem_GetStateByRange.mpr ⟨hg, hr⟩
    have hle := (scanMaxIndex_index_bound pref _ 0 m hscan).2.1 _ hmem _ hpk
    have := hxm h0
    omega

theorem fresh_index (m i : Int) (hm0 : 0 ≤ m) (hm : m < 2 ^ 63) (hi0 : 0 ≤ i)
    (hi : i < 2 ^ 63) : 0 ≤ wrapInt (wrapInt (m + 1) + i) → m < wrapInt (wrapInt (m + 1) + i) := by
  unfold wrapInt
  omega

theorem wrapInt_add_injective (b i j : Int) (hi0 : 0 ≤ i) (hi : i < 2 ^ 63) (hj0 : 0 ≤ j)
    (hj : j < 2 ^ 63) (h : wrapInt (b + i) = wrapInt (b + j)) : i = j := by
  unfold wrapInt at h
  omega

theorem mintLoopWrites_mem (c p : String) (b : Int) (addrs : List String) (i0 : Int) :
    ∀ w ∈ mintLoopWrites c p b addrs i0,
      ∃ j : Nat, j < addrs.length ∧ w.1 = tokenKey (wrapInt (b + (i0 + (j : Int)))) := by
  induction addrs generalizing i0 with
  | nil => simp [mintLoopWrites]
  | cons a rest ih =>
    intro w hw
    simp only [mintLoopWrites, List.mem_cons] at hw
    rcases hw with rfl | hw
    · exact ⟨0, by simp, by simp⟩
    · obtain ⟨j, hj, hk⟩ := ih (i0 + 1) w hw
      refine ⟨j + 1, by simp [hj], ?_⟩
      rw [hk]
      push_cast
      congr 3
      ring

theorem mintLoopWrites_nodup (c p : String) (b : Int) (addrs : List String) (i0 : Int)
    (h0 : 0 ≤ i0) (hlen : i0 + addrs.length ≤ 2 ^ 63) :
    ((mintLoopWrites c p b addrs i0).map Prod.fst).Nodup := by
  induction addrs generalizing i0 with
  | nil => simp [mintLoopWrites]
  | cons a rest ih =>
    simp only [List.length_cons] at hlen
    push_cast at hlen
    simp only [mintLoopWrites, List.map_cons, List.nodup_cons]
    refine ⟨?_, ih (i0 + 1) (by omega) (by omega)⟩
    intro hmem
    rw [List.mem_map] at hmem
    obtain ⟨w, hw, hk⟩ := hmem
    obtain ⟨j, hj, hwj⟩ := mintLoopWrites_mem c p b rest (i0 + 1) w hw
    rw [hwj] at hk
    have heq := append_Itoa_injective "VOTETOKEN" _ _ (wrapInt_ge _) (wrapInt_lt _)
      (wrapInt_ge _) (wrapInt_lt _) hk
    have := wrapInt_add_injective b (i0 + 1 + j) i0 (by omega) (by omega) h0 (by omega) heq
    omega

theorem mint_writes_fresh (l : Ledger) (hcan : canonicalKeys "VOTETOKEN" l) (c p : String)
    (addrs : List String) (hlen : addrs.length ≤ 2 ^ 63) (m : Int)
    (hscan : scanMaxIndex "VOTETOKEN" (GetStateByRange l "VOTETOKEN0" "VOTETOKEN999") 0 =
      .index m) :
    (∀ w ∈ mintLoopWrites c p (wrapInt (m + 1)) addrs 0, GetState l w.1 = none) ∧
      ((mintLoopWrites c p (wrapInt (m + 1)) addrs 0).map Prod.fst).Nodup := by
  have hl : ((addrs.length : Nat) : Int) ≤ 2 ^ 63 := by exact_mod_cast hlen
  obtain ⟨hm0, hm⟩ := scanMaxIndex_index_range _ _ m hscan
  refine ⟨?_, mintLoopWrites_nodup c p _ addrs 0 (le_refl 0) (by omega)⟩
  intro w hw
  obtain ⟨j, hj, hk⟩ := mintLoopWrites_mem c p _ addrs 0 w hw
  rw [hk]
  have hj1 : ((j : Nat) : Int) < (addrs.length : Int) := by exact_mod_cast hj
  exact fresh_key "VOTETOKEN" 'V' _ rfl (by decide) l hcan m hscan _ (wrapInt_lt _)
    (fresh_index m (0 + (j : Int)) hm0 hm (by omega) (by omega))

theorem applyWrites_keeps (l : Ledger) (ws : List (String × Value))
    (h : ∀ w ∈ ws, GetState l w.1 = none) :
    ∀ k v, GetState l k = some v → GetState (applyWrites l ws) k = some v := by
  intro k v hg
  rw [GetState_applyWrites_other _ _ _ _, hg]
  intro e he heq
  have := h e he
  rw [heq, hg] at this
  exact Option.noConfusion this

/-- C17: on a ledger whose keys starting with `VOTETOKEN` (and, for
`createPoll`, also those starting with `POLL`) are the prefix followed by a
canonical decimal numeral and lie inside the scan range, a `mintTokens` call
and a `createPoll` call return, and what they do to the ledger is a list of
writes whose keys were all absent before the call and are pairwise distinct;
every key that held a value still holds it. The address list has at most 2^63
pieces, as the length of a Go string is an `int`. -/
theorem allocation_is_collision_free (l : Ledger)
    (creator pollId host csv detail deadline : String)
    (hlen : (Split csv ",").length ≤ 2 ^ 63) :
    (canonicalKeys "VOTETOKEN" l →
      ∃ r ws, mintTokens l [creator, csv, pollId] = some (r, applyWrites l ws) ∧
        (∀ w ∈ ws, GetState l w.1 = none) ∧ (ws.map Prod.fst).Nodup ∧
        ∀ k v, GetState l k = some v → GetState (applyWrites l ws) k = some v) ∧
    (canonicalKeys "POLL" l → canonicalKeys "VOTETOKEN" l →
      ∃ resp ws, createPoll l [host, csv, detail, deadline] = some (resp, applyWrites l ws) ∧
        (∀ w ∈ ws, GetState l w.1 = none) ∧ (ws.map Prod.fst).Nodup ∧
        ∀ k v, GetState l k = some v → GetState (applyWrites l ws) k = some v) := by
  constructor
  · intro hcan
    rcases mintTokens_returns l [creator, csv, pollId] with h | ⟨b0, b1, b2, m, hargs, hscan, h⟩
    · exact ⟨none, [], h, by simp, by simp, fun k v hg => hg⟩
    · simp only [List.cons.injEq, and_true] at hargs
      obtain ⟨rfl, rfl, rfl⟩ := hargs
      obtain ⟨hf, hn⟩ := mint_writes_fresh l hcan creator pollId _ hlen m hscan
      exact ⟨_, _, h, hf, hn, applyWrites_keeps l _ hf⟩
  · intro hcp hct
    cases hs : scanMaxIndex "POLL" (GetStateByRange l "POLL0" "POLL999") 0 with
    | indexOutOfRange => exact absurd hs (pollScan_no_panic l)
    | parseError s e =>
      refine ⟨.Error (.atoiError s e), [], ?_, by simp, by simp, fun k v hg => hg⟩
      unfold createPoll
      simp only [hs]
      rfl
    | index mp =>
      obtain ⟨hp0, hp1⟩ := scanMaxIndex_index_range _ _ mp hs
      have hpk : GetState l (pollKey (wrapInt (mp + 1))) = none := by
        have : 0 ≤ wrapInt (mp + 1) → mp < wrapInt (mp + 1) := by
          unfold wrapInt
          omega
        exact fresh_key "POLL" 'P' _ rfl (by decide) l hcp mp hs _ (wrapInt_lt _) this
      have hrange : GetStateByRange
          (PutState l (pollKey (wrapInt (mp + 1))) (.poll ⟨host, detail, deadline, ""⟩))
          "VOTETOKEN0" "VOTETOKEN999" = GetStateByRange l "VOTETOKEN0" "VOTETOKEN999" :=
        GetStateByRange_PutState_outside _ _ _ _ _ (pollKey_not_in_token_range _)
      unfold createPoll
      simp only [hs]
      rw [show "POLL" ++ Itoa (wrapInt (mp + 1)) = pollKey (wrapInt (mp + 1)) from rfl]
      rcases mintTokens_returns
          (PutState l (pollKey (wrapInt (mp + 1))) (.poll ⟨host, detail, deadline, ""⟩))
          [host, csv, pollKey (wrapInt (mp + 1))] with h | ⟨b0, b1, b2, m, hargs, hscan, h⟩
      · rw [h]
        have hf : ∀ w ∈ [(pollKey (wrapInt (mp + 1)),
            Value.poll ⟨host, detail, deadline, ""⟩)], GetState l w.1 = none := by
          intro w hw
          rw [List.mem_singleton] at hw
          rw [hw]
          exact hpk
        exact ⟨_, [(pollKey (wrapInt (mp + 1)), .poll ⟨host, detail, deadline, ""⟩)], rfl, hf,
          by simp, applyWrites_keeps l _ hf⟩
      · rw [h]
        simp only [List.cons.injEq, and_true] at hargs
        obtain ⟨rfl, rfl, rfl⟩ := hargs
        rw [hrange] at hscan
        obtain ⟨hf, hn⟩ := mint_writes_fresh l hct host (pollKey (wrapInt (mp + 1))) _ hlen m hscan
        have hf1 : ∀ w ∈ (pollKey (wrapInt (mp + 1)), Value.poll ⟨host, detail, deadline, ""⟩) ::
            mintLoopWrites host (pollKey (wrapInt (mp + 1))) (wrapInt (m + 1)) (Split csv ",") 0,
            GetState l w.1 = none := by
          intro w hw
          rcases List.mem_cons.mp hw with rfl | hw1
          · exact hpk
          · exact hf w hw1
        refine ⟨_, _, rfl, hf1, ?_, applyWrites_keeps l _ hf1⟩
        rw [List.map_cons, List.nodup_cons]
        refine ⟨?_, hn⟩
        intro hmem
        rw [List.mem_map] at hmem
        obtain ⟨w, hw, hk⟩ := hmem
        obtain ⟨n, hn1⟩ := mintLoopWrites_keys _ _ _ _ _ w hw
        rw [hn1] at hk
        exact tokenKey_ne_pollKey _ _ hk

theorem onePollLedger_canonical :
    canonicalKeys "POLL" onePollLedger ∧ canonicalKeys "VOTETOKEN" onePollLedger := by
  constructor
  · intro k v hg hs
    have hm := GetState_mem hg
    simp only [onePollLedger, List.mem_cons, Prod.mk.injEq, List.mem_nil_iff, or_false] at hm
    rcases hm with ⟨rfl, _⟩ | ⟨rfl, _⟩ | ⟨rfl, _⟩
    · exact absurd hs (by decide)
    · exact absurd hs (by decide)
    · exact ⟨⟨1, by decide⟩, by decide⟩
  · intro k v hg hs
    have hm := GetState_mem hg
    simp only [onePollLedger, List.mem_cons, Prod.mk.injEq, List.mem_nil_iff, or_false] at hm
    rcases hm with ⟨rfl, _⟩ | ⟨rfl, _⟩ | ⟨rfl, _⟩
    · exact ⟨⟨2, by decide⟩, by decide⟩
    · exact ⟨⟨1, by decide⟩, by decide⟩
    · exact absurd hs (by decide)

/-- The C17 property at a ledger with the poll `POLL1` and the tokens
`VOTETOKEN1` and `VOTETOKEN2`, for a new poll with two invitees. -/
theorem allocation_is_collision_free_witness :
    (Split "dave,erin" ",").length ≤ 2 ^ 63 ∧
    canonicalKeys "POLL" onePollLedger ∧ canonicalKeys "VOTETOKEN" onePollLedger ∧
    ∃ resp ws, createPoll onePollLedger ["alice", "dave,erin", "dinner?", "2099-02-02"] =
        some (resp, applyWrites onePollLedger ws) ∧
      (∀ w ∈ ws, GetState onePollLedger w.1 = none) ∧ (ws.map Prod.fst).Nodup ∧
      ∀ k v, GetState onePollLedger k = some v →
        GetState (applyWrites onePollLedger ws) k = some v :=
  ⟨by decide, onePollLedger_canonical.1, onePollLedger_canonical.2,
    (allocation_is_collision_free onePollLedger "alice" "POLL1" "alice" "dave,erin" "dinner?"
      "2099-02-02" (by decide)).2 onePollLedger_canonical.1 onePollLedger_canonical.2⟩

/-- The C16 property at index 9990 and at index 1000: the stored key
`POLL9990` is not read by the scan, the stored key `VOTETOKEN1000` is. -/
theorem index_outside_window_iff_starts_with_999_witness :
    (GetState [("POLL9990", .user ⟨"u", 1⟩)] (pollKey ((9990 : Nat) : Int)) =
        some (.user ⟨"u", 1⟩) ∧
      ((pollKey ((9990 : Nat) : Int), .user ⟨"u", 1⟩) ∈
          GetStateByRange [("POLL9990", .user ⟨"u", 1⟩)] "POLL0" "POLL999" ↔
        ['9', '9', '9'].isPrefixOf (decimal 9990) = false)) ∧
    (GetState [("VOTETOKEN1000", .user ⟨"u", 1⟩)] (tokenKey ((1000 : Nat) : Int)) =
        some (.user ⟨"u", 1⟩) ∧
      ((tokenKey ((1000 : Nat) : Int), .user ⟨"u", 1⟩) ∈
          GetStateByRange [("VOTETOKEN1000", .user ⟨"u", 1⟩)] "VOTETOKEN0" "VOTETOKEN999" ↔
        ['9', '9', '9'].isPrefixOf (decimal 1000) = false)) :=
  ⟨⟨by decide, (index_outside_window_iff_starts_with_999 9990).2.2.1 _ _ (by decide)⟩,
    ⟨by decide, (index_outside_window_iff_starts_with_999 1000).2.2.2 _ _ (by decide)⟩⟩

/-! ## The writes of `createPoll`, key by key -/

theorem mintLoopWrites_eq_enumFrom (c p : String) (b : Int) (addrs : List String) (n : Nat) :
    mintLoopWrites c p b addrs (n : Int) =
      (addrs.enumFrom n).map
        (fun ia => (tokenKey (wrapInt (b + (ia.1 : Int))), mintedToken c p ia.2)) := by
  induction addrs generalizing n with
  | nil => rfl
  | cons a rest ih =>
    simp only [mintLoopWrites, List.enumFrom_cons, List.map_cons]
    have h := ih (n + 1)
    rw [Nat.cast_add, Nat.cast_one] at h
    rw [h]

theorem mintLoopWrites_eq_wrapped (c p : String) (b : Int) (addrs : List String) :
    mintLoopWrites c p b addrs 0 = mintWritesWrapped c p b addrs := by
  have h := mintLoopWrites_eq_enumFrom c p b addrs 0
  rw [Nat.cast_zero] at h
  rw [h]
  rfl

theorem mintLoopWrites_getElem (c p : String) (b : Int) (addrs : List String) (i0 : Int) :
    ∀ (i : Nat) (a : String), addrs[i]? = some a →
      (tokenKey (wrapInt (b + (i0 + (i : Int)))), mintedToken c p a) ∈
        mintLoopWrites c p b addrs i0 := by
  induction addrs generalizing i0 with
  | nil => intro i a h; simp at h
  | cons x rest ih =>
    intro i a h
    cases i with
    | zero =>
      simp only [List.getElem?_cons_zero, Option.some.injEq] at h
      rw [h]
      simp [mintLoopWrites]
    | succ j =>
      simp only [List.getElem?_cons_succ] at h
      have h1 := ih (i0 + 1) j a h
      simp only [mintLoopWrites]
      refine List.mem_cons_of_mem _ ?_
      have h2 : i0 + ((j + 1 : Nat) : Int) = i0 + 1 + (j : Int) := by push_cast; ring
      rw [h2]
      exact h1

theorem mem_PutState_of_mem (l : Ledger) (k : String) (v : Value) (e : String × Value)
    (h : e ∈ l) : e ∈ PutState l k v := by
  unfold PutState
  split_ifs
  · exact h
  · exact List.mem_cons_of_mem _ h

theorem mem_applyWrites_of_mem (l : Ledger) (ws : List (String × Value)) (e : String × Value)
    (h : e ∈ l) : e ∈ applyWrites l ws := by
  induction ws generalizing l with
  | nil => exact h
  | cons w rest ih =>
    simp only [applyWrites, List.foldl_cons]
    exact ih _ (mem_PutState_of_mem l w.1 w.2 e h)

theorem mem_applyWrites (l : Ledger) (ws : List (String × Value)) (w : String × Value)
    (hw : w ∈ ws) (hne : w.1 ≠ "") : w ∈ applyWrites l ws := by
  induction ws generalizing l with
  | nil => simp at hw
  | cons w0 rest ih =>
    simp only [applyWrites, List.foldl_cons]
    rcases List.mem_cons.mp hw with rfl | h1
    · apply mem_applyWrites_of_mem
      unfold PutState
      rw [if_neg hne]
      exact List.mem_cons_self _ _
    · exact ih _ h1

theorem GetState_applyWrites_mem (l : Ledger) (ws : List (String × Value))
    (hnd : (ws.map Prod.fst).Nodup) (w : String × Value) (hw : w ∈ ws) (hne : w.1 ≠ "") :
    GetState (applyWrites l ws) w.1 = some w.2 := by
  induction ws generalizing l with
  | nil => simp at hw
  | cons w0 rest ih =>
    rw [List.map_cons, List.nodup_cons] at hnd
    rcases List.mem_cons.mp hw with rfl | h1
    · have hother : ∀ e ∈ rest, e.1 ≠ w.1 := by
        intro e he heq
        exact hnd.1 (List.mem_map.mpr ⟨e, he, heq⟩)
      have h2 := GetState_applyWrites_other (PutState l w.1 w.2) rest w.1 hother
      simp only [applyWrites, List.foldl_cons]
      unfold applyWrites at h2
      rw [h2, GetState_PutState _ _ _ _ hne, if_pos rfl]
    · have h2 := ih (PutState l w0.1 w0.2) hnd.2 h1
      simp only [applyWrites, List.foldl_cons]
      unfold applyWrites at h2
      exact h2

/-- C7: when both allocation scans parse, with `p` the poll index and `b` the
token base index that they give, a `createPoll` call on four arguments returns
success; the ledger it leaves is the old one with the poll record of host,
detail, deadline and empty result written at `POLL` + decimal `p` and then,
for the `i`-th comma-separated invitee, the token of creator host, the trimmed
invitee, poll id `POLL` + decimal `p` and empty response written at
`VOTETOKEN` + decimal `(b + i)`; these are the writes of `mintTokens` on host,
address list and new poll key. The poll record is stored, every invitee's
token is an entry of the ledger and, for an address list of at most 2^63
pieces (the length of a Go string is an `int`), is the value stored at its
key; no other key changes. -/
theorem createPoll_writes_poll_and_tokens (l : Ledger) (host csv detail deadline : String)
    (mp mt : Int)
    (hp : scanMaxIndex "POLL" (GetStateByRange l "POLL0" "POLL999") 0 = .index mp)
    (ht : scanMaxIndex "VOTETOKEN" (GetStateByRange l "VOTETOKEN0" "VOTETOKEN999") 0 =
      .index mt) :
    ∃ usrvt l1,
      mintTokens l [host, csv, pollKey (wrapInt (mp + 1))] =
        some (some usrvt, applyWrites l
          (mintWritesWrapped host (pollKey (wrapInt (mp + 1))) (wrapInt (mt + 1))
            (Split csv ","))) ∧
      createPoll l [host, csv, detail, deadline] = some (.Success [], l1) ∧
      l1 = applyWrites
        (PutState l (pollKey (wrapInt (mp + 1))) (.poll ⟨host, detail, deadline, ""⟩))
        (mintWritesWrapped host (pollKey (wrapInt (mp + 1))) (wrapInt (mt + 1))
          (Split csv ",")) ∧
      GetState l1 (pollKey (wrapInt (mp + 1))) = some (.poll ⟨host, detail, deadline, ""⟩) ∧
      (∀ (i : Nat) (a : String), (Split csv ",")[i]? = some a →
        (tokenKey (wrapInt (wrapInt (mt + 1) + (i : Int))),
          Value.token ⟨host, TrimSpace a, pollKey (wrapInt (mp + 1)), ""⟩) ∈ l1) ∧
      ((Split csv ",").length ≤ 2 ^ 63 →
        ∀ (i : Nat) (a : String), (Split csv ",")[i]? = some a →
          GetState l1 (tokenKey (wrapInt (wrapInt (mt + 1) + (i : Int)))) =
            some (.token ⟨host, TrimSpace a, pollKey (wrapInt (mp + 1)), ""⟩)) ∧
      ∀ k, k ≠ pollKey (wrapInt (mp + 1)) →
        (∀ i : Nat, i < (Split csv ",").length →
          k ≠ tokenKey (wrapInt (wrapInt (mt + 1) + (i : Int)))) →
        GetState l1 k = GetState l k := by
  rw [← mintLoopWrites_eq_wrapped]
  have hkeys : ∀ e ∈ mintLoopWrites host (pollKey (wrapInt (mp + 1))) (wrapInt (mt + 1))
      (Split csv ",") 0, e.1 ≠ pollKey (wrapInt (mp + 1)) := by
    intro e he
    obtain ⟨n, hn⟩ := mintLoopWrites_keys _ _ _ _ _ e he
    rw [hn]
    exact tokenKey_ne_pollKey _ _
  have hget : ∀ (i : Nat) (a : String), (Split csv ",")[i]? = some a →
      ((tokenKey (wrapInt (wrapInt (mt + 1) + (i : Int))),
        Value.token ⟨host, TrimSpace a, pollKey (wrapInt (mp + 1)), ""⟩) : String × Value) ∈
        mintLoopWrites host (pollKey (wrapInt (mp + 1))) (wrapInt (mt + 1))
          (Split csv ",") 0 := by
    intro i a hi
    have h := mintLoopWrites_getElem host (pollKey (wrapInt (mp + 1))) (wrapInt (mt + 1))
      (Split csv ",") 0 i a hi
    rw [zero_add] at h
    exact h
  refine ⟨_, _, mintTokens_eq l _ _ _ mt ht, ?_, rfl, ?_, ?_, ?_, ?_⟩
  · have ht1 : scanMaxIndex "VOTETOKEN" (GetStateByRange
        (PutState l (pollKey (wrapInt (mp + 1))) (.poll ⟨host, detail, deadline, ""⟩))
        "VOTETOKEN0" "VOTETOKEN999") 0 = .index mt := by
      rw [GetStateByRange_PutState_outside _ _ _ _ _ (pollKey_not_in_token_range _)]
      exact ht
    unfold createPoll
    simp only [hp]
    rw [show "POLL" ++ Itoa (wrapInt (mp + 1)) = pollKey (wrapInt (mp + 1)) from rfl,
      mintTokens_eq _ _ _ _ mt ht1]
  · rw [GetState_applyWrites_other _ _ _ hkeys,
      GetState_PutState _ _ _ _ (pollKey_ne_empty _), if_pos rfl]
  · intro i a hi
    exact mem_applyWrites _ _ _ (hget i a hi) (tokenKey_ne_empty _)
  · intro hlen i a hi
    have hl : (((Split csv ",").length : Nat) : Int) ≤ 2 ^ 63 := by exact_mod_cast hlen
    have hnd := mintLoopWrites_nodup host (pollKey (wrapInt (mp + 1))) (wrapInt (mt + 1))
      (Split csv ",") 0 (le_refl 0) (by omega)
    exact GetState_applyWrites_mem _ _ hnd _ (hget i a hi) (tokenKey_ne_empty _)
  · intro k hk1 hk2
    rw [GetState_applyWrites_other, GetState_PutState_ne _ _ _ _ hk1]
    intro e he heq
    obtain ⟨j, hj, hkj⟩ := mintLoopWrites_mem _ _ _ _ _ e he
    rw [zero_add] at hkj
    exact hk2 j hj (by rw [← heq, hkj])

/-- Witness for C7: the first poll on the empty ledger, with two invitees; the
ledger it leaves holds `POLL1`, `VOTETOKEN1` and `VOTETOKEN2`. -/
theorem createPoll_writes_poll_and_tokens_witness :
    createPoll [] ["alice", "bob, carol", "lunch?", "2099-01-01"] =
      some (.Success [],
        [("VOTETOKEN2", .token ⟨"alice", "carol", "POLL1", ""⟩),
         ("VOTETOKEN1", .token ⟨"alice", "bob", "POLL1", ""⟩),
         ("POLL1", .poll ⟨"alice", "lunch?", "2099-01-01", ""⟩)]) ∧
    (Split "bob, carol" ",").length ≤ 2 ^ 63 ∧
    ∃ usrvt l1,
      mintTokens [] ["alice", "bob, carol", pollKey (wrapInt (0 + 1))] =
        some (some usrvt, applyWrites []
          (mintWritesWrapped "alice" (pollKey (wrapInt (0 + 1))) (wrapInt (0 + 1))
            (Split "bob, carol" ","))) ∧
      createPoll [] ["alice", "bob, carol", "lunch?", "2099-01-01"] = some (.Success [], l1) ∧
      l1 = applyWrites
        (PutState [] (pollKey (wrapInt (0 + 1))) (.poll ⟨"alice", "lunch?", "2099-01-01", ""⟩))
        (mintWritesWrapped "alice" (pollKey (wrapInt (0 + 1))) (wrapInt (0 + 1))
          (Split "bob, carol" ",")) ∧
      GetState l1 (pollKey (wrapInt (0 + 1))) =
        some (.poll ⟨"alice", "lunch?", "2099-01-01", ""⟩) ∧
      (∀ (i : Nat) (a : String), (Split "bob, carol" ",")[i]? = some a →
        (tokenKey (wrapInt (wrapInt (0 + 1) + (i : Int))),
          Value.token ⟨"alice", TrimSpace a, pollKey (wrapInt (0 + 1)), ""⟩) ∈ l1) ∧
      ((Split "bob, carol" ",").length ≤ 2 ^ 63 →
        ∀ (i : Nat) (a : String), (Split "bob, carol" ",")[i]? = some a →
          GetState l1 (tokenKey (wrapInt (wrapInt (0 + 1) + (i : Int)))) =
            some (.token ⟨"alice", TrimSpace a, pollKey (wrapInt (0 + 1)), ""⟩)) ∧
      ∀ k, k ≠ pollKey (wrapInt (0 + 1)) →
        (∀ i : Nat, i < (Split "bob, carol" ",").length →
          k ≠ tokenKey (wrapInt (wrapInt (0 + 1) + (i : Int)))) →
        GetState l1 k = GetState [] k :=
  ⟨by decide, by decide,
    createPoll_writes_poll_and_tokens [] "alice" "bob, carol" "lunch?" "2099-01-01" 0 0
      (by decide) (by decide)⟩

/-! ## The failure of the range scan in `queryData` -/

/-- A prefix that begins with U+0000 makes the range scan of `queryData` fail;
the handler returns that failure and leaves the ledger as it is. -/
theorem queryData_scan_failure (l : Ledger) (rest : List Char) (args : List String) :
    ∃ msg, queryData l (⟨Char.ofNat 0 :: rest⟩ :: args) = some (.Error msg, l) := by
  unfold queryData
  have h : rangeScanError ((⟨Char.ofNat 0 :: rest⟩ : String) ++ "0")
      ((⟨Char.ofNat 0 :: rest⟩ : String) ++ "999") =
      some (.text ("first character of the key [" ++
        ((⟨Char.ofNat 0 :: rest⟩ : String) ++ "0") ++
        "] contains a null character which is not allowed")) := by
    unfold rangeScanError
    rw [if_pos]
    rw [String.data_append]
    rfl
  simp only [h]
  exact ⟨_, rfl⟩

end Hyperchecker
